import Mathlib

/-!
# Verification of the comparator-based B-tree map engine

This file gives a shallow embedding of the B-tree ordered-map engine found in
`src/liballoc/collections/btree/` (`map.rs`, `search.rs`) and settles the
frozen claims about it.

Conventions of the embedding:
* A per-call comparator is a function `comp : α → Ordering`; `comp k` is the
  ordering of the (implicit) target key relative to the stored key `k`,
  exactly as in the source (`C: FnMut(&K) -> Ordering`).
* The node layer, the insertion engine, the deletion engine and the traversal
  engine live in source files (`node.rs`, `remove.rs`, `navigate.rs`,
  `split.rs`, `append.rs`, `map/entry.rs`) that are not part of the sources
  provided under `src/`; those parts are modelled from the specification and
  are marked `Modelled from the spec:` in their doc comments.  Everything
  taken from `map.rs` or `search.rs` is transcribed from the source.
* Machine integers only appear as lengths; they are modelled as `Nat`
  (no overflow is reachable for in-memory collections).
* The tree type is indexed by its height, which realises the spec sentence
  "All leaves are at equal depth from the root (perfect balance by
  construction)" literally: balance holds by construction.
-/

namespace BTreeVerify

/-- The comparator used by every theorem that speaks about "a comparator
targeting `k` consistent with the tree's order": `compC k k'` is the ordering
of the target `k` relative to the stored key `k'`. -/
def compC {α : Type} [LinearOrder α] (k : α) : α → Ordering :=
  fun y => if k < y then .lt else if k = y then .eq else .gt


/-! ## `search.rs`: bounds and index search (transcribed from the source) -/

/-- `SearchBound` from `search.rs`: the four-valued bound used for range
endpoints. -/
inductive SearchBound : Type where
  | Included
  | Excluded
  | AllIncluded
  | AllExcluded
deriving DecidableEq, Repr

/-- `IndexResult` from `search.rs`: the key index at which the target exists,
or the edge index where it belongs. -/
inductive IndexResult : Type where
  | kv (i : Nat)
  | edge (i : Nat)
deriving DecidableEq, Repr

/-- The scan loop of `find_key_index` in `search.rs`: walk the keys from
`start_index`; `Greater` keeps scanning, `Equal` yields `KV`, `Less` yields
`Edge`; exhausting the keys yields the trailing edge. -/
def findKeyIndexFrom {α : Type} (comp : α → Ordering) : List α → Nat → IndexResult
  | [], i => .edge i
  | k :: ks, i =>
    match comp k with
    | .gt => findKeyIndexFrom comp ks (i + 1)
    | .eq => .kv i
    | .lt => .edge i

/-- `find_key_index` from `search.rs` (the node is represented by its key
list). -/
def find_key_index {α : Type} (comp : α → Ordering) (keys : List α)
    (start_index : Nat) : IndexResult :=
  findKeyIndexFrom comp (keys.drop start_index) start_index

/-- `find_lower_bound_index` from `search.rs`, transcribed case by case. -/
def find_lower_bound_index {α : Type} (comp : α → Ordering) (keys : List α)
    (bound : SearchBound) : Nat × SearchBound :=
  match bound with
  | .Included =>
    match find_key_index comp keys 0 with
    | .kv idx => (idx, .AllExcluded)
    | .edge idx => (idx, .Included)
  | .Excluded =>
    match find_key_index comp keys 0 with
    | .kv idx => (idx + 1, .AllIncluded)
    | .edge idx => (idx, .Excluded)
  | .AllIncluded => (0, .AllIncluded)
  | .AllExcluded => (keys.length, .AllExcluded)

/-- `find_upper_bound_index` from `search.rs`, transcribed case by case. -/
def find_upper_bound_index {α : Type} (comp : α → Ordering) (keys : List α)
    (bound : SearchBound) (start_index : Nat) : Nat × SearchBound :=
  match bound with
  | .Included =>
    match find_key_index comp keys start_index with
    | .kv idx => (idx + 1, .AllExcluded)
    | .edge idx => (idx, .Included)
  | .Excluded =>
    match find_key_index comp keys start_index with
    | .kv idx => (idx, .AllIncluded)
    | .edge idx => (idx, .Excluded)
  | .AllIncluded => (keys.length, .AllIncluded)
  | .AllExcluded => (start_index, .AllExcluded)

/-! ## The node layer

Modelled from the spec: `node.rs` is not among the provided sources.  The
spec's data model (§3) prescribes: a node is either a leaf (an ordered array
of key/value slots) or an internal node (an ordered array of `n` key/value
slots plus `n + 1` child references); a non-root node holds between a minimum
occupancy `M` and a maximum of `2M + 1` entries; all leaves are at equal
depth.  The source family uses `B = 6`, i.e. `MIN_LEN = 5` and
`CAPACITY = 11` (`map.rs` refers to `MIN_LEN` in its invariant comment).
The height index makes "equal leaf depth" hold by construction, and an
internal node carries one more child than it has keys by construction
(a first child plus one child to the right of each key), matching the spec's
"`n` key/value slots plus `n + 1` child references". -/

/-- Minimum occupancy of a non-root node (`MIN_LEN` in the source family). -/
def MIN_LEN : Nat := 5

/-- Maximum number of keys a node can hold (`CAPACITY = 2 * MIN_LEN + 1`). -/
def CAPACITY : Nat := 11

/-- Modelled from the spec: a B-tree node of height `h`.  A leaf (height `0`)
is its list of key/value slots; an internal node of height `h + 1` is a first
child `c0` paired with a list of key/value slots, each slot carrying the
child to its right. -/
@[reducible] def BNodeH (α V : Type) : Nat → Type
  | 0 => List (α × V)
  | h + 1 => BNodeH α V h × List ((α × V) × BNodeH α V h)

/-- The in-order traversal of a subtree, as the list of its key/value pairs. -/
def inorder {α V : Type} : (h : Nat) → BNodeH α V h → List (α × V)
  | 0, kvs => kvs
  | h + 1, (c0, rest) => inorder h c0 ++ rest.flatMap (fun p => p.1 :: inorder h p.2)

/-- The keys stored in the node itself (not its subtree): what
`NodeRef::keys` exposes to `search.rs`. -/
def nodeKeys {α V : Type} : (h : Nat) → BNodeH α V h → List α
  | 0, kvs => kvs.map Prod.fst
  | _ + 1, (_, rest) => rest.map (fun p => p.1.1)

/-- The number of keys stored in the node itself (`NodeRef::len`). -/
def nodeLen {α V : Type} : (h : Nat) → BNodeH α V h → Nat
  | 0, kvs => kvs.length
  | _ + 1, (_, rest) => rest.length

/-- The number of children of the node (`0` for a leaf). -/
def numChildren {α V : Type} : (h : Nat) → BNodeH α V h → Nat
  | 0, _ => 0
  | _ + 1, (_, rest) => rest.length + 1

/-- Occupancy/capacity check for a non-root node and, recursively, everything
below it: between `MIN_LEN` and `CAPACITY` keys per node. -/
def wfInner {α V : Type} : (h : Nat) → BNodeH α V h → Bool
  | 0, kvs => decide (MIN_LEN ≤ kvs.length) && decide (kvs.length ≤ CAPACITY)
  | h + 1, (c0, rest) =>
    decide (MIN_LEN ≤ rest.length) && decide (rest.length ≤ CAPACITY) &&
    wfInner h c0 && rest.all (fun p => wfInner h p.2)

/-- Occupancy/capacity check for the root node: the root may hold as few as
zero keys if it is a leaf, and at least one key if it is internal
(`map.rs`: "Every non-leaf node contains at least 1 element"); every node
below it satisfies `wfInner`. -/
def wfRoot {α V : Type} : (h : Nat) → BNodeH α V h → Bool
  | 0, kvs => decide (kvs.length ≤ CAPACITY)
  | h + 1, (c0, rest) =>
    decide (1 ≤ rest.length) && decide (rest.length ≤ CAPACITY) &&
    wfInner h c0 && rest.all (fun p => wfInner h p.2)

/-- Relaxed occupancy check used for the result of a removal: the node's own
key count may have dropped one below `MIN_LEN`, but every node strictly below
it is fully well-formed. -/
def wfUnder {α V : Type} : (h : Nat) → BNodeH α V h → Bool
  | 0, kvs => decide (MIN_LEN - 1 ≤ kvs.length) && decide (kvs.length ≤ CAPACITY)
  | h + 1, (c0, rest) =>
    decide (MIN_LEN - 1 ≤ rest.length) && decide (rest.length ≤ CAPACITY) &&
    wfInner h c0 && rest.all (fun p => wfInner h p.2)

/-- Check that the node's children are all `wfInner`, with no constraint on
the node's own key count (common weakening of `wfRoot` and `wfInner`). -/
def wfKids {α V : Type} : (h : Nat) → BNodeH α V h → Bool
  | 0, _ => true
  | h + 1, (c0, rest) => wfInner h c0 && rest.all (fun p => wfInner h p.2)

/-- Check that every internal node in the subtree has one more child than it
has keys (stated over the accessors `numChildren`/`nodeLen`). -/
def childCountOk {α V : Type} : (h : Nat) → BNodeH α V h → Bool
  | 0, _ => true
  | h + 1, (c0, rest) =>
    decide (numChildren (h + 1) ((c0, rest) : BNodeH α V (h + 1)) =
      nodeLen (h + 1) ((c0, rest) : BNodeH α V (h + 1)) + 1) &&
    childCountOk h c0 && rest.all (fun p => childCountOk h p.2)

/-! ## Point search: `search_node`/`search_tree` (from `search.rs`)

`search_tree` repeatedly runs `search_node` (one `find_key_index` per node)
and descends through `GoDown` edges of internal nodes until it finds the key
or bottoms out at a leaf edge.  The embedding returns the found key/value
pair (`Found(handle).into_kv()`), or `none` for the leaf `GoDown` edge. -/

/-- `search_tree` from `search.rs`, returning the key/value slot it finds. -/
def search_tree {α V : Type} : (h : Nat) → (α → Ordering) → BNodeH α V h →
    Option (α × V)
  | 0, comp, kvs =>
    match find_key_index comp (kvs.map Prod.fst) 0 with
    | .kv i => kvs[i]?
    | .edge _ => none
  | h + 1, comp, (c0, rest) =>
    match find_key_index comp (rest.map (fun p => p.1.1)) 0 with
    | .kv i => (rest[i]?).map (·.1)
    | .edge 0 => search_tree h comp c0
    | .edge (i + 1) =>
      match rest[i]? with
      | some p => search_tree h comp p.2
      | none => none

/-! ## The insertion engine

Modelled from the spec (§4.5), `node.rs`/`map/entry.rs` being absent from the
sources: place the key/value at the leaf edge found by search; if the node
then exceeds `CAPACITY`, split it around the median key and promote the
median one level up, repeating at each ancestor; an occupied slot instead has
its value replaced in place, returning the previous value. -/

/-- Result of inserting into a subtree: the subtree absorbed the new entry,
or it split into a left node, a promoted median key/value, and a right node. -/
inductive InsResult (α V : Type) (h : Nat) : Type where
  | fit (t : BNodeH α V h)
  | split (l : BNodeH α V h) (kv : α × V) (r : BNodeH α V h)

/-- Modelled from the spec: split an overflowed slot list around the median.
Returns `none` while the list is within `CAPACITY`; an overflowed list (which
the engine only ever produces at length `CAPACITY + 1 = 2 * MIN_LEN + 2`)
yields a left part of `MIN_LEN` slots, the median, and the rest. -/
def splitNodeList {β : Type} (es : List β) : Option (List β × β × List β) :=
  if es.length ≤ CAPACITY then none
  else
    match es.drop MIN_LEN with
    | m :: rights => some (es.take MIN_LEN, m, rights)
    | [] => none

/-- Modelled from the spec: recursive insertion with split propagation.  The
first component is the previous value if the key was already present. -/
def insertN {α V : Type} : (h : Nat) → (α → Ordering) → α → V → BNodeH α V h →
    Option V × InsResult α V h
  | 0, comp, k, v, kvs =>
    match find_key_index comp (kvs.map Prod.fst) 0 with
    | .kv i =>
      ((kvs[i]?).map (·.2),
       .fit (match kvs[i]? with
             | some (k0, _) => kvs.set i (k0, v)
             | none => kvs))
    | .edge i =>
      match splitNodeList (kvs.insertIdx i (k, v)) with
      | none => (none, .fit (kvs.insertIdx i (k, v)))
      | some (l, m, r) => (none, .split l m r)
  | h + 1, comp, k, v, (c0, rest) =>
    match find_key_index comp (rest.map (fun p => p.1.1)) 0 with
    | .kv i =>
      ((rest[i]?).map (·.1.2),
       .fit (c0, match rest[i]? with
                 | some ((k0, _), d) => rest.set i ((k0, v), d)
                 | none => rest))
    | .edge 0 =>
      match insertN h comp k v c0 with
      | (old, .fit c0') => (old, .fit (c0', rest))
      | (old, .split l m r) =>
        match splitNodeList ((m, r) :: rest) with
        | none => (old, .fit (l, (m, r) :: rest))
        | some (rl, (mkv, mc), rr) => (old, .split (l, rl) mkv (mc, rr))
    | .edge (i + 1) =>
      match rest[i]? with
      | none => (none, .fit (c0, rest))
      | some (kv0, d) =>
        match insertN h comp k v d with
        | (old, .fit d') => (old, .fit (c0, rest.set i (kv0, d')))
        | (old, .split l m r) =>
          match splitNodeList (rest.take i ++ (kv0, l) :: (m, r) :: rest.drop (i + 1)) with
          | none => (old, .fit (c0, rest.take i ++ (kv0, l) :: (m, r) :: rest.drop (i + 1)))
          | some (rl, (mkv, mc), rr) => (old, .split (c0, rl) mkv (mc, rr))

/-! ## The deletion engine

Modelled from the spec (§4.6), `remove.rs`/`fix.rs` being absent from the
sources: remove at a leaf (an internal slot is first exchanged with its
in-order successor, extracted from the leaf level); if the affected child now
underflows below `MIN_LEN`, borrow one entry from an adjacent sibling through
the shared parent when a sibling has a surplus, otherwise merge the child
with a sibling, pulling the separating parent key down; underflow may cascade
up to the root, which is handled at the map level. -/

/-- Modelled from the spec: rotation moving the left sibling's last entry up
to the parent and the parent's separating entry down into the right node
(with, for internal nodes, the left sibling's last child). -/
def stealLeft {α V : Type} : (h : Nat) → BNodeH α V h → (α × V) → BNodeH α V h →
    BNodeH α V h × (α × V) × BNodeH α V h
  | 0, a, p, b =>
    match a.getLast? with
    | none => (a, p, b)
    | some m => (a.dropLast, m, p :: b)
  | _ + 1, (ca, ra), p, (cb, rb) =>
    match ra.getLast? with
    | none => ((ca, ra), p, (cb, rb))
    | some (m, d) => ((ca, ra.dropLast), m, (d, (p, cb) :: rb))

/-- Modelled from the spec: rotation moving the right sibling's first entry
up to the parent and the parent's separating entry down into the left node
(with, for internal nodes, the right sibling's first child). -/
def stealRight {α V : Type} : (h : Nat) → BNodeH α V h → (α × V) → BNodeH α V h →
    BNodeH α V h × (α × V) × BNodeH α V h
  | 0, a, p, b =>
    match b with
    | [] => (a, p, b)
    | m :: b' => (a ++ [p], m, b')
  | _ + 1, (ca, ra), p, (cb, rb) =>
    match rb with
    | [] => ((ca, ra), p, (cb, rb))
    | (m, d) :: rb' => ((ca, ra ++ [(p, cb)]), m, (d, rb'))

/-- Modelled from the spec: merge two adjacent siblings, pulling the
separating parent entry down between them. -/
def mergeNodes {α V : Type} : (h : Nat) → BNodeH α V h → (α × V) → BNodeH α V h →
    BNodeH α V h
  | 0, a, kv, b => a ++ kv :: b
  | _ + 1, (ca, ra), kv, (cb, rb) => (ca, ra ++ (kv, cb) :: rb)

/-- Modelled from the spec: repair a possibly underflowed child at edge index
`j` of the internal node `(cl, rest)`.  The child keeps its keys if it is not
underfull; otherwise an adjacent sibling with a surplus donates one entry by
rotation, and if neither adjacent sibling has a surplus the child is merged
with its left neighbour (its right neighbour when it is the leftmost child). -/
def fixAtAux {α V : Type} : (h : Nat) → BNodeH α V h →
    List ((α × V) × BNodeH α V h) → Nat →
    BNodeH α V h × List ((α × V) × BNodeH α V h)
  | h, cl, rest, 0 =>
    if MIN_LEN ≤ nodeLen h cl then (cl, rest)
    else
      match rest with
      | [] => (cl, rest)
      | (p, d0) :: rtl =>
        if MIN_LEN < nodeLen h d0 then
          match stealRight h cl p d0 with
          | (cl', p', d0') => (cl', (p', d0') :: rtl)
        else (mergeNodes h cl p d0, rtl)
  | _, cl, [], _ + 1 => (cl, [])
  | h, cl, (p, d) :: rtl, 1 =>
    if MIN_LEN ≤ nodeLen h d then (cl, (p, d) :: rtl)
    else if MIN_LEN < nodeLen h cl then
      match stealLeft h cl p d with
      | (cl', p', d') => (cl', (p', d') :: rtl)
    else
      match rtl with
      | (q, e) :: rtl' =>
        if MIN_LEN < nodeLen h e then
          match stealRight h d q e with
          | (d', q', e') => (cl, (p, d') :: (q', e') :: rtl')
        else (mergeNodes h cl p d, rtl)
      | [] => (mergeNodes h cl p d, rtl)
  | h, cl, (p, d) :: rtl, j + 2 =>
    match fixAtAux h d rtl (j + 1) with
    | (d', rtl') => (cl, (p, d') :: rtl')

/-- Modelled from the spec: extract the in-order first key/value pair of a
subtree (the successor used when deleting an internal slot), repairing any
underflow on the way back up.  `none` only for an empty leaf, which a
well-formed child never is. -/
def delMinN {α V : Type} : (h : Nat) → BNodeH α V h →
    Option ((α × V) × BNodeH α V h)
  | 0, kvs =>
    match kvs with
    | [] => none
    | kv :: tl => some (kv, tl)
  | h + 1, (c0, rest) =>
    match delMinN h c0 with
    | none => none
    | some (kv, c0') => some (kv, fixAtAux h c0' rest 0)

/-- Modelled from the spec: recursive removal with underflow rebalancing.
The returned node has the same height; only its own key count may have
dropped one below `MIN_LEN` (the map level repairs the root).  When the key
is absent the node is returned unchanged. -/
def removeN {α V : Type} : (h : Nat) → (α → Ordering) → BNodeH α V h →
    Option (α × V) × BNodeH α V h
  | 0, comp, kvs =>
    match find_key_index comp (kvs.map Prod.fst) 0 with
    | .kv i => (kvs[i]?, kvs.eraseIdx i)
    | .edge _ => (none, kvs)
  | h + 1, comp, (c0, rest) =>
    match find_key_index comp (rest.map (fun p => p.1.1)) 0 with
    | .kv i =>
      match rest[i]? with
      | none => (none, (c0, rest))
      | some (kv, d) =>
        match delMinN h d with
        | none => (none, (c0, rest))
        | some (succ, d') => (some kv, fixAtAux h c0 (rest.set i (succ, d')) (i + 1))
    | .edge 0 =>
      match removeN h comp c0 with
      | (none, _) => (none, (c0, rest))
      | (some res, c0') => (some res, fixAtAux h c0' rest 0)
    | .edge (i + 1) =>
      match rest[i]? with
      | none => (none, (c0, rest))
      | some (kv0, d) =>
        match removeN h comp d with
        | (none, _) => (none, (c0, rest))
        | (some res, d') => (some res, fixAtAux h c0 (rest.set i (kv0, d')) (i + 1))

/-! ## The map level (`map.rs`)

`BTreeMap` holds an optional root and a length (`map.rs` lines 193-199; the
allocator handle carries no observable state and is omitted).  The root is a
node of some height, so it is a dependent pair. -/

/-- The `BTreeMap` struct from `map.rs`: optional root plus stored length. -/
structure BTreeMap (α V : Type) where
  root : Option ((h : Nat) × BNodeH α V h)
  length : Nat

/-- `BTreeMap::new` / `new_in`: no root, zero length. -/
def emptyMap {α V : Type} : BTreeMap α V := ⟨none, 0⟩

/-- `BTreeMap::len` from `map.rs`: returns the stored length field. -/
def mapLen {α V : Type} (m : BTreeMap α V) : Nat := m.length

/-- `BTreeMap::is_empty` from `map.rs`: `self.len() == 0`. -/
def mapIsEmpty {α V : Type} (m : BTreeMap α V) : Bool := mapLen m == 0

/-- The key/value pairs produced by a full traversal from the root. -/
def mapElems {α V : Type} (m : BTreeMap α V) : List (α × V) :=
  match m.root with
  | none => []
  | some ⟨h, t⟩ => inorder h t

/-- `BTreeMap::get` from `map.rs`: search from the root, `Found` yields the
value, `GoDown` (or no root) yields `None`. -/
def mapGet {α V : Type} (comp : α → Ordering) (m : BTreeMap α V) : Option V :=
  match m.root with
  | none => none
  | some ⟨h, t⟩ => (search_tree h comp t).map (·.2)

/-- `BTreeMap::insert` from `map.rs` via the entry API: an occupied entry has
its value replaced (previous value returned, length unchanged); a vacant
entry inserts through the insertion engine, incrementing the length; a split
reaching the root grows a new internal root (`push_internal_level`). -/
def mapInsert {α V : Type} (comp : α → Ordering) (k : α) (v : V)
    (m : BTreeMap α V) : Option V × BTreeMap α V :=
  match m.root with
  | none => (none, ⟨some ⟨0, ([(k, v)] : BNodeH α V 0)⟩, m.length + 1⟩)
  | some ⟨h, t⟩ =>
    match insertN h comp k v t with
    | (old, .fit t') =>
      (old, ⟨some ⟨h, t'⟩, if old.isSome then m.length else m.length + 1⟩)
    | (old, .split l mkv r) =>
      (old, ⟨some ⟨h + 1, ((l, [(mkv, r)]) : BNodeH α V (h + 1))⟩,
             if old.isSome then m.length else m.length + 1⟩)

/-- `pop_internal_level` applied at the map level after a removal: an
internal root left with zero keys is replaced by its sole remaining child;
an emptied *leaf* root is kept (`map.rs`: "An empty map is represented
either by the absence of a root node or by a root node that is an empty
leaf"). -/
def shrinkRoot {α V : Type} : (h : Nat) → BNodeH α V h → (h' : Nat) × BNodeH α V h'
  | 0, t => ⟨0, t⟩
  | h + 1, (c0, rest) => if rest.isEmpty then ⟨h, c0⟩ else ⟨h + 1, (c0, rest)⟩

/-- `BTreeMap::remove_entry` from `map.rs`: search from the root; `GoDown`
(or no root) returns `None` leaving the tree untouched; `Found` removes
through the deletion engine, decrements the length and repairs the root. -/
def mapRemoveEntry {α V : Type} (comp : α → Ordering) (m : BTreeMap α V) :
    Option (α × V) × BTreeMap α V :=
  match m.root with
  | none => (none, m)
  | some ⟨h, t⟩ =>
    match search_tree h comp t with
    | none => (none, m)
    | some _ =>
      match removeN h comp t with
      | (res, t') => (res, ⟨some (shrinkRoot h t'), m.length - 1⟩)

/-- `BTreeMap::remove` from `map.rs`: `remove_entry(comp).map(|(_, v)| v)`. -/
def mapRemove {α V : Type} (comp : α → Ordering) (m : BTreeMap α V) :
    Option V × BTreeMap α V :=
  match mapRemoveEntry comp m with
  | (res, m') => (res.map (·.2), m')

/-! ## The list-level model

The functional model the tree operations are proved to refine: a strictly
ascending association list and the three scans that mirror the comparator
loop of `find_key_index`. -/

/-- Strictly-ascending-keys predicate: the spec's "keys strictly ascending
across the whole tree" for an in-order element list. -/
def KSorted {α V : Type} [LinearOrder α] (l : List (α × V)) : Prop :=
  List.Pairwise (fun a b => a.1 < b.1) l

/-- List-level lookup of target `k`, scanning left to right exactly as the
comparator loop does (stopping at the first key not below `k`). -/
def lookupList {α V : Type} [LinearOrder α] (k : α) : List (α × V) → Option (α × V)
  | [] => none
  | (k', v') :: tl =>
    if k < k' then none else if k = k' then some (k', v') else lookupList k tl

/-- List-level insertion of `(k, v)`: replaces the value at an existing key
(keeping the stored key), otherwise inserts at the scan position. -/
def insKeyList {α V : Type} [LinearOrder α] (k : α) (v : V) :
    List (α × V) → List (α × V)
  | [] => [(k, v)]
  | (k', v') :: tl =>
    if k < k' then (k, v) :: (k', v') :: tl
    else if k = k' then (k', v) :: tl
    else (k', v') :: insKeyList k v tl

/-- List-level removal of the element at key `k`, if present. -/
def delKeyList {α V : Type} [LinearOrder α] (k : α) : List (α × V) → List (α × V)
  | [] => []
  | (k', v') :: tl =>
    if k < k' then (k', v') :: tl
    else if k = k' then tl
    else (k', v') :: delKeyList k tl

/-! ## Bulk merge, split-off (`map.rs` `append`/`split_off`)

`append`'s two empty fast paths are transcribed from `map.rs`; the general
branch consumes both trees as sorted sequences.  The sequence interleaving
(`merge_iter.rs`/`append.rs`, absent from the sources) and the node-level
split (`split.rs`, absent) are modelled from the spec extensionally: the
element sequences the spec prescribes, rebuilt into fresh well-formed
trees through the insertion engine. -/

/-- Modelled from the spec (§4.10): interleave two sorted runs with the
pairwise comparator, later-supplied entries overwriting earlier ones on a
key collision. -/
def mergeKeyLists {α V : Type} (c : (α × V) → (α × V) → Ordering) :
    List (α × V) → List (α × V) → List (α × V)
  | [], bs => bs
  | as, [] => as
  | a :: as, b :: bs =>
    match c a b with
    | .lt => a :: mergeKeyLists c as (b :: bs)
    | .gt => b :: mergeKeyLists c (a :: as) bs
    | .eq => b :: mergeKeyLists c as bs
termination_by as bs => as.length + bs.length

/-- Rebuild a tree from an element run by pushing each element through the
insertion engine (the extensional reading of "pushed into a fresh tree"). -/
def treeOfList {α V : Type} [LinearOrder α] (l : List (α × V)) : BTreeMap α V :=
  l.foldl (fun m kv => (mapInsert (compC kv.1) kv.1 kv.2 m).2) emptyMap

/-- `BTreeMap::append` from `map.rs`: returns the pair (`self`, `other`)
after the call.  The two early returns (`other` empty; `self` empty, swap)
are transcribed from the source; the general branch empties both maps into
iterators and rebuilds `self` from the merged run, leaving `other` freshly
empty (`mem::replace` with `Self::new_in`). -/
def mapAppend {α V : Type} [LinearOrder α]
    (megaComp : (α × V) → (α × V) → Ordering) (self other : BTreeMap α V) :
    BTreeMap α V × BTreeMap α V :=
  if mapIsEmpty other then (self, other)
  else if mapIsEmpty self then (other, self)
  else (treeOfList (mergeKeyLists megaComp (mapElems self) (mapElems other)),
        emptyMap)

/-- `BTreeMap::split_off` from `map.rs`: an empty map returns a fresh empty
map; otherwise the root is split at the edge located by the comparator.
Modelled from the spec (`split.rs` absent): the original keeps the elements
the comparator orders the target strictly after (`comp == Greater`), the
returned map takes the rest; both sides are rebuilt as fresh well-formed
trees. -/
def mapSplitOff {α V : Type} [LinearOrder α] (comp : α → Ordering)
    (m : BTreeMap α V) : BTreeMap α V × BTreeMap α V :=
  if mapIsEmpty m then (m, emptyMap)
  else
    (treeOfList ((mapElems m).takeWhile (fun e => comp e.1 == .gt)),
     treeOfList ((mapElems m).dropWhile (fun e => comp e.1 == .gt)))

/-! ## Bound search descent, range, cursors

The per-node bound resolution is the source `find_lower_bound_index` /
`find_upper_bound_index` (`search.rs`).  The descent through children and
the leaf-edge stepping (`navigate.rs`, absent from the sources) are modelled
from the spec: a bound resolves to a leaf edge, identified here by its rank
in the in-order element sequence. -/

/-- Modelled from the spec (§4.4/§4.7 descent, with the per-node step being
the source `find_lower_bound_index`): the in-order rank of the leaf edge a
lower bound resolves to. -/
def lowerBoundIdxN {α V : Type} : (h : Nat) → (α → Ordering) → SearchBound →
    BNodeH α V h → Nat
  | 0, comp, bound, kvs => (find_lower_bound_index comp (kvs.map Prod.fst) bound).1
  | h + 1, comp, bound, (c0, rest) =>
    match find_lower_bound_index comp (rest.map (fun p => p.1.1)) bound with
    | (0, bound') => lowerBoundIdxN h comp bound' c0
    | (j + 1, bound') =>
      match rest[j]? with
      | none => (inorder (h + 1) ((c0, rest) : BNodeH α V (h + 1))).length
      | some p =>
        (inorder h c0).length +
        ((rest.take j).map (fun q => 1 + (inorder h q.2).length)).sum + 1 +
        lowerBoundIdxN h comp bound' p.2

/-- Modelled from the spec: the in-order rank of the leaf edge an upper
bound resolves to, the per-node step being the source
`find_upper_bound_index`. -/
def upperBoundIdxN {α V : Type} : (h : Nat) → (α → Ordering) → SearchBound →
    BNodeH α V h → Nat
  | 0, comp, bound, kvs => (find_upper_bound_index comp (kvs.map Prod.fst) bound 0).1
  | h + 1, comp, bound, (c0, rest) =>
    match find_upper_bound_index comp (rest.map (fun p => p.1.1)) bound 0 with
    | (0, bound') => upperBoundIdxN h comp bound' c0
    | (j + 1, bound') =>
      match rest[j]? with
      | none => (inorder (h + 1) ((c0, rest) : BNodeH α V (h + 1))).length
      | some p =>
        (inorder h c0).length +
        ((rest.take j).map (fun q => 1 + (inorder h q.2).length)).sum + 1 +
        upperBoundIdxN h comp bound' p.2

/-- `BTreeMap::range` from `map.rs`, with the traversal between the two
resolved leaf edges modelled from the spec (§4.7): the in-order elements
strictly between the lower-bound edge and the upper-bound edge. -/
def rangeElems {α V : Type} (lower_comp : α → Ordering) (lower_bound : SearchBound)
    (upper_comp : α → Ordering) (upper_bound : SearchBound) (m : BTreeMap α V) :
    List (α × V) :=
  match m.root with
  | none => []
  | some ⟨h, t⟩ =>
    ((inorder h t).take (upperBoundIdxN h upper_comp upper_bound t)).drop
      (lowerBoundIdxN h lower_comp lower_bound t)

/-- `BTreeMap::lower_bound` from `map.rs`: resolve the bound to a leaf edge
and take `edge.next_kv()`; a cursor is its optional current element,
identified by in-order rank (`None` is the ghost position). -/
def mapLowerBoundCursor {α V : Type} (comp : α → Ordering) (bound : SearchBound)
    (m : BTreeMap α V) : Option Nat :=
  match m.root with
  | none => none
  | some ⟨h, t⟩ =>
    let i := lowerBoundIdxN h comp bound t
    if i < (inorder h t).length then some i else none

/-- `Cursor::key` from `map.rs`: the key of the current element, `None` at
the ghost position. -/
def cursorKey {α V : Type} (l : List (α × V)) (cur : Option Nat) : Option α :=
  match cur with
  | none => none
  | some i => (l[i]?).map (·.1)

/-- `Cursor::move_next` from `map.rs`: from the ghost position jump to the
first element; from an element step to the next, becoming ghost after the
last (leaf-edge stepping of `navigate.rs` modelled from the spec over the
in-order sequence). -/
def cursorMoveNext {α V : Type} (l : List (α × V)) (cur : Option Nat) : Option Nat :=
  match cur with
  | none => if l.isEmpty then none else some 0
  | some i => if i + 1 < l.length then some (i + 1) else none

/-- `Cursor::move_prev` from `map.rs`: from the ghost position jump to the
last element; from an element step to the previous, becoming ghost before
the first. -/
def cursorMovePrev {α V : Type} (l : List (α × V)) (cur : Option Nat) : Option Nat :=
  match cur with
  | none => if l.isEmpty then none else some (l.length - 1)
  | some i => if i = 0 then none else some (i - 1)

/-- `Cursor::peek_prev` from `map.rs`: clone, `move_prev`, read the element
(so the ghost position peeks at the *last* element). -/
def cursorPeekPrev {α V : Type} (l : List (α × V)) (cur : Option Nat) :
    Option (α × V) :=
  match cursorMovePrev l cur with
  | none => none
  | some i => l[i]?

/-- `CursorMut::peek_next` from `map.rs`: at the ghost position it reads
`first_leaf_edge().next_kv()`, i.e. the first element; at an element it
reads the next one. -/
def cursorMutPeekNext {α V : Type} (l : List (α × V)) (cur : Option Nat) :
    Option (α × V) :=
  match cur with
  | none => l.head?
  | some i => l[i + 1]?

/-- `CursorMut::peek_prev` as written in `map.rs`: the ghost branch reads
`first_leaf_edge().next_kv()` — the *first* element — while the element
branch reads `next_back_leaf_edge().next_back_kv()`, the previous element. -/
def cursorMutPeekPrev {α V : Type} (l : List (α × V)) (cur : Option Nat) :
    Option (α × V) :=
  match cur with
  | none => l.head?
  | some i => if i = 0 then none else l[i - 1]?

/-- `CursorMut::key` from `map.rs`. -/
def cursorMutKey {α V : Type} (l : List (α × V)) (cur : Option Nat) : Option α :=
  cursorKey l cur

/-- `CursorMut::insert_after_unchecked` from `map.rs`: insert at the leaf
edge right of the current element (the front of the map at the ghost
position) and point the cursor at the new element. -/
def insertAfterUnchecked {α V : Type} (l : List (α × V)) (cur : Option Nat)
    (k : α) (v : V) : List (α × V) × Option Nat :=
  match cur with
  | none => (l.insertIdx 0 (k, v), some 0)
  | some i => (l.insertIdx (i + 1) (k, v), some (i + 1))

/-- The second guard of `CursorMut::insert_after` in `map.rs`, transcribed
as written: it consults `self.peek_prev()` (binding the result to a
variable named `next`) and panics when the new key is not strictly below
it. -/
def insertAfterCheck2 {α V : Type} [LinearOrder α] (l : List (α × V))
    (cur : Option Nat) (k : α) (v : V) : Except String (List (α × V) × Option Nat) :=
  match cursorMutPeekPrev l cur with
  | some nxt =>
    if nxt.1 ≤ k then .error "key must be ordered below the next element"
    else .ok (insertAfterUnchecked l cur k v)
  | none => .ok (insertAfterUnchecked l cur k v)

/-- `CursorMut::insert_after` from `map.rs` (the checked variant): panics
(modelled as `Except.error`) when the key is not strictly above the current
element, then runs the second guard. -/
def cursorMutInsertAfter {α V : Type} [LinearOrder α] (l : List (α × V))
    (cur : Option Nat) (k : α) (v : V) : Except String (List (α × V) × Option Nat) :=
  match cursorMutKey l cur with
  | some current =>
    if k ≤ current then .error "key must be ordered above the current element"
    else insertAfterCheck2 l cur k v
  | none => insertAfterCheck2 l cur k v

/-! ## Operation sequences (claim C1) -/

/-- One public mutating operation, with the comparator the operation uses
fixed to `compC` of its key (the "one consistent comparator" of C1). -/
inductive MapOp (α V : Type) where
  | insert (k : α) (v : V)
  | remove (k : α)

/-- Apply one operation through the public entry points. -/
def applyOp {α V : Type} [LinearOrder α] (m : BTreeMap α V) : MapOp α V → BTreeMap α V
  | .insert k v => (mapInsert (compC k) k v m).2
  | .remove k => (mapRemoveEntry (compC k) m).2

/-- Apply a sequence of operations left to right. -/
def applyOps {α V : Type} [LinearOrder α] (m : BTreeMap α V)
    (ops : List (MapOp α V)) : BTreeMap α V :=
  ops.foldl applyOp m

/-- The occupancy conjunct of the map invariant: the root (when present)
passes `wfRoot`, hence every non-root node holds at least `MIN_LEN` keys. -/
def OccupancyOk {α V : Type} (m : BTreeMap α V) : Prop :=
  ∀ h t, m.root = some ⟨h, t⟩ → wfRoot h t = true

/-- The child-count conjunct of the map invariant: every internal node has
one more child than it has keys. -/
def ChildCountOk {α V : Type} (m : BTreeMap α V) : Prop :=
  ∀ h t, m.root = some ⟨h, t⟩ → childCountOk h t = true

/-- The tree invariant of claim C1 (and the working invariant of all the
functional-correctness claims): strictly ascending keys, occupancy, and a
length field equal to the number of elements a full traversal yields. -/
def WfMap {α V : Type} [LinearOrder α] (m : BTreeMap α V) : Prop :=
  OccupancyOk m ∧ KSorted (mapElems m) ∧ m.length = (mapElems m).length

/-- Add `n` to the index carried by an `IndexResult`. -/
def IndexResult.shiftIdx (n : Nat) : IndexResult → IndexResult
  | .kv i => .kv (i + n)
  | .edge i => .edge (i + n)

/-- The in-order contribution of an internal node's slot list. -/
def flatF {α V : Type} (h : Nat) (rest : List ((α × V) × BNodeH α V h)) :
    List (α × V) :=
  rest.flatMap (fun p => p.1 :: inorder h p.2)

/-- The element sequence carried by an insertion result (the split pieces
read in order). -/
def insResInorder {α V : Type} (h : Nat) : InsResult α V h → List (α × V)
  | .fit t => inorder h t
  | .split l m r => inorder h l ++ m :: inorder h r

/-- Occupancy check for the node a removal leaves at the root: capacity and
fully well-formed children, but no lower bound on its own key count. -/
def wfRootLoose {α V : Type} : (h : Nat) → BNodeH α V h → Bool
  | 0, kvs => decide (kvs.length ≤ CAPACITY)
  | h + 1, (c0, rest) =>
    decide (rest.length ≤ CAPACITY) && wfInner h c0 && rest.all (fun p => wfInner h p.2)

section CompC
variable {α : Type} [LinearOrder α] {k y : α}

theorem compC_eq_lt : compC k y = .lt ↔ k < y := by
  by_cases h1 : k < y
  · simp [compC, h1]
  · by_cases h2 : k = y <;> simp [compC, h1, h2]

theorem compC_eq_eq : compC k y = .eq ↔ k = y := by
  unfold compC
  split
  · rename_i h
    simp only [reduceCtorEq, false_iff]
    exact fun hk => absurd hk (ne_of_lt h)
  · split <;> simp_all

theorem compC_eq_gt : compC k y = .gt ↔ y < k := by
  unfold compC
  split
  · rename_i h
    simp only [reduceCtorEq, false_iff]
    exact fun hk => absurd h (not_lt.mpr hk.le)
  · split
    · rename_i h h'
      subst h'
      simp only [reduceCtorEq, false_iff]
      exact lt_irrefl k
    · rename_i h h'
      simp only [true_iff]
      exact lt_of_le_of_ne (not_lt.mp h) (Ne.symm h')

theorem compC_self : compC k k = .eq := by simp [compC]

end CompC

/-! ## Lemmas about the list-level model -/

section ListModel
variable {α V : Type} [LinearOrder α] {k : α} {v : V}

theorem KSorted.nil : KSorted ([] : List (α × V)) := List.Pairwise.nil

theorem KSorted.of_cons {e : α × V} {l : List (α × V)} (h : KSorted (e :: l)) :
    KSorted l := (List.pairwise_cons.mp h).2

theorem KSorted.head_lt {e : α × V} {l : List (α × V)} (h : KSorted (e :: l)) :
    ∀ x ∈ l, e.1 < x.1 := (List.pairwise_cons.mp h).1

theorem KSorted.append {A B : List (α × V)} (h : KSorted (A ++ B)) :
    KSorted A ∧ KSorted B ∧ ∀ a ∈ A, ∀ b ∈ B, a.1 < b.1 :=
  List.pairwise_append.mp h

/-- The elements on either side of an anchor in a sorted list are bounded by
the anchor's key. -/
theorem KSorted.anchor {A B : List (α × V)} {m : α × V}
    (h : KSorted (A ++ m :: B)) :
    (∀ e ∈ A, e.1 < m.1) ∧ ∀ e ∈ B, m.1 < e.1 := by
  obtain ⟨-, hB, hAB⟩ := KSorted.append h
  exact ⟨fun e he => hAB e he m (by simp),
         fun e he => (List.pairwise_cons.mp hB).1 e he⟩

theorem lookupList_eq_some {l : List (α × V)} {r : α × V}
    (h : lookupList k l = some r) : r ∈ l ∧ r.1 = k := by
  induction l with
  | nil => simp [lookupList] at h
  | cons e tl ih =>
    obtain ⟨k', v'⟩ := e
    simp only [lookupList] at h
    split at h
    · simp at h
    · split at h
      · rename_i h2
        obtain rfl : (k', v') = r := by simpa using h
        exact ⟨by simp, h2.symm⟩
      · obtain ⟨h1, h2⟩ := ih h
        exact ⟨by simp [h1], h2⟩

theorem lookupList_of_mem {l : List (α × V)} (hs : KSorted l)
    (hm : (k, v) ∈ l) : lookupList k l = some (k, v) := by
  induction l with
  | nil => simp at hm
  | cons e tl ih =>
    obtain ⟨k', v'⟩ := e
    rcases List.mem_cons.mp hm with h | h
    · obtain ⟨rfl, rfl⟩ := Prod.mk.injEq .. ▸ h
      simp [lookupList]
    · have hk : k' < k := by
        have := hs.head_lt (k, v) h
        simpa using this
      simp only [lookupList, if_neg (not_lt.mpr hk.le), if_neg (ne_of_gt hk)]
      exact ih hs.of_cons h

theorem lookupList_not_mem {l : List (α × V)}
    (h : k ∉ l.map Prod.fst) : lookupList k l = none := by
  induction l with
  | nil => simp [lookupList]
  | cons e tl ih =>
    obtain ⟨k', v'⟩ := e
    simp only [List.map_cons, List.mem_cons] at h
    push_neg at h
    simp only [lookupList, if_neg (by simpa using h.1)]
    split
    · rfl
    · exact ih h.2

theorem lookupList_append_left {A B : List (α × V)}
    (hA : ∀ e ∈ A, e.1 < k) : lookupList k (A ++ B) = lookupList k B := by
  induction A with
  | nil => simp
  | cons e tl ih =>
    obtain ⟨k', v'⟩ := e
    have hk : k' < k := by simpa using hA (k', v') (by simp)
    simp only [List.cons_append, lookupList,
      if_neg (not_lt.mpr hk.le), if_neg (ne_of_gt hk)]
    exact ih fun e he => hA e (by simp [he])

theorem lookupList_append_right {C B : List (α × V)}
    (hB : ∀ e ∈ B, k < e.1) : lookupList k (C ++ B) = lookupList k C := by
  induction C with
  | nil =>
    cases B with
    | nil => simp [lookupList]
    | cons b tl =>
      obtain ⟨k', v'⟩ := b
      have hk : k < k' := by simpa using hB (k', v') (by simp)
      simp [lookupList, hk]
  | cons e tl ih =>
    obtain ⟨k', v'⟩ := e
    simp only [List.cons_append, lookupList]
    split
    · rfl
    · split
      · rfl
      · exact ih

theorem insKeyList_append_left {A B : List (α × V)}
    (hA : ∀ e ∈ A, e.1 < k) : insKeyList k v (A ++ B) = A ++ insKeyList k v B := by
  induction A with
  | nil => simp
  | cons e tl ih =>
    obtain ⟨k', v'⟩ := e
    have hk : k' < k := by simpa using hA (k', v') (by simp)
    simp only [List.cons_append, insKeyList,
      if_neg (not_lt.mpr hk.le), if_neg (ne_of_gt hk), List.append_eq]
    rw [ih fun e he => hA e (by simp [he])]

theorem insKeyList_all_gt {l : List (α × V)}
    (h : ∀ e ∈ l, k < e.1) : insKeyList k v l = (k, v) :: l := by
  cases l with
  | nil => simp [insKeyList]
  | cons e tl =>
    obtain ⟨k', v'⟩ := e
    have hk : k < k' := by simpa using h (k', v') (by simp)
    simp [insKeyList, hk]

theorem insKeyList_all_lt {l : List (α × V)}
    (h : ∀ e ∈ l, e.1 < k) : insKeyList k v l = l ++ [(k, v)] := by
  induction l with
  | nil => simp [insKeyList]
  | cons e tl ih =>
    obtain ⟨k', v'⟩ := e
    have hk : k' < k := by simpa using h (k', v') (by simp)
    simp only [insKeyList, if_neg (not_lt.mpr hk.le), if_neg (ne_of_gt hk),
      List.cons_append]
    rw [ih fun e he => h e (by simp [he])]

theorem insKeyList_append_right {C B : List (α × V)}
    (hB : ∀ e ∈ B, k < e.1) : insKeyList k v (C ++ B) = insKeyList k v C ++ B := by
  induction C with
  | nil => simpa [insKeyList] using insKeyList_all_gt hB
  | cons e tl ih =>
    obtain ⟨k', v'⟩ := e
    simp only [List.cons_append, insKeyList]
    split
    · simp
    · split
      · simp
      · simp [ih]

theorem delKeyList_append_left {A B : List (α × V)}
    (hA : ∀ e ∈ A, e.1 < k) : delKeyList k (A ++ B) = A ++ delKeyList k B := by
  induction A with
  | nil => simp
  | cons e tl ih =>
    obtain ⟨k', v'⟩ := e
    have hk : k' < k := by simpa using hA (k', v') (by simp)
    simp only [List.cons_append, delKeyList,
      if_neg (not_lt.mpr hk.le), if_neg (ne_of_gt hk), List.append_eq]
    rw [ih fun e he => hA e (by simp [he])]

theorem delKeyList_all_gt {l : List (α × V)}
    (h : ∀ e ∈ l, k < e.1) : delKeyList k l = l := by
  cases l with
  | nil => simp [delKeyList]
  | cons e tl =>
    obtain ⟨k', v'⟩ := e
    have hk : k < k' := by simpa using h (k', v') (by simp)
    simp [delKeyList, hk]

theorem delKeyList_append_right {C B : List (α × V)}
    (hB : ∀ e ∈ B, k < e.1) : delKeyList k (C ++ B) = delKeyList k C ++ B := by
  induction C with
  | nil => simpa [delKeyList] using delKeyList_all_gt hB
  | cons e tl ih =>
    obtain ⟨k', v'⟩ := e
    simp only [List.cons_append, delKeyList]
    split
    · simp
    · split
      · simp
      · simp [ih]

theorem delKeyList_of_lookup_none {l : List (α × V)}
    (h : lookupList k l = none) : delKeyList k l = l := by
  induction l with
  | nil => simp [delKeyList]
  | cons e tl ih =>
    obtain ⟨k', v'⟩ := e
    simp only [lookupList] at h
    simp only [delKeyList]
    split
    · rfl
    · split
      · rename_i h1 h2
        rw [if_neg h1, if_pos h2] at h
        simp at h
      · rename_i h1 h2
        rw [if_neg h1, if_neg h2] at h
        simp [ih h]

theorem delKeyList_sublist {l : List (α × V)} : (delKeyList k l).Sublist l := by
  induction l with
  | nil => simp [delKeyList]
  | cons e tl ih =>
    obtain ⟨k', v'⟩ := e
    simp only [delKeyList]
    split
    · exact List.Sublist.refl _
    · split
      · exact List.sublist_cons_self _ _
      · exact List.Sublist.cons₂ _ ih

theorem length_insKeyList {l : List (α × V)} :
    (insKeyList k v l).length =
      if (lookupList k l).isSome then l.length else l.length + 1 := by
  induction l with
  | nil => simp [insKeyList, lookupList]
  | cons e tl ih =>
    obtain ⟨k', v'⟩ := e
    simp only [insKeyList, lookupList]
    split
    · simp
    · split
      · simp
      · simp only [List.length_cons, ih]
        split <;> simp

theorem length_delKeyList {l : List (α × V)} :
    (delKeyList k l).length =
      l.length - (if (lookupList k l).isSome then 1 else 0) := by
  induction l with
  | nil => simp [delKeyList, lookupList]
  | cons e tl ih =>
    obtain ⟨k', v'⟩ := e
    rcases lt_trichotomy k k' with h | h | h
    · simp [delKeyList, lookupList, h]
    · subst h
      simp [delKeyList, lookupList]
    · simp only [delKeyList, lookupList, if_neg (not_lt.mpr h.le),
        if_neg (ne_of_gt h), List.length_cons, ih]
      split
      · rename_i hsome
        obtain ⟨r, hr⟩ := Option.isSome_iff_exists.mp hsome
        have hmem := (lookupList_eq_some hr).1
        have hpos : 0 < tl.length := List.length_pos.mpr (List.ne_nil_of_mem hmem)
        omega
      · omega

theorem KSorted.del {l : List (α × V)} (hs : KSorted l) :
    KSorted (delKeyList k l) :=
  List.Pairwise.sublist delKeyList_sublist hs

theorem insKeyList_mem {l : List (α × V)} {e : α × V}
    (h : e ∈ insKeyList k v l) : e.1 = k ∨ e ∈ l := by
  induction l with
  | nil => simp [insKeyList] at h; simp [h]
  | cons f tl ih =>
    obtain ⟨k', v'⟩ := f
    simp only [insKeyList] at h
    split at h
    · rcases List.mem_cons.mp h with h | h
      · simp [h]
      · exact Or.inr h
    · split at h
      · rename_i h2
        rcases List.mem_cons.mp h with h | h
        · left; rw [h, ← h2]
        · exact Or.inr (by simp [h])
      · rcases List.mem_cons.mp h with h | h
        · exact Or.inr (by simp [h])
        · rcases ih h with h | h
          · exact Or.inl h
          · exact Or.inr (by simp [h])

theorem KSorted.ins {l : List (α × V)} (hs : KSorted l) :
    KSorted (insKeyList k v l) := by
  induction l with
  | nil => simp [insKeyList, KSorted]
  | cons e tl ih =>
    obtain ⟨k', v'⟩ := e
    simp only [insKeyList]
    split
    · rename_i h1
      refine List.pairwise_cons.mpr ⟨?_, hs⟩
      intro x hx
      rcases List.mem_cons.mp hx with h | h
      · simp [h, h1]
      · exact h1.trans (hs.head_lt x h)
    · split
      · rename_i h1 h2
        refine List.pairwise_cons.mpr ⟨?_, hs.of_cons⟩
        intro x hx
        simpa using hs.head_lt x hx
      · rename_i h1 h2
        have hk : k' < k := lt_of_le_of_ne (not_lt.mp h1) (Ne.symm h2)
        refine List.pairwise_cons.mpr ⟨?_, ih hs.of_cons⟩
        intro x hx
        rcases insKeyList_mem hx with h | h
        · simpa [h] using hk
        · exact hs.head_lt x h

theorem lookupList_insKeyList_self {l : List (α × V)} :
    lookupList k (insKeyList k v l) = some (k, v) := by
  induction l with
  | nil => simp [insKeyList, lookupList]
  | cons e tl ih =>
    obtain ⟨k', v'⟩ := e
    simp only [insKeyList]
    split
    · simp [lookupList]
    · rename_i h1
      split
      · rename_i h2
        subst h2
        simp [lookupList, h1]
      · rename_i h2
        simp [lookupList, h1, h2, ih]

theorem lookupList_delKeyList_self {l : List (α × V)} (hs : KSorted l) :
    lookupList k (delKeyList k l) = none := by
  induction l with
  | nil => simp [delKeyList, lookupList]
  | cons e tl ih =>
    obtain ⟨k', v'⟩ := e
    simp only [delKeyList]
    split
    · rename_i h1
      simp [lookupList, h1]
    · rename_i h1
      split
      · rename_i h2
        subst h2
        apply lookupList_not_mem
        intro hmem
        obtain ⟨e, he, hek⟩ := List.mem_map.mp hmem
        exact absurd (hs.head_lt e he) (by simp [hek])
      · rename_i h2
        simp [lookupList, h1, h2, ih hs.of_cons]

end ListModel

/-! ## Characterisation of the `find_key_index` scan -/

section ScanGeneric
variable {α : Type}

theorem findKeyIndexFrom_shift {comp : α → Ordering} (ks : List α) (n : Nat) :
    findKeyIndexFrom comp ks n = (findKeyIndexFrom comp ks 0).shiftIdx n := by
  induction ks generalizing n with
  | nil => simp [findKeyIndexFrom, IndexResult.shiftIdx]
  | cons y tl ih =>
    simp only [findKeyIndexFrom]
    cases comp y with
    | gt =>
      rw [ih (n + 1), ih 1]
      cases findKeyIndexFrom comp tl 0 <;>
        simp [IndexResult.shiftIdx] <;> omega
    | eq => simp [IndexResult.shiftIdx]
    | lt => simp [IndexResult.shiftIdx]

theorem find_key_index_zero {comp : α → Ordering} (ks : List α) :
    find_key_index comp ks 0 = findKeyIndexFrom comp ks 0 := by
  simp [find_key_index]

end ScanGeneric

section Scan
variable {α V : Type} [LinearOrder α] {k : α}

theorem fki_kv_spec : ∀ {ks : List α} {i : Nat},
    findKeyIndexFrom (compC k) ks 0 = .kv i →
    ks[i]? = some k ∧ ∀ j < i, ∃ y, ks[j]? = some y ∧ y < k := by
  intro ks
  induction ks with
  | nil => intro i h; simp [findKeyIndexFrom] at h
  | cons y tl ih =>
    intro i h
    simp only [findKeyIndexFrom] at h
    rcases hc : compC k y with hlt | heq | hgt
    all_goals rw [hc] at h
    · simp at h
    · obtain rfl : 0 = i := by simpa using h
      have := compC_eq_eq.mp hc
      subst this
      exact ⟨by simp, by simp⟩
    · rw [findKeyIndexFrom_shift tl 1] at h
      rcases hres : findKeyIndexFrom (compC k) tl 0 with i' | i'
      all_goals rw [hres] at h
      · simp only [IndexResult.shiftIdx, IndexResult.kv.injEq] at h
        subst h
        obtain ⟨h1, h2⟩ := ih hres
        refine ⟨by simpa using h1, ?_⟩
        intro j hj
        cases j with
        | zero => exact ⟨y, by simp, compC_eq_gt.mp hc⟩
        | succ j' =>
          obtain ⟨z, hz1, hz2⟩ := h2 j' (by omega)
          exact ⟨z, by simpa using hz1, hz2⟩
      · simp [IndexResult.shiftIdx] at h

theorem fki_edge_spec : ∀ {ks : List α} {i : Nat},
    findKeyIndexFrom (compC k) ks 0 = .edge i →
    i ≤ ks.length ∧ (∀ j < i, ∃ y, ks[j]? = some y ∧ y < k) ∧
      (∀ y, ks[i]? = some y → k < y) := by
  intro ks
  induction ks with
  | nil =>
    intro i h
    simp only [findKeyIndexFrom, IndexResult.edge.injEq] at h
    subst h
    exact ⟨by simp, by omega, by simp⟩
  | cons y tl ih =>
    intro i h
    simp only [findKeyIndexFrom] at h
    rcases hc : compC k y with hlt | heq | hgt
    all_goals rw [hc] at h
    · obtain rfl : 0 = i := by simpa using h
      exact ⟨by simp, by omega,
        fun z hz => by
          obtain rfl : y = z := by simpa using hz
          exact compC_eq_lt.mp hc⟩
    · simp at h
    · rw [findKeyIndexFrom_shift tl 1] at h
      rcases hres : findKeyIndexFrom (compC k) tl 0 with i' | i'
      all_goals rw [hres] at h
      · simp [IndexResult.shiftIdx] at h
      · simp only [IndexResult.shiftIdx, IndexResult.edge.injEq] at h
        subst h
        obtain ⟨h1, h2, h3⟩ := ih hres
        refine ⟨by simpa using h1, ?_, fun z hz => h3 z (by simpa using hz)⟩
        intro j hj
        cases j with
        | zero => exact ⟨y, by simp, compC_eq_gt.mp hc⟩
        | succ j' =>
          obtain ⟨z, hz1, hz2⟩ := h2 j' (by omega)
          exact ⟨z, by simpa using hz1, hz2⟩

/-- The leaf-level bridge: the `find_key_index` scan over a slot list,
read through the slots, is exactly `lookupList`. -/
theorem fki_lookup_leaf (l : List (α × V)) :
    (match findKeyIndexFrom (compC k) (l.map Prod.fst) 0 with
     | .kv i => l[i]?
     | .edge _ => none) = lookupList k l := by
  induction l with
  | nil => simp [findKeyIndexFrom, lookupList]
  | cons e tl ih =>
    obtain ⟨k', v'⟩ := e
    simp only [List.map_cons, findKeyIndexFrom]
    rcases hc : compC k k' with hlt | heq | hgt
    · have h1 := compC_eq_lt.mp hc
      simp [lookupList, h1]
    · have h1 := compC_eq_eq.mp hc
      simp [lookupList, h1]
    · have h1 := compC_eq_gt.mp hc
      rw [findKeyIndexFrom_shift (tl.map Prod.fst) 1]
      simp only [lookupList, if_neg (not_lt.mpr h1.le), if_neg (ne_of_gt h1)]
      rw [← ih]
      rcases findKeyIndexFrom (compC k) (tl.map Prod.fst) 0 with i | i <;>
        simp [IndexResult.shiftIdx]

end Scan

/-! ## In-order decomposition of internal nodes -/

section Decomp
variable {α V : Type}

theorem inorder_succ (h : Nat) (c0 : BNodeH α V h)
    (rest : List ((α × V) × BNodeH α V h)) :
    inorder (h + 1) ((c0, rest) : BNodeH α V (h + 1)) =
      inorder h c0 ++ flatF h rest := rfl

@[simp] theorem flatF_nil (h : Nat) : flatF h ([] : List ((α × V) × BNodeH α V h)) = [] := rfl

@[simp] theorem flatF_cons (h : Nat) (p : (α × V) × BNodeH α V h) (tl) :
    flatF h (p :: tl) = p.1 :: inorder h p.2 ++ flatF h tl := rfl

theorem flatF_append (h : Nat) (a b : List ((α × V) × BNodeH α V h)) :
    flatF h (a ++ b) = flatF h a ++ flatF h b := by
  simp [flatF]

theorem list_decomp_at {β : Type} {l : List β} {i : Nat} {p : β}
    (h : l[i]? = some p) : l = l.take i ++ p :: l.drop (i + 1) := by
  have hi : i < l.length := by
    by_contra hc
    rw [List.getElem?_eq_none (by omega)] at h
    simp at h
  conv_lhs => rw [← List.take_append_drop i l]
  rw [List.drop_eq_getElem_cons hi]
  simp only [List.getElem?_eq_getElem hi, Option.some.injEq] at h
  rw [h]

theorem set_decomp_at {β : Type} {l : List β} {i : Nat} {p q : β}
    (h : l[i]? = some p) : l.set i q = l.take i ++ q :: l.drop (i + 1) := by
  have hi : i < l.length := by
    by_contra hc
    rw [List.getElem?_eq_none (by omega)] at h
    simp at h
  conv_lhs => rw [list_decomp_at h]
  rw [List.set_append]
  simp [List.length_take, Nat.min_eq_left hi.le]

/-- Decomposition of an internal node's traversal around slot `i`. -/
theorem inorder_decomp_at {h : Nat} {c0 : BNodeH α V h}
    {rest : List ((α × V) × BNodeH α V h)} {i : Nat} {kv0 : α × V}
    {d : BNodeH α V h} (hi : rest[i]? = some (kv0, d)) :
    inorder (h + 1) ((c0, rest) : BNodeH α V (h + 1)) =
      (inorder h c0 ++ flatF h (rest.take i)) ++
        kv0 :: (inorder h d ++ flatF h (rest.drop (i + 1))) := by
  rw [inorder_succ]
  conv_lhs => rw [list_decomp_at hi]
  rw [flatF_append]
  simp [List.append_assoc]

end Decomp

/-! ## Localising the node scan inside a sorted traversal -/

section Localize
variable {α V : Type} [LinearOrder α] {k : α}

theorem sublist_inorder_c0 {h : Nat} (c0 : BNodeH α V h)
    (rest : List ((α × V) × BNodeH α V h)) :
    (inorder h c0).Sublist (inorder (h + 1) ((c0, rest) : BNodeH α V (h + 1))) := by
  rw [inorder_succ]
  exact List.sublist_append_left _ _

theorem sublist_flatF {h : Nat} (c0 : BNodeH α V h)
    (rest : List ((α × V) × BNodeH α V h)) :
    (flatF h rest).Sublist (inorder (h + 1) ((c0, rest) : BNodeH α V (h + 1))) := by
  rw [inorder_succ]
  exact List.sublist_append_right _ _

theorem flatF_take_drop {h : Nat} (rest : List ((α × V) × BNodeH α V h)) (i : Nat) :
    flatF h rest = flatF h (rest.take i) ++ flatF h (rest.drop i) := by
  rw [← flatF_append, List.take_append_drop]

theorem sublist_child_flatF {h : Nat} {rest : List ((α × V) × BNodeH α V h)}
    {p : (α × V) × BNodeH α V h} (hp : p ∈ rest) :
    (p.1 :: inorder h p.2).Sublist (flatF h rest) := by
  induction rest with
  | nil => simp at hp
  | cons q tl ih =>
    rcases List.mem_cons.mp hp with h1 | h1
    · subst h1
      simp only [flatF_cons]
      exact (List.sublist_append_left _ _).cons₂ _
    · simp only [flatF_cons]
      exact ((ih h1).trans (List.sublist_append_right _ _)).cons _

/-- Scan hit: the matched slot holds the target key, everything traversed
before it is strictly below, everything after strictly above. -/
theorem node_kv_localize {h : Nat} {c0 : BNodeH α V h}
    {rest : List ((α × V) × BNodeH α V h)} {i : Nat}
    (hs : KSorted (inorder (h + 1) ((c0, rest) : BNodeH α V (h + 1))))
    (hfk : findKeyIndexFrom (compC k) (rest.map (fun p => p.1.1)) 0 = .kv i) :
    ∃ kv0 d, rest[i]? = some (kv0, d) ∧ kv0.1 = k ∧
      (∀ e ∈ inorder h c0 ++ flatF h (rest.take i), e.1 < k) ∧
      ∀ e ∈ inorder h d ++ flatF h (rest.drop (i + 1)), k < e.1 := by
  obtain ⟨h1, -⟩ := fki_kv_spec hfk
  rw [List.getElem?_map] at h1
  rcases hi : rest[i]? with - | p
  · rw [hi] at h1; simp at h1
  · rw [hi] at h1
    obtain ⟨kv0, d⟩ := p
    have hk : kv0.1 = k := by simpa using h1
    rw [inorder_decomp_at hi] at hs
    obtain ⟨hA, hB⟩ := KSorted.anchor hs
    exact ⟨kv0, d, rfl, hk, fun e he => hk ▸ hA e he, fun e he => hk ▸ hB e he⟩

/-- Scan fall-through at the leftmost edge: every traversed element to the
right of the first child is strictly above the target. -/
theorem node_edge0_localize {h : Nat} {c0 : BNodeH α V h}
    {rest : List ((α × V) × BNodeH α V h)}
    (hs : KSorted (inorder (h + 1) ((c0, rest) : BNodeH α V (h + 1))))
    (hfk : findKeyIndexFrom (compC k) (rest.map (fun p => p.1.1)) 0 = .edge 0) :
    ∀ e ∈ flatF h rest, k < e.1 := by
  obtain ⟨-, -, h3⟩ := fki_edge_spec hfk
  cases rest with
  | nil => simp
  | cons q tl =>
    obtain ⟨kv1, d1⟩ := q
    have hk : k < kv1.1 := h3 kv1.1 (by simp)
    have hsf : KSorted (flatF h ((kv1, d1) :: tl)) :=
      List.Pairwise.sublist (sublist_flatF c0 _) hs
    simp only [flatF_cons] at hsf ⊢
    intro e he
    rcases List.mem_cons.mp he with h1 | h1
    · simpa [h1] using hk
    · exact hk.trans ((List.pairwise_cons.mp hsf).1 e h1)

/-- Scan fall-through at edge `i + 1`: everything up to and including slot
`i` is strictly below the target, everything after child `i`'s subtree is
strictly above. -/
theorem node_edge_succ_localize {h : Nat} {c0 : BNodeH α V h}
    {rest : List ((α × V) × BNodeH α V h)} {i : Nat}
    (hs : KSorted (inorder (h + 1) ((c0, rest) : BNodeH α V (h + 1))))
    (hfk : findKeyIndexFrom (compC k) (rest.map (fun p => p.1.1)) 0 = .edge (i + 1)) :
    ∃ kv0 d, rest[i]? = some (kv0, d) ∧
      (∀ e ∈ (inorder h c0 ++ flatF h (rest.take i)) ++ [kv0], e.1 < k) ∧
      ∀ e ∈ flatF h (rest.drop (i + 1)), k < e.1 := by
  obtain ⟨h1, h2, h3⟩ := fki_edge_spec hfk
  have hi : i < rest.length := by simpa using h1
  have hgi0 := List.getElem?_eq_getElem hi
  rcases hq : rest[i] with ⟨kv0, d⟩
  rw [hq] at hgi0
  · obtain ⟨y, hy1, hy2⟩ := h2 i (by omega)
    have hgi : rest[i]? = some (kv0, d) := hgi0
    rw [List.getElem?_map, hgi] at hy1
    have hk0 : kv0.1 < k := by
      obtain rfl : kv0.1 = y := by simpa using hy1
      exact hy2
    refine ⟨kv0, d, hgi, ?_, ?_⟩
    · have hanch := (KSorted.anchor (A := inorder h c0 ++ flatF h (rest.take i))
        (m := kv0) (B := inorder h d ++ flatF h (rest.drop (i + 1)))
        (by rw [inorder_decomp_at hgi] at hs; exact hs)).1
      intro e he
      rcases List.mem_append.mp he with h4 | h4
      · exact (hanch e h4).trans hk0
      · obtain rfl : e = kv0 := by simpa using h4
        exact hk0
    · cases hdrop : rest.drop (i + 1) with
      | nil => simp
      | cons q tl =>
        obtain ⟨kv1, d1⟩ := q
        have hq : rest[i + 1]? = some (kv1, d1) := by
          have := List.getElem?_drop rest (i + 1) 0
          rw [hdrop] at this
          simpa using this.symm
        have hk1 : k < kv1.1 := by
          refine h3 kv1.1 ?_
          rw [List.getElem?_map, hq]
          rfl
        have hsf : KSorted (flatF h (rest.drop (i + 1))) := by
          refine List.Pairwise.sublist ?_
            (List.Pairwise.sublist (sublist_flatF c0 rest) hs)
          rw [flatF_take_drop rest (i + 1)]
          exact List.sublist_append_right _ _
        rw [hdrop] at hsf
        simp only [flatF_cons] at hsf ⊢
        intro e he
        rcases List.mem_cons.mp he with h4 | h4
        · simpa [h4] using hk1
        · exact hk1.trans ((List.pairwise_cons.mp hsf).1 e h4)

end Localize

/-! ## Search refinement: `search_tree` computes `lookupList` -/

section SearchRefine
variable {α V : Type} [LinearOrder α]

theorem search_tree_eq_lookup (k : α) : ∀ (h : Nat) (t : BNodeH α V h),
    KSorted (inorder h t) →
    search_tree h (compC k) t = lookupList k (inorder h t) := by
  intro h
  induction h with
  | zero =>
    intro t hs
    simp only [search_tree]
    rw [find_key_index_zero]
    exact fki_lookup_leaf t
  | succ h ih =>
    intro t hs
    obtain ⟨c0, rest⟩ := t
    simp only [search_tree]
    rw [find_key_index_zero]
    rcases hfk : findKeyIndexFrom (compC k) (rest.map (fun p => p.1.1)) 0 with i | i
    · obtain ⟨kv0, d, hi, hk, hA, hB⟩ := node_kv_localize hs hfk
      rw [hfk]
      simp only [hi]
      have hmem : kv0 ∈ inorder (h + 1) ((c0, rest) : BNodeH α V (h + 1)) := by
        rw [inorder_decomp_at hi]
        simp
      have : lookupList k (inorder (h + 1) ((c0, rest) : BNodeH α V (h + 1))) =
          some (k, kv0.2) := by
        apply lookupList_of_mem hs
        obtain ⟨k1, v1⟩ := kv0
        simp only at hk
        subst hk
        exact hmem
      rw [this]
      obtain ⟨k1, v1⟩ := kv0
      simp only at hk
      subst hk
      rfl
    · cases i with
      | zero =>
        have hB := node_edge0_localize hs hfk
        rw [hfk, inorder_succ]
        rw [lookupList_append_right hB]
        exact ih c0 (List.Pairwise.sublist (sublist_inorder_c0 c0 rest) hs)
      | succ i =>
        obtain ⟨kv0, d, hi, hA, hB⟩ := node_edge_succ_localize hs hfk
        rw [hfk]
        simp only [hi]
        have hd : KSorted (inorder h d) := by
          refine List.Pairwise.sublist ?_ hs
          refine List.Sublist.trans ?_ (sublist_flatF c0 rest)
          exact List.sublist_of_cons_sublist (sublist_child_flatF (p := (kv0, d))
            ((List.mem_iff_getElem?).mpr ⟨i, hi⟩))
        rw [inorder_decomp_at hi]
        rw [show (inorder h c0 ++ flatF h (rest.take i)) ++
              kv0 :: (inorder h d ++ flatF h (rest.drop (i + 1))) =
            ((inorder h c0 ++ flatF h (rest.take i)) ++ [kv0]) ++
              (inorder h d ++ flatF h (rest.drop (i + 1))) by simp]
        rw [lookupList_append_left hA, lookupList_append_right hB]
        exact ih d hd

end SearchRefine

/-! ## Insertion: refinement to `insKeyList` and occupancy preservation -/

section InsertRefine
variable {α V : Type} [LinearOrder α] {k : α} {v : V}

theorem insertIdx_decomp {β : Type} {l : List β} {i : Nat} (a : β)
    (h : i ≤ l.length) : l.insertIdx i a = l.take i ++ a :: l.drop i := by
  induction l generalizing i with
  | nil =>
    obtain rfl : i = 0 := by simpa using h
    simp
  | cons b tl ih =>
    cases i with
    | zero => simp
    | succ i =>
      simp only [List.insertIdx_succ_cons, List.take_succ_cons, List.drop_succ_cons,
        List.cons_append, List.cons.injEq, true_and]
      exact ih (by simpa using h)

theorem splitNodeList_eq_none {β : Type} {es : List β} :
    splitNodeList es = none ↔ es.length ≤ CAPACITY := by
  constructor
  · intro h
    by_contra hc
    rw [splitNodeList, if_neg hc] at h
    rcases hd : es.drop MIN_LEN with - | ⟨m, r⟩
    · have : es.length - MIN_LEN = 0 := by
        simpa using congrArg List.length hd
      simp [CAPACITY, MIN_LEN] at hc this
      omega
    · rw [hd] at h
      simp at h
  · intro h
    rw [splitNodeList, if_pos h]

theorem splitNodeList_eq_some {β : Type} {es l r : List β} {m : β}
    (h : splitNodeList es = some (l, m, r)) :
    CAPACITY < es.length ∧ l = es.take MIN_LEN ∧ m :: r = es.drop MIN_LEN := by
  rw [splitNodeList] at h
  split at h
  · simp at h
  · rename_i hgt
    rcases hd : es.drop MIN_LEN with - | ⟨m', r'⟩
    · rw [hd] at h; simp at h
    · rw [hd] at h
      obtain ⟨h1, h2, h3⟩ : es.take MIN_LEN = l ∧ m' = m ∧ r' = r := by
        simpa using h
      subst h1
      subst h2
      subst h3
      exact ⟨by omega, rfl, by simp [hd]⟩

theorem splitNodeList_append {β : Type} {es l r : List β} {m : β}
    (h : splitNodeList es = some (l, m, r)) : l ++ m :: r = es := by
  obtain ⟨-, hl, hmr⟩ := splitNodeList_eq_some h
  rw [hl, hmr]
  exact List.take_append_drop _ _

theorem splitNodeList_lengths {β : Type} {es l r : List β} {m : β}
    (h : splitNodeList es = some (l, m, r)) :
    l.length = MIN_LEN ∧ r.length = es.length - MIN_LEN - 1 := by
  obtain ⟨hlen, hl, hmr⟩ := splitNodeList_eq_some h
  have h1 : l.length = MIN_LEN := by
    rw [hl, List.length_take]
    simp [CAPACITY, MIN_LEN] at hlen ⊢
    omega
  have h2 : (m :: r).length = es.length - MIN_LEN := by
    rw [hmr, List.length_drop]
  simp only [List.length_cons] at h2
  exact ⟨h1, by omega⟩

/-- Bound from the scan's prefix facts: slots before the scan index are
strictly below the target. -/
theorem take_bound {l : List (α × V)} {i : Nat}
    (hspec : ∀ j < i, ∃ y, (l.map Prod.fst)[j]? = some y ∧ y < k) :
    ∀ e ∈ l.take i, e.1 < k := by
  intro e he
  obtain ⟨j, hj⟩ := List.mem_iff_getElem?.mp he
  rw [List.getElem?_take] at hj
  split at hj
  · rename_i hji
    obtain ⟨y, hy1, hy2⟩ := hspec j hji
    rw [List.getElem?_map, hj] at hy1
    obtain rfl : e.1 = y := by simpa using hy1
    exact hy2
  · simp at hj

/-- Bound from the scan's stop fact: in a sorted list, slots from the scan
index on are strictly above the target. -/
theorem drop_bound {l : List (α × V)} {i : Nat} (hs : KSorted l)
    (hstop : ∀ y, (l.map Prod.fst)[i]? = some y → k < y) :
    ∀ e ∈ l.drop i, k < e.1 := by
  rcases hd : l.drop i with - | ⟨e0, tl⟩
  · simp
  · have he0 : l[i]? = some e0 := by
      have := List.getElem?_drop l i 0
      rw [hd] at this
      simpa using this.symm
    have hk0 : k < e0.1 := by
      refine hstop e0.1 ?_
      rw [List.getElem?_map, he0]
      rfl
    have hsd : KSorted (l.drop i) := List.Pairwise.sublist (List.drop_sublist i l) hs
    rw [hd] at hsd
    intro e he
    rcases List.mem_cons.mp he with h1 | h1
    · simpa [h1] using hk0
    · exact hk0.trans ((List.pairwise_cons.mp hsd).1 e h1)

theorem lookupList_all_lt {l : List (α × V)} (h : ∀ e ∈ l, e.1 < k) :
    lookupList (V := V) k l = none := by
  apply lookupList_not_mem
  intro hmem
  obtain ⟨e, he, hek⟩ := List.mem_map.mp hmem
  exact absurd (h e he) (by simp [hek])

/-- Absence of the target on a sorted list, read off an `edge` scan result. -/
theorem lookup_none_of_edge {l : List (α × V)} {i : Nat} (hs : KSorted l)
    (hfk : findKeyIndexFrom (compC k) (l.map Prod.fst) 0 = .edge i) :
    lookupList k l = none := by
  obtain ⟨h1, h2, h3⟩ := fki_edge_spec hfk
  have := lookupList_append_right (C := l.take i) (drop_bound hs h3)
  rw [List.take_append_drop] at this
  rw [this]
  exact lookupList_all_lt (take_bound h2)

/-- Splitting an overflowed internal slot list does not change the node's
element sequence. -/
theorem internal_split_inorder {h : Nat} {c0 mc : BNodeH α V h}
    {rest' rl rr : List ((α × V) × BNodeH α V h)} {mkv : α × V}
    (hsp : splitNodeList rest' = some (rl, (mkv, mc), rr)) :
    insResInorder (h + 1) (.split ((c0, rl) : BNodeH α V (h + 1)) mkv
      ((mc, rr) : BNodeH α V (h + 1))) =
    inorder (h + 1) ((c0, rest') : BNodeH α V (h + 1)) := by
  have hdec := splitNodeList_append hsp
  simp only [insResInorder, inorder_succ]
  rw [← hdec, flatF_append, flatF_cons]
  simp [List.append_assoc]

/-- Insertion refines `insKeyList`: the previous value is the list-level
lookup, and the traversal of the result (split pieces included) is the
list-level insertion. -/
theorem insertN_spec (k : α) (v : V) : ∀ (h : Nat) (t : BNodeH α V h),
    KSorted (inorder h t) →
    (insertN h (compC k) k v t).1 = (lookupList k (inorder h t)).map (·.2) ∧
    insResInorder h (insertN h (compC k) k v t).2 = insKeyList k v (inorder h t) := by
  intro h
  induction h with
  | zero =>
    intro t hs
    have hs' : KSorted (t : List (α × V)) := hs
    simp only [insertN]
    rw [find_key_index_zero]
    show _ ∧ insResInorder 0 _ = insKeyList k v (t : List (α × V))
    rcases hfk : findKeyIndexFrom (compC k) (t.map Prod.fst) 0 with i | i
    · obtain ⟨h1, -⟩ := fki_kv_spec hfk
      rw [List.getElem?_map] at h1
      rcases hgi : t[i]? with - | e
      · rw [hgi] at h1; simp at h1
      · rw [hgi] at h1
        obtain ⟨k1, v1⟩ := e
        have hk1 : k1 = k := by simpa using h1
        have hdec : (t : List (α × V)) = t.take i ++ (k1, v1) :: t.drop (i + 1) :=
          list_decomp_at hgi
        have hanch := KSorted.anchor (A := t.take i) (m := (k1, v1))
          (B := t.drop (i + 1)) (by rw [← hdec]; exact hs')
        constructor
        · have hmem : (k1, v1) ∈ (t : List (α × V)) := by rw [hdec]; simp
          have hmem' : (k, v1) ∈ (t : List (α × V)) := by rw [← hk1]; exact hmem
          have hlk : lookupList k t = some (k, v1) := lookupList_of_mem hs' hmem'
          show (t[i]?).map (·.2) = (lookupList k (t : List (α × V))).map (·.2)
          rw [hgi, hlk]
          simp
        · simp only [hgi]
          show (t.set i (k1, v) : List (α × V)) = insKeyList k v (t : List (α × V))
          rw [set_decomp_at hgi]
          conv_rhs => rw [hdec]
          rw [insKeyList_append_left (fun x hx => hk1 ▸ hanch.1 x hx)]
          simp [insKeyList, hk1]
    · obtain ⟨h1, h2, h3⟩ := fki_edge_spec hfk
      have hien : i ≤ t.length := by simpa using h1
      have hins : t.insertIdx i (k, v) = t.take i ++ (k, v) :: t.drop i :=
        insertIdx_decomp (k, v) hien
      have hinsK : insKeyList k v (t : List (α × V)) = t.take i ++ (k, v) :: t.drop i := by
        conv_lhs => rw [show (t : List (α × V)) = t.take i ++ t.drop i from
          (List.take_append_drop i t).symm]
        rw [insKeyList_append_left (take_bound h2),
          insKeyList_all_gt (drop_bound hs' h3)]
      have hfst : lookupList k (t : List (α × V)) = none := lookup_none_of_edge hs' hfk
      rcases hsp : splitNodeList (t.insertIdx i (k, v)) with - | ⟨l, m, r⟩ <;>
        simp only [hsp]
      · constructor
        · show none = (lookupList k (t : List (α × V))).map (·.2)
          rw [hfst]
          rfl
        · show (t.insertIdx i (k, v) : List (α × V)) = _
          rw [hins, hinsK]
      · constructor
        · show none = (lookupList k (t : List (α × V))).map (·.2)
          rw [hfst]
          rfl
        · show (l ++ m :: r : List (α × V)) = _
          rw [splitNodeList_append hsp, hins, hinsK]
  | succ h ih =>
    intro t hs
    obtain ⟨c0, rest⟩ := t
    simp only [insertN]
    rw [find_key_index_zero]
    rcases hfk : findKeyIndexFrom (compC k) (rest.map (fun p => p.1.1)) 0 with i | i
    · obtain ⟨kv0, d, hi, hk, hA, hB⟩ := node_kv_localize hs hfk
      rw [hfk]
      simp only [hi]
      constructor
      · have hmem : kv0 ∈ inorder (h + 1) ((c0, rest) : BNodeH α V (h + 1)) := by
          rw [inorder_decomp_at hi]; simp
        have hlk : lookupList k (inorder (h + 1) ((c0, rest) : BNodeH α V (h + 1))) =
            some (k, kv0.2) := by
          apply lookupList_of_mem hs
          obtain ⟨k1, v1⟩ := kv0
          simp only at hk
          subst hk
          exact hmem
        rw [hlk]
        rfl
      · show inorder (h + 1) ((c0, rest.set i ((kv0.1, v), d)) : BNodeH α V (h + 1)) = _
        rw [inorder_succ, set_decomp_at hi, flatF_append, flatF_cons]
        conv_rhs => rw [inorder_decomp_at hi]
        rw [insKeyList_append_left (fun x hx => hA x hx)]
        have : insKeyList k v (kv0 :: (inorder h d ++ flatF h (rest.drop (i + 1)))) =
            (kv0.1, v) :: (inorder h d ++ flatF h (rest.drop (i + 1))) := by
          obtain ⟨k1, v1⟩ := kv0
          simp only at hk
          subst hk
          simp [insKeyList]
        rw [this]
        simp [List.append_assoc]
    · cases i with
      | zero =>
        have hB := node_edge0_localize hs hfk
        have hsc0 : KSorted (inorder h c0) :=
          List.Pairwise.sublist (sublist_inorder_c0 c0 rest) hs
        obtain ⟨ihf, ihs⟩ := ih c0 hsc0
        have hrhs : insKeyList k v (inorder (h + 1) ((c0, rest) : BNodeH α V (h + 1))) =
            insKeyList k v (inorder h c0) ++ flatF h rest := by
          rw [inorder_succ, insKeyList_append_right hB]
        rw [hfk]
        rcases hres : insertN h (compC k) k v c0 with ⟨old, c0' | ⟨l, m, r⟩⟩
        · rw [hres] at ihf ihs
          constructor
          · show old = _
            rw [inorder_succ, lookupList_append_right hB]
            exact ihf
          · show inorder (h + 1) ((c0', rest) : BNodeH α V (h + 1)) = _
            rw [hrhs, inorder_succ, ← ihs]
            rfl
        · rw [hres] at ihf ihs
          simp only [insResInorder] at ihs
          have hfst : old = (lookupList k
              (inorder (h + 1) ((c0, rest) : BNodeH α V (h + 1)))).map (·.2) := by
            rw [inorder_succ, lookupList_append_right hB]
            exact ihf
          rcases hsp : splitNodeList ((m, r) :: rest) with - | ⟨rl, ⟨mkv, mc⟩, rr⟩ <;>
            simp only [hsp]
          · refine ⟨hfst, ?_⟩
            show inorder (h + 1) ((l, (m, r) :: rest) : BNodeH α V (h + 1)) = _
            rw [hrhs, inorder_succ, flatF_cons, ← ihs]
            simp [List.append_assoc]
          · refine ⟨hfst, ?_⟩
            show insResInorder (h + 1) (.split ((l, rl) : BNodeH α V (h + 1)) mkv
              ((mc, rr) : BNodeH α V (h + 1))) = _
            rw [internal_split_inorder hsp, hrhs, inorder_succ, flatF_cons, ← ihs]
            simp [List.append_assoc]
      | succ i =>
        obtain ⟨kv0, d, hi, hA, hB⟩ := node_edge_succ_localize hs hfk
        rw [hfk]
        simp only [hi]
        have hsd : KSorted (inorder h d) := by
          refine List.Pairwise.sublist ?_ hs
          refine List.Sublist.trans ?_ (sublist_flatF c0 rest)
          exact List.sublist_of_cons_sublist (sublist_child_flatF (p := (kv0, d))
            ((List.mem_iff_getElem?).mpr ⟨i, hi⟩))
        obtain ⟨ihf, ihs⟩ := ih d hsd
        have hdec : inorder (h + 1) ((c0, rest) : BNodeH α V (h + 1)) =
            ((inorder h c0 ++ flatF h (rest.take i)) ++ [kv0]) ++
              (inorder h d ++ flatF h (rest.drop (i + 1))) := by
          rw [inorder_decomp_at hi]
          simp [List.append_assoc]
        have hrhs : insKeyList k v (inorder (h + 1) ((c0, rest) : BNodeH α V (h + 1))) =
            ((inorder h c0 ++ flatF h (rest.take i)) ++ [kv0]) ++
              (insKeyList k v (inorder h d) ++ flatF h (rest.drop (i + 1))) := by
          rw [hdec, insKeyList_append_left (by simpa [List.append_assoc] using hA),
            insKeyList_append_right hB]
        have hlk : lookupList k (inorder (h + 1) ((c0, rest) : BNodeH α V (h + 1))) =
            lookupList k (inorder h d) := by
          rw [hdec, lookupList_append_left (by simpa [List.append_assoc] using hA),
            lookupList_append_right hB]
        rcases hres : insertN h (compC k) k v d with ⟨old, d' | ⟨l, m, r⟩⟩
        · rw [hres] at ihf ihs
          constructor
          · show old = _
            rw [hlk]
            exact ihf
          · show inorder (h + 1)
              ((c0, rest.set i (kv0, d')) : BNodeH α V (h + 1)) = _
            rw [hrhs, inorder_succ, set_decomp_at hi, flatF_append, flatF_cons, ← ihs]
            simp [List.append_assoc, insResInorder]
        · rw [hres] at ihf ihs
          simp only [insResInorder] at ihs
          have hfst : old = (lookupList k
              (inorder (h + 1) ((c0, rest) : BNodeH α V (h + 1)))).map (·.2) := by
            rw [hlk]; exact ihf
          rcases hsp : splitNodeList (rest.take i ++ (kv0, l) :: (m, r) :: rest.drop (i + 1))
            with - | ⟨rl, ⟨mkv, mc⟩, rr⟩ <;> simp only [hsp]
          · refine ⟨hfst, ?_⟩
            show inorder (h + 1)
              ((c0, rest.take i ++ (kv0, l) :: (m, r) :: rest.drop (i + 1)) :
                BNodeH α V (h + 1)) = _
            rw [hrhs, inorder_succ, flatF_append, flatF_cons, flatF_cons, ← ihs]
            simp [List.append_assoc]
          · refine ⟨hfst, ?_⟩
            show insResInorder (h + 1) (.split ((c0, rl) : BNodeH α V (h + 1)) mkv
              ((mc, rr) : BNodeH α V (h + 1))) = _
            rw [internal_split_inorder hsp, hrhs, inorder_succ, flatF_append,
              flatF_cons, flatF_cons, ← ihs]
            simp [List.append_assoc]

end InsertRefine

/-! ## Unfolding lemmas for the occupancy predicates -/

section WfIff
variable {α V : Type}

theorem wfInner_zero_iff {kvs : BNodeH α V 0} :
    wfInner 0 kvs = true ↔
      MIN_LEN ≤ (kvs : List (α × V)).length ∧ (kvs : List (α × V)).length ≤ CAPACITY := by
  simp [wfInner]

theorem wfInner_succ_iff {h : Nat} {c0 : BNodeH α V h}
    {rest : List ((α × V) × BNodeH α V h)} :
    wfInner (h + 1) ((c0, rest) : BNodeH α V (h + 1)) = true ↔
      MIN_LEN ≤ rest.length ∧ rest.length ≤ CAPACITY ∧ wfInner h c0 = true ∧
        ∀ p ∈ rest, wfInner h p.2 = true := by
  simp [wfInner, List.all_eq_true, and_assoc]

theorem wfRoot_zero_iff {kvs : BNodeH α V 0} :
    wfRoot 0 kvs = true ↔ (kvs : List (α × V)).length ≤ CAPACITY := by
  simp [wfRoot]

theorem wfRoot_succ_iff {h : Nat} {c0 : BNodeH α V h}
    {rest : List ((α × V) × BNodeH α V h)} :
    wfRoot (h + 1) ((c0, rest) : BNodeH α V (h + 1)) = true ↔
      1 ≤ rest.length ∧ rest.length ≤ CAPACITY ∧ wfInner h c0 = true ∧
        ∀ p ∈ rest, wfInner h p.2 = true := by
  simp [wfRoot, List.all_eq_true, and_assoc]

theorem wfUnder_zero_iff {kvs : BNodeH α V 0} :
    wfUnder 0 kvs = true ↔
      MIN_LEN - 1 ≤ (kvs : List (α × V)).length ∧
        (kvs : List (α × V)).length ≤ CAPACITY := by
  simp [wfUnder]

theorem wfUnder_succ_iff {h : Nat} {c0 : BNodeH α V h}
    {rest : List ((α × V) × BNodeH α V h)} :
    wfUnder (h + 1) ((c0, rest) : BNodeH α V (h + 1)) = true ↔
      MIN_LEN - 1 ≤ rest.length ∧ rest.length ≤ CAPACITY ∧ wfInner h c0 = true ∧
        ∀ p ∈ rest, wfInner h p.2 = true := by
  simp [wfUnder, List.all_eq_true, and_assoc]

theorem wfKids_zero {kvs : BNodeH α V 0} : wfKids 0 kvs = true := rfl

theorem wfKids_succ_iff {h : Nat} {c0 : BNodeH α V h}
    {rest : List ((α × V) × BNodeH α V h)} :
    wfKids (h + 1) ((c0, rest) : BNodeH α V (h + 1)) = true ↔
      wfInner h c0 = true ∧ ∀ p ∈ rest, wfInner h p.2 = true := by
  simp [wfKids, List.all_eq_true]

theorem wfInner_wfUnder {h : Nat} {t : BNodeH α V h} (hw : wfInner h t = true) :
    wfUnder h t = true := by
  cases h with
  | zero =>
    obtain ⟨h1, h2⟩ := wfInner_zero_iff.mp hw
    exact wfUnder_zero_iff.mpr ⟨by omega, h2⟩
  | succ h =>
    obtain ⟨c0, rest⟩ := t
    obtain ⟨h1, h2, h3, h4⟩ := wfInner_succ_iff.mp hw
    exact wfUnder_succ_iff.mpr ⟨by omega, h2, h3, h4⟩

theorem wfUnder_wfInner {h : Nat} {t : BNodeH α V h} (hw : wfUnder h t = true)
    (hlen : MIN_LEN ≤ nodeLen h t) : wfInner h t = true := by
  cases h with
  | zero =>
    obtain ⟨h1, h2⟩ := wfUnder_zero_iff.mp hw
    exact wfInner_zero_iff.mpr ⟨hlen, h2⟩
  | succ h =>
    obtain ⟨c0, rest⟩ := t
    obtain ⟨h1, h2, h3, h4⟩ := wfUnder_succ_iff.mp hw
    exact wfInner_succ_iff.mpr ⟨hlen, h2, h3, h4⟩

theorem wfInner_wfKids {h : Nat} {t : BNodeH α V h} (hw : wfInner h t = true) :
    wfKids h t = true := by
  cases h with
  | zero => rfl
  | succ h =>
    obtain ⟨c0, rest⟩ := t
    obtain ⟨-, -, h3, h4⟩ := wfInner_succ_iff.mp hw
    exact wfKids_succ_iff.mpr ⟨h3, h4⟩

theorem wfRoot_wfKids {h : Nat} {t : BNodeH α V h} (hw : wfRoot h t = true) :
    wfKids h t = true := by
  cases h with
  | zero => rfl
  | succ h =>
    obtain ⟨c0, rest⟩ := t
    obtain ⟨-, -, h3, h4⟩ := wfRoot_succ_iff.mp hw
    exact wfKids_succ_iff.mpr ⟨h3, h4⟩

theorem wfInner_wfRoot {h : Nat} {t : BNodeH α V h} (hw : wfInner h t = true) :
    wfRoot h t = true := by
  cases h with
  | zero =>
    exact wfRoot_zero_iff.mpr (wfInner_zero_iff.mp hw).2
  | succ h =>
    obtain ⟨c0, rest⟩ := t
    obtain ⟨h1, h2, h3, h4⟩ := wfInner_succ_iff.mp hw
    refine wfRoot_succ_iff.mpr ⟨?_, h2, h3, h4⟩
    have : (1 : Nat) ≤ MIN_LEN := by simp [MIN_LEN]
    omega

end WfIff

/-! ## Insertion preserves occupancy -/

section InsertWf
variable {α V : Type}

theorem fki_edge_le {comp : α → Ordering} : ∀ {ks : List α} {i : Nat},
    findKeyIndexFrom comp ks 0 = .edge i → i ≤ ks.length := by
  intro ks
  induction ks with
  | nil => intro i h; simp only [findKeyIndexFrom, IndexResult.edge.injEq] at h; omega
  | cons y tl ih =>
    intro i h
    simp only [findKeyIndexFrom] at h
    rcases hc : comp y with - | - | - <;> rw [hc] at h
    · obtain rfl : 0 = i := by simpa using h
      simp
    · simp at h
    · rw [findKeyIndexFrom_shift tl 1] at h
      rcases hres : findKeyIndexFrom comp tl 0 with i' | i' <;> rw [hres] at h
      · simp [IndexResult.shiftIdx] at h
      · simp only [IndexResult.shiftIdx, IndexResult.edge.injEq] at h
        have := ih hres
        simp only [List.length_cons]
        omega

theorem fki_kv_lt {comp : α → Ordering} : ∀ {ks : List α} {i : Nat},
    findKeyIndexFrom comp ks 0 = .kv i → i < ks.length := by
  intro ks
  induction ks with
  | nil => intro i h; simp [findKeyIndexFrom] at h
  | cons y tl ih =>
    intro i h
    simp only [findKeyIndexFrom] at h
    rcases hc : comp y with - | - | - <;> rw [hc] at h
    · simp at h
    · obtain rfl : 0 = i := by simpa using h
      simp
    · rw [findKeyIndexFrom_shift tl 1] at h
      rcases hres : findKeyIndexFrom comp tl 0 with i' | i' <;> rw [hres] at h
      · simp only [IndexResult.shiftIdx, IndexResult.kv.injEq] at h
        have := ih hres
        simp only [List.length_cons]
        omega
      · simp [IndexResult.shiftIdx] at h

/-- The split of an exactly-overflowed slot list yields two sides that both
meet minimum occupancy. -/
theorem splitNodeList_overflow {β : Type} {es l r : List β} {m : β}
    (hsp : splitNodeList es = some (l, m, r)) (hcap : es.length ≤ CAPACITY + 1) :
    l.length = MIN_LEN ∧ r.length = MIN_LEN + 1 := by
  obtain ⟨hgt, -, -⟩ := splitNodeList_eq_some hsp
  obtain ⟨h1, h2⟩ := splitNodeList_lengths hsp
  simp [MIN_LEN, CAPACITY] at *
  omega

theorem gen_members_wf {h : Nat} {rest : List ((α × V) × BNodeH α V h)}
    {i : Nat} {kv0 : α × V} {d d' : BNodeH α V h}
    (hi : rest[i]? = some (kv0, d))
    (hkids : ∀ p ∈ rest, wfInner h p.2 = true)
    (hd' : wfInner h d' = true) {q : (α × V) × BNodeH α V h} {x : α × V}
    (hq : q ∈ rest.set i (x, d')) : wfInner h q.2 = true := by
  rw [set_decomp_at hi] at hq
  rcases List.mem_append.mp hq with h1 | h1
  · exact hkids q (List.mem_of_mem_take h1)
  · rcases List.mem_cons.mp h1 with h2 | h2
    · rw [h2]; exact hd'
    · exact hkids q (List.mem_of_mem_drop h2)

/-- Insertion into a fully well-formed non-root subtree yields a fully
well-formed subtree, or two fully well-formed halves when it splits.  Holds
for an arbitrary comparator. -/
theorem insertN_wfInner (comp : α → Ordering) (k : α) (v : V) :
    ∀ (h : Nat) (t : BNodeH α V h), wfInner h t = true →
    (match (insertN h comp k v t).2 with
     | .fit t' => wfInner h t' = true
     | .split l m r => wfInner h l = true ∧ wfInner h r = true) := by
  intro h
  induction h with
  | zero =>
    intro t hw
    obtain ⟨hlo, hhi⟩ := wfInner_zero_iff.mp hw
    simp only [insertN]
    rw [find_key_index_zero]
    rcases hfk : findKeyIndexFrom comp (t.map Prod.fst) 0 with i | i
    · rcases hgi : t[i]? with - | ⟨k0, v0⟩ <;> simp only [hgi]
      · exact wfInner_zero_iff.mpr ⟨hlo, hhi⟩
      · exact wfInner_zero_iff.mpr (by simpa using And.intro hlo hhi)
    · have hien : i ≤ t.length := by simpa using fki_edge_le hfk
      have hlen : (t.insertIdx i (k, v)).length = t.length + 1 :=
        List.length_insertIdx i t hien
      rcases hsp : splitNodeList (t.insertIdx i (k, v)) with - | ⟨l, m, r⟩ <;>
        simp only [hsp]
      · have hcap := splitNodeList_eq_none.mp hsp
        exact wfInner_zero_iff.mpr ⟨by omega, hcap⟩
      · obtain ⟨hl, hr⟩ := splitNodeList_overflow hsp (by omega)
        constructor
        · exact wfInner_zero_iff.mpr ⟨by omega, by simp [MIN_LEN, CAPACITY] at hl ⊢; omega⟩
        · exact wfInner_zero_iff.mpr ⟨by omega, by simp [MIN_LEN, CAPACITY] at hr ⊢; omega⟩
  | succ h ih =>
    intro t hw
    obtain ⟨c0, rest⟩ := t
    obtain ⟨hlo, hhi, hc0, hkids⟩ := wfInner_succ_iff.mp hw
    simp only [insertN]
    rw [find_key_index_zero]
    rcases hfk : findKeyIndexFrom comp (rest.map (fun p => p.1.1)) 0 with i | i
    · rw [hfk]
      rcases hgi : rest[i]? with - | ⟨⟨k0, v0⟩, d⟩ <;> simp only [hgi]
      · exact wfInner_succ_iff.mpr ⟨hlo, hhi, hc0, hkids⟩
      · refine wfInner_succ_iff.mpr ⟨by simpa using hlo, by simpa using hhi, hc0, ?_⟩
        intro q hq
        exact gen_members_wf hgi hkids (hkids _ (List.mem_iff_getElem?.mpr ⟨_, hgi⟩)) hq
    · rw [hfk]
      cases i with
      | zero =>
        have := ih c0 hc0
        rcases hres : insertN h comp k v c0 with ⟨old, c0' | ⟨l, m, r⟩⟩ <;>
          rw [hres] at this
        · exact wfInner_succ_iff.mpr ⟨hlo, hhi, this, hkids⟩
        · obtain ⟨hl, hr⟩ := this
          have hes : ∀ p ∈ ((m, r) :: rest), wfInner h p.2 = true := by
            intro p hp
            rcases List.mem_cons.mp hp with h1 | h1
            · rw [h1]; exact hr
            · exact hkids p h1
          rcases hsp : splitNodeList ((m, r) :: rest) with - | ⟨rl, ⟨mkv, mc⟩, rr⟩ <;>
            simp only [hsp]
          · have hcap := splitNodeList_eq_none.mp hsp
            simp only [List.length_cons] at hcap
            refine wfInner_succ_iff.mpr ⟨by simp; omega, by simpa using hcap, hl, hes⟩
          · obtain ⟨-, htake, hdrop⟩ := splitNodeList_eq_some hsp
            obtain ⟨h5, h6⟩ := splitNodeList_overflow hsp (by simp; omega)
            have hmemtake : ∀ p ∈ rl, p ∈ ((m, r) :: rest) := by
              intro p hp
              rw [htake] at hp
              exact List.mem_of_mem_take hp
            have hmemdrop : ∀ p ∈ (mkv, mc) :: rr, p ∈ ((m, r) :: rest) := by
              intro p hp
              rw [hdrop] at hp
              exact List.mem_of_mem_drop hp
            constructor
            · exact wfInner_succ_iff.mpr ⟨by omega, by
                simp [MIN_LEN, CAPACITY] at h5 ⊢; omega, hl,
                fun p hp => hes p (hmemtake p hp)⟩
            · refine wfInner_succ_iff.mpr ⟨by omega, by
                simp [MIN_LEN, CAPACITY] at h6 ⊢; omega,
                hes _ (hmemdrop (mkv, mc) (by simp)), ?_⟩
              intro p hp
              exact hes p (hmemdrop p (by simp [hp]))
      | succ i =>
        rcases hgi : rest[i]? with - | ⟨kv0, d⟩ <;> simp only [hgi]
        · exact wfInner_succ_iff.mpr ⟨hlo, hhi, hc0, hkids⟩
        · have hd : wfInner h d = true := hkids _ (List.mem_iff_getElem?.mpr ⟨_, hgi⟩)
          have hilen : i < rest.length := by
            by_contra hc
            rw [List.getElem?_eq_none (by omega)] at hgi
            simp at hgi
          have := ih d hd
          rcases hres : insertN h comp k v d with ⟨old, d' | ⟨l, m, r⟩⟩ <;>
            rw [hres] at this
          · refine wfInner_succ_iff.mpr ⟨by simpa using hlo, by simpa using hhi, hc0, ?_⟩
            intro q hq
            exact gen_members_wf hgi hkids this hq
          · obtain ⟨hl, hr⟩ := this
            have heslen : (rest.take i ++ (kv0, l) :: (m, r) :: rest.drop (i + 1)).length =
                rest.length + 1 := by
              simp [List.length_take, List.length_drop]
              omega
            have hes : ∀ p ∈ rest.take i ++ (kv0, l) :: (m, r) :: rest.drop (i + 1),
                wfInner h p.2 = true := by
              intro p hp
              rcases List.mem_append.mp hp with h1 | h1
              · exact hkids p (List.mem_of_mem_take h1)
              · rcases List.mem_cons.mp h1 with h2 | h2
                · rw [h2]; exact hl
                · rcases List.mem_cons.mp h2 with h3 | h3
                  · rw [h3]; exact hr
                  · exact hkids p (List.mem_of_mem_drop h3)
            rcases hsp : splitNodeList (rest.take i ++ (kv0, l) :: (m, r) :: rest.drop (i + 1))
              with - | ⟨rl, ⟨mkv, mc⟩, rr⟩ <;> simp only [hsp]
            · have hcap := splitNodeList_eq_none.mp hsp
              rw [heslen] at hcap
              exact wfInner_succ_iff.mpr ⟨by rw [heslen]; omega, by rw [heslen]; omega,
                hc0, hes⟩
            · obtain ⟨-, htake, hdrop⟩ := splitNodeList_eq_some hsp
              obtain ⟨h5, h6⟩ := splitNodeList_overflow hsp (by omega)
              have hmemtake : ∀ p ∈ rl, p ∈ rest.take i ++ (kv0, l) :: (m, r) :: rest.drop (i + 1) := by
                intro p hp
                rw [htake] at hp
                exact List.mem_of_mem_take hp
              have hmemdrop : ∀ p ∈ (mkv, mc) :: rr,
                  p ∈ rest.take i ++ (kv0, l) :: (m, r) :: rest.drop (i + 1) := by
                intro p hp
                rw [hdrop] at hp
                exact List.mem_of_mem_drop hp
              constructor
              · exact wfInner_succ_iff.mpr ⟨by omega, by
                  simp [MIN_LEN, CAPACITY] at h5 ⊢; omega, hc0,
                  fun p hp => hes p (hmemtake p hp)⟩
              · refine wfInner_succ_iff.mpr ⟨by omega, by
                  simp [MIN_LEN, CAPACITY] at h6 ⊢; omega,
                  hes _ (hmemdrop (mkv, mc) (by simp)), ?_⟩
                intro p hp
                exact hes p (hmemdrop p (by simp [hp]))

/-- Insertion at the root: the root stays a legal root if the result fits,
and both halves meet full occupancy when it splits (the map level then grows
a fresh one-key internal root above them). -/
theorem insertN_wfRoot (comp : α → Ordering) (k : α) (v : V) :
    ∀ (h : Nat) (t : BNodeH α V h), wfRoot h t = true →
    (match (insertN h comp k v t).2 with
     | .fit t' => wfRoot h t' = true
     | .split l m r => wfInner h l = true ∧ wfInner h r = true) := by
  intro h
  cases h with
  | zero =>
    intro t hw
    have hhi := wfRoot_zero_iff.mp hw
    simp only [insertN]
    rw [find_key_index_zero]
    rcases hfk : findKeyIndexFrom comp (t.map Prod.fst) 0 with i | i
    · rcases hgi : t[i]? with - | ⟨k0, v0⟩ <;> simp only [hgi]
      · exact wfRoot_zero_iff.mpr hhi
      · exact wfRoot_zero_iff.mpr (by simpa using hhi)
    · have hien : i ≤ t.length := by simpa using fki_edge_le hfk
      have hlen : (t.insertIdx i (k, v)).length = t.length + 1 :=
        List.length_insertIdx i t hien
      rcases hsp : splitNodeList (t.insertIdx i (k, v)) with - | ⟨l, m, r⟩ <;>
        simp only [hsp]
      · exact wfRoot_zero_iff.mpr (splitNodeList_eq_none.mp hsp)
      · obtain ⟨hl, hr⟩ := splitNodeList_overflow hsp (by omega)
        constructor
        · exact wfInner_zero_iff.mpr ⟨by omega, by simp [MIN_LEN, CAPACITY] at hl ⊢; omega⟩
        · exact wfInner_zero_iff.mpr ⟨by omega, by simp [MIN_LEN, CAPACITY] at hr ⊢; omega⟩
  | succ h =>
    intro t hw
    obtain ⟨c0, rest⟩ := t
    obtain ⟨hlo, hhi, hc0, hkids⟩ := wfRoot_succ_iff.mp hw
    simp only [insertN]
    rw [find_key_index_zero]
    rcases hfk : findKeyIndexFrom comp (rest.map (fun p => p.1.1)) 0 with i | i
    · rw [hfk]
      rcases hgi : rest[i]? with - | ⟨⟨k0, v0⟩, d⟩ <;> simp only [hgi]
      · exact wfRoot_succ_iff.mpr ⟨hlo, hhi, hc0, hkids⟩
      · refine wfRoot_succ_iff.mpr ⟨by simpa using hlo, by simpa using hhi, hc0, ?_⟩
        intro q hq
        exact gen_members_wf hgi hkids (hkids _ (List.mem_iff_getElem?.mpr ⟨_, hgi⟩)) hq
    · rw [hfk]
      cases i with
      | zero =>
        have := insertN_wfInner comp k v h c0 hc0
        rcases hres : insertN h comp k v c0 with ⟨old, c0' | ⟨l, m, r⟩⟩ <;>
          rw [hres] at this
        · exact wfRoot_succ_iff.mpr ⟨hlo, hhi, this, hkids⟩
        · obtain ⟨hl, hr⟩ := this
          have hes : ∀ p ∈ ((m, r) :: rest), wfInner h p.2 = true := by
            intro p hp
            rcases List.mem_cons.mp hp with h1 | h1
            · rw [h1]; exact hr
            · exact hkids p h1
          rcases hsp : splitNodeList ((m, r) :: rest) with - | ⟨rl, ⟨mkv, mc⟩, rr⟩ <;>
            simp only [hsp]
          · have hcap := splitNodeList_eq_none.mp hsp
            simp only [List.length_cons] at hcap
            refine wfRoot_succ_iff.mpr ⟨by simp, by simpa using hcap, hl, hes⟩
          · obtain ⟨-, htake, hdrop⟩ := splitNodeList_eq_some hsp
            obtain ⟨h5, h6⟩ := splitNodeList_overflow hsp (by simp; omega)
            have hmemtake : ∀ p ∈ rl, p ∈ ((m, r) :: rest) := by
              intro p hp
              rw [htake] at hp
              exact List.mem_of_mem_take hp
            have hmemdrop : ∀ p ∈ (mkv, mc) :: rr, p ∈ ((m, r) :: rest) := by
              intro p hp
              rw [hdrop] at hp
              exact List.mem_of_mem_drop hp
            constructor
            · exact wfInner_succ_iff.mpr ⟨by omega, by
                simp [MIN_LEN, CAPACITY] at h5 ⊢; omega, hl,
                fun p hp => hes p (hmemtake p hp)⟩
            · refine wfInner_succ_iff.mpr ⟨by omega, by
                simp [MIN_LEN, CAPACITY] at h6 ⊢; omega,
                hes _ (hmemdrop (mkv, mc) (by simp)), ?_⟩
              intro p hp
              exact hes p (hmemdrop p (by simp [hp]))
      | succ i =>
        rcases hgi : rest[i]? with - | ⟨kv0, d⟩ <;> simp only [hgi]
        · exact wfRoot_succ_iff.mpr ⟨hlo, hhi, hc0, hkids⟩
        · have hd : wfInner h d = true := hkids _ (List.mem_iff_getElem?.mpr ⟨_, hgi⟩)
          have hilen : i < rest.length := by
            by_contra hc
            rw [List.getElem?_eq_none (by omega)] at hgi
            simp at hgi
          have := insertN_wfInner comp k v h d hd
          rcases hres : insertN h comp k v d with ⟨old, d' | ⟨l, m, r⟩⟩ <;>
            rw [hres] at this
          · refine wfRoot_succ_iff.mpr ⟨by simpa using hlo, by simpa using hhi, hc0, ?_⟩
            intro q hq
            exact gen_members_wf hgi hkids this hq
          · obtain ⟨hl, hr⟩ := this
            have heslen : (rest.take i ++ (kv0, l) :: (m, r) :: rest.drop (i + 1)).length =
                rest.length + 1 := by
              simp [List.length_take, List.length_drop]
              omega
            have hes : ∀ p ∈ rest.take i ++ (kv0, l) :: (m, r) :: rest.drop (i + 1),
                wfInner h p.2 = true := by
              intro p hp
              rcases List.mem_append.mp hp with h1 | h1
              · exact hkids p (List.mem_of_mem_take h1)
              · rcases List.mem_cons.mp h1 with h2 | h2
                · rw [h2]; exact hl
                · rcases List.mem_cons.mp h2 with h3 | h3
                  · rw [h3]; exact hr
                  · exact hkids p (List.mem_of_mem_drop h3)
            rcases hsp : splitNodeList (rest.take i ++ (kv0, l) :: (m, r) :: rest.drop (i + 1))
              with - | ⟨rl, ⟨mkv, mc⟩, rr⟩ <;> simp only [hsp]
            · have hcap := splitNodeList_eq_none.mp hsp
              rw [heslen] at hcap
              exact wfRoot_succ_iff.mpr ⟨by rw [heslen]; omega, by rw [heslen]; omega,
                hc0, hes⟩
            · obtain ⟨-, htake, hdrop⟩ := splitNodeList_eq_some hsp
              obtain ⟨h5, h6⟩ := splitNodeList_overflow hsp (by omega)
              have hmemtake : ∀ p ∈ rl, p ∈ rest.take i ++ (kv0, l) :: (m, r) :: rest.drop (i + 1) := by
                intro p hp
                rw [htake] at hp
                exact List.mem_of_mem_take hp
              have hmemdrop : ∀ p ∈ (mkv, mc) :: rr,
                  p ∈ rest.take i ++ (kv0, l) :: (m, r) :: rest.drop (i + 1) := by
                intro p hp
                rw [hdrop] at hp
                exact List.mem_of_mem_drop hp
              constructor
              · exact wfInner_succ_iff.mpr ⟨by omega, by
                  simp [MIN_LEN, CAPACITY] at h5 ⊢; omega, hc0,
                  fun p hp => hes p (hmemtake p hp)⟩
              · refine wfInner_succ_iff.mpr ⟨by omega, by
                  simp [MIN_LEN, CAPACITY] at h6 ⊢; omega,
                  hes _ (hmemdrop (mkv, mc) (by simp)), ?_⟩
                intro p hp
                exact hes p (hmemdrop p (by simp [hp]))

end InsertWf

/-! ## Rebalancing primitives: rotations and merge -/

section Rebalance
variable {α V : Type}

theorem nodeLen_zero (kvs : BNodeH α V 0) : nodeLen 0 kvs = (kvs : List (α × V)).length := rfl

theorem nodeLen_succ {h : Nat} (c0 : BNodeH α V h) (rest : List ((α × V) × BNodeH α V h)) :
    nodeLen (h + 1) ((c0, rest) : BNodeH α V (h + 1)) = rest.length := rfl

theorem wfInner_bounds {h : Nat} {t : BNodeH α V h} (hw : wfInner h t = true) :
    MIN_LEN ≤ nodeLen h t ∧ nodeLen h t ≤ CAPACITY := by
  cases h with
  | zero => exact wfInner_zero_iff.mp hw
  | succ h =>
    obtain ⟨c0, rest⟩ := t
    obtain ⟨h1, h2, -, -⟩ := wfInner_succ_iff.mp hw
    exact ⟨h1, h2⟩

theorem wfUnder_bounds {h : Nat} {t : BNodeH α V h} (hw : wfUnder h t = true) :
    MIN_LEN - 1 ≤ nodeLen h t ∧ nodeLen h t ≤ CAPACITY := by
  cases h with
  | zero => exact wfUnder_zero_iff.mp hw
  | succ h =>
    obtain ⟨c0, rest⟩ := t
    obtain ⟨h1, h2, -, -⟩ := wfUnder_succ_iff.mp hw
    exact ⟨h1, h2⟩

theorem mergeNodes_inorder : ∀ (h : Nat) (a b : BNodeH α V h) (p : α × V),
    inorder h (mergeNodes h a p b) = inorder h a ++ p :: inorder h b := by
  intro h
  cases h with
  | zero => intro a b p; rfl
  | succ h =>
    intro a b p
    obtain ⟨ca, ra⟩ := a
    obtain ⟨cb, rb⟩ := b
    show inorder (h + 1) ((ca, ra ++ (p, cb) :: rb) : BNodeH α V (h + 1)) = _
    rw [inorder_succ, flatF_append, flatF_cons, inorder_succ, inorder_succ]
    simp [List.append_assoc]

theorem mergeNodes_wf : ∀ (h : Nat) (a b : BNodeH α V h) (p : α × V),
    wfUnder h a = true → wfUnder h b = true →
    MIN_LEN ≤ nodeLen h a + nodeLen h b + 1 →
    nodeLen h a + nodeLen h b + 1 ≤ CAPACITY →
    wfInner h (mergeNodes h a p b) = true := by
  intro h
  cases h with
  | zero =>
    intro a b p ha hb hlo hhi
    rw [nodeLen_zero, nodeLen_zero] at hlo hhi
    refine wfInner_zero_iff.mpr ?_
    show MIN_LEN ≤ (a ++ p :: b : List (α × V)).length ∧
      (a ++ p :: b : List (α × V)).length ≤ CAPACITY
    simp only [List.length_append, List.length_cons]
    omega
  | succ h =>
    intro a b p ha hb hlo hhi
    obtain ⟨ca, ra⟩ := a
    obtain ⟨cb, rb⟩ := b
    obtain ⟨-, -, hca, hkra⟩ := wfUnder_succ_iff.mp ha
    obtain ⟨-, -, hcb, hkrb⟩ := wfUnder_succ_iff.mp hb
    rw [nodeLen_succ, nodeLen_succ] at hlo hhi
    show wfInner (h + 1) ((ca, ra ++ (p, cb) :: rb) : BNodeH α V (h + 1)) = true
    refine wfInner_succ_iff.mpr ⟨?_, ?_, hca, ?_⟩
    · simp only [List.length_append, List.length_cons]; omega
    · simp only [List.length_append, List.length_cons]; omega
    · intro q hq
      rcases List.mem_append.mp hq with h1 | h1
      · exact hkra q h1
      · rcases List.mem_cons.mp h1 with h2 | h2
        · rw [h2]; exact hcb
        · exact hkrb q h2

theorem stealLeft_spec : ∀ (h : Nat) (a b : BNodeH α V h) (p : α × V),
    wfInner h a = true → wfUnder h b = true →
    MIN_LEN < nodeLen h a → nodeLen h b < MIN_LEN →
    wfInner h (stealLeft h a p b).1 = true ∧
    wfInner h (stealLeft h a p b).2.2 = true ∧
    inorder h (stealLeft h a p b).1 ++ (stealLeft h a p b).2.1 ::
        inorder h (stealLeft h a p b).2.2 =
      inorder h a ++ p :: inorder h b := by
  intro h
  cases h with
  | zero =>
    intro a b p ha hb hsur hun
    rw [nodeLen_zero] at hsur hun
    obtain ⟨ha1, ha2⟩ := wfInner_zero_iff.mp ha
    obtain ⟨hb1, hb2⟩ := wfUnder_zero_iff.mp hb
    rcases List.eq_nil_or_concat (a : List (α × V)) with hnil | ⟨l', m, hcat⟩
    · rw [hnil] at hsur; simp at hsur
    · rw [List.concat_eq_append] at hcat
      have hlast : (a : List (α × V)).getLast? = some m := by
        rw [hcat]; exact List.getLast?_concat _
      have hdl : (a : List (α × V)).dropLast = l' := by
        rw [hcat]; exact List.dropLast_concat
      have hll : l'.length + 1 = (a : List (α × V)).length := by
        rw [hcat]; simp
      have hsl : stealLeft 0 a p b =
          (l', m, ((p :: (b : List (α × V))) : BNodeH α V 0)) := by
        simp only [stealLeft, hlast, hdl]
      rw [hsl]
      refine ⟨?_, ?_, ?_⟩
      · refine wfInner_zero_iff.mpr ?_
        show MIN_LEN ≤ l'.length ∧ l'.length ≤ CAPACITY
        omega
      · refine wfInner_zero_iff.mpr ?_
        show MIN_LEN ≤ (p :: (b : List (α × V))).length ∧
          (p :: (b : List (α × V))).length ≤ CAPACITY
        simp only [List.length_cons]
        simp [MIN_LEN, CAPACITY] at *
        omega
      · show l' ++ m :: p :: (b : List (α × V)) = (a : List (α × V)) ++ p :: b
        rw [hcat]
        simp
  | succ h =>
    intro a b p ha hb hsur hun
    obtain ⟨ca, ra⟩ := a
    obtain ⟨cb, rb⟩ := b
    rw [nodeLen_succ] at hsur hun
    obtain ⟨ha1, ha2, hca, hkra⟩ := wfInner_succ_iff.mp ha
    obtain ⟨hb1, hb2, hcb, hkrb⟩ := wfUnder_succ_iff.mp hb
    rcases List.eq_nil_or_concat ra with hnil | ⟨l', ⟨m, d⟩, hcat⟩
    · rw [hnil] at hsur; simp at hsur
    · rw [List.concat_eq_append] at hcat
      have hlast : ra.getLast? = some (m, d) := by
        rw [hcat]; exact List.getLast?_concat _
      have hdl : ra.dropLast = l' := by
        rw [hcat]; exact List.dropLast_concat
      have hll : l'.length + 1 = ra.length := by
        rw [hcat]; simp
      have hsl : stealLeft (h + 1) ((ca, ra) : BNodeH α V (h + 1)) p
          ((cb, rb) : BNodeH α V (h + 1)) =
          (((ca, l') : BNodeH α V (h + 1)), m,
           ((d, (p, cb) :: rb) : BNodeH α V (h + 1))) := by
        simp only [stealLeft, hlast, hdl]
      rw [hsl]
      refine ⟨?_, ?_, ?_⟩
      · refine wfInner_succ_iff.mpr ⟨by omega, by omega, hca, ?_⟩
        intro q hq
        refine hkra q ?_
        rw [hcat]
        exact List.mem_append_left _ hq
      · refine wfInner_succ_iff.mpr ⟨?_, ?_, ?_, ?_⟩
        · show MIN_LEN ≤ ((p, cb) :: rb).length
          simp only [List.length_cons]
          omega
        · show ((p, cb) :: rb).length ≤ CAPACITY
          simp only [List.length_cons]
          simp [MIN_LEN, CAPACITY] at *
          omega
        · exact hkra (m, d) (by rw [hcat]; simp)
        · intro q hq
          rcases List.mem_cons.mp hq with h1 | h1
          · rw [h1]; exact hcb
          · exact hkrb q h1
      · rw [inorder_succ, inorder_succ, inorder_succ, inorder_succ, hcat,
          flatF_append, flatF_cons, flatF_cons]
        simp [List.append_assoc]

theorem stealRight_spec : ∀ (h : Nat) (a b : BNodeH α V h) (p : α × V),
    wfUnder h a = true → wfInner h b = true →
    nodeLen h a < MIN_LEN → MIN_LEN < nodeLen h b →
    wfInner h (stealRight h a p b).1 = true ∧
    wfInner h (stealRight h a p b).2.2 = true ∧
    inorder h (stealRight h a p b).1 ++ (stealRight h a p b).2.1 ::
        inorder h (stealRight h a p b).2.2 =
      inorder h a ++ p :: inorder h b := by
  intro h
  cases h with
  | zero =>
    intro a b p ha hb hun hsur
    rw [nodeLen_zero] at hsur hun
    obtain ⟨ha1, ha2⟩ := wfUnder_zero_iff.mp ha
    obtain ⟨hb1, hb2⟩ := wfInner_zero_iff.mp hb
    have hbne : (b : List (α × V)) ≠ [] := by
      intro hx
      rw [hx] at hsur
      simp at hsur
    obtain ⟨m, b', hbl⟩ := List.exists_cons_of_ne_nil hbne
    · rw [hbl] at hsur hb2
      simp only [List.length_cons] at hsur hb2
      have hsr : stealRight 0 a p b =
          (((a : List (α × V)) ++ [p] : BNodeH α V 0), m, (b' : BNodeH α V 0)) := by
        simp only [stealRight, hbl]
      rw [hsr]
      refine ⟨?_, ?_, ?_⟩
      · refine wfInner_zero_iff.mpr ?_
        show MIN_LEN ≤ ((a : List (α × V)) ++ [p]).length ∧
          ((a : List (α × V)) ++ [p]).length ≤ CAPACITY
        simp only [List.length_append, List.length_singleton]
        simp [MIN_LEN, CAPACITY] at *
        omega
      · refine wfInner_zero_iff.mpr ?_
        show MIN_LEN ≤ b'.length ∧ b'.length ≤ CAPACITY
        omega
      · show (a : List (α × V)) ++ [p] ++ m :: b' = (a : List (α × V)) ++ p :: b
        rw [hbl]
        simp
  | succ h =>
    intro a b p ha hb hun hsur
    obtain ⟨ca, ra⟩ := a
    obtain ⟨cb, rb⟩ := b
    rw [nodeLen_succ] at hsur hun
    obtain ⟨ha1, ha2, hca, hkra⟩ := wfUnder_succ_iff.mp ha
    obtain ⟨hb1, hb2, hcb, hkrb⟩ := wfInner_succ_iff.mp hb
    have hbne : rb ≠ [] := by
      intro hx
      rw [hx] at hsur
      simp at hsur
    obtain ⟨⟨m, d⟩, rb', hbl⟩ := List.exists_cons_of_ne_nil hbne
    · rw [hbl] at hsur hb2 hkrb
      simp only [List.length_cons] at hsur hb2
      have hsr : stealRight (h + 1) ((ca, ra) : BNodeH α V (h + 1)) p
          ((cb, rb) : BNodeH α V (h + 1)) =
          (((ca, ra ++ [(p, cb)]) : BNodeH α V (h + 1)), m,
           ((d, rb') : BNodeH α V (h + 1))) := by
        simp only [stealRight, hbl]
      rw [hsr]
      refine ⟨?_, ?_, ?_⟩
      · refine wfInner_succ_iff.mpr ⟨?_, ?_, hca, ?_⟩
        · simp only [List.length_append, List.length_singleton]
          omega
        · simp only [List.length_append, List.length_singleton]
          simp [MIN_LEN, CAPACITY] at *
          omega
        · intro q hq
          rcases List.mem_append.mp hq with h1 | h1
          · exact hkra q h1
          · obtain rfl : q = (p, cb) := by simpa using h1
            exact hcb
      · refine wfInner_succ_iff.mpr ⟨by omega, by omega,
          hkrb (m, d) (by simp), fun q hq => hkrb q (by simp [hq])⟩
      · rw [inorder_succ, inorder_succ, inorder_succ, inorder_succ, hbl,
          flatF_append, flatF_cons, flatF_cons]
        simp [List.append_assoc]

/-- The underflow-repair pass: given an internal node whose child at edge
`j` may be one key short while every other child is fully well-formed, the
repaired node has only fully well-formed children, loses at most one of its
own keys, and its subtree traversal is untouched. -/
theorem fixAtAux_spec (h : Nat) :
    ∀ (rest : List ((α × V) × BNodeH α V h)) (cl : BNodeH α V h) (j : Nat),
    j ≤ rest.length → 1 ≤ rest.length →
    (if j = 0 then wfUnder h cl = true else wfInner h cl = true) →
    (∀ i p, rest[i]? = some p →
      (if i + 1 = j then wfUnder h p.2 = true else wfInner h p.2 = true)) →
    wfInner h (fixAtAux h cl rest j).1 = true ∧
    (∀ p ∈ (fixAtAux h cl rest j).2, wfInner h p.2 = true) ∧
    ((fixAtAux h cl rest j).2.length = rest.length ∨
      (fixAtAux h cl rest j).2.length + 1 = rest.length) ∧
    inorder h (fixAtAux h cl rest j).1 ++ flatF h (fixAtAux h cl rest j).2 =
      inorder h cl ++ flatF h rest := by
  intro rest
  induction rest with
  | nil =>
    intro cl j hj hne hcl hrest
    simp at hne
  | cons pd rtl ih =>
    obtain ⟨p, d⟩ := pd
    intro cl j hj hne hcl hrest
    rcases j with - | j
    · rw [if_pos rfl] at hcl
      have hkids : ∀ q ∈ (p, d) :: rtl, wfInner h q.2 = true := by
        intro q hq
        obtain ⟨i, hi⟩ := List.mem_iff_getElem?.mp hq
        have := hrest i q hi
        rwa [if_neg (by omega)] at this
      by_cases hlen : MIN_LEN ≤ nodeLen h cl
      · have hfix : fixAtAux h cl ((p, d) :: rtl) 0 = (cl, (p, d) :: rtl) := by
          simp only [fixAtAux, if_pos hlen]
        rw [hfix]
        exact ⟨wfUnder_wfInner hcl hlen, hkids, Or.inl rfl, rfl⟩
      · have hd0 : wfInner h d = true := hkids (p, d) (by simp)
        by_cases hsur : MIN_LEN < nodeLen h d
        · rcases hsr : stealRight h cl p d with ⟨cl', p', d0'⟩
          have hfix : fixAtAux h cl ((p, d) :: rtl) 0 = (cl', (p', d0') :: rtl) := by
            simp only [fixAtAux, if_neg hlen, if_pos hsur, hsr]
          have hspec := stealRight_spec h cl d p hcl hd0 (by omega) hsur
          rw [hsr] at hspec
          obtain ⟨hw1, hw2, hio⟩ := hspec
          rw [hfix]
          refine ⟨hw1, ?_, Or.inl (by simp), ?_⟩
          · intro q hq
            rcases List.mem_cons.mp hq with h1 | h1
            · rw [h1]; exact hw2
            · exact hkids q (by simp [h1])
          · show inorder h cl' ++ flatF h ((p', d0') :: rtl) = _
            rw [flatF_cons, flatF_cons]
            have := congrArg (· ++ flatF h rtl) hio
            simpa [List.append_assoc] using this
        · have hfix : fixAtAux h cl ((p, d) :: rtl) 0 = (mergeNodes h cl p d, rtl) := by
            simp only [fixAtAux, if_neg hlen, if_neg hsur]
          rw [hfix]
          obtain ⟨hcb1, hcb2⟩ := wfUnder_bounds hcl
          obtain ⟨hdb1, hdb2⟩ := wfInner_bounds hd0
          have hm := mergeNodes_wf h cl d p hcl (wfInner_wfUnder hd0)
            (by omega) (by simp [MIN_LEN, CAPACITY] at *; omega)
          refine ⟨hm, fun q hq => hkids q (by simp [hq]), Or.inr (by simp), ?_⟩
          rw [mergeNodes_inorder, flatF_cons]
          simp [List.append_assoc]
    rcases j with - | j
    · rw [if_neg (by omega)] at hcl
      have hd : wfUnder h d = true := by
        have := hrest 0 (p, d) (by simp)
        rwa [if_pos rfl] at this
      have hkrtl : ∀ q ∈ rtl, wfInner h q.2 = true := by
        intro q hq
        obtain ⟨i, hi⟩ := List.mem_iff_getElem?.mp hq
        have := hrest (i + 1) q (by simpa using hi)
        rwa [if_neg (by omega)] at this
      by_cases h1 : MIN_LEN ≤ nodeLen h d
      · have hfix : fixAtAux h cl ((p, d) :: rtl) 1 = (cl, (p, d) :: rtl) := by
          simp only [fixAtAux, if_pos h1]
        rw [hfix]
        refine ⟨hcl, ?_, Or.inl rfl, rfl⟩
        intro q hq
        rcases List.mem_cons.mp hq with h2 | h2
        · rw [h2]; exact wfUnder_wfInner hd h1
        · exact hkrtl q h2
      · by_cases h2 : MIN_LEN < nodeLen h cl
        · rcases hsl : stealLeft h cl p d with ⟨cl', p', d'⟩
          have hfix : fixAtAux h cl ((p, d) :: rtl) 1 = (cl', (p', d') :: rtl) := by
            simp only [fixAtAux, if_neg h1, if_pos h2, hsl]
          have hspec := stealLeft_spec h cl d p hcl hd h2 (by omega)
          rw [hsl] at hspec
          obtain ⟨hw1, hw2, hio⟩ := hspec
          rw [hfix]
          refine ⟨hw1, ?_, Or.inl (by simp), ?_⟩
          · intro q hq
            rcases List.mem_cons.mp hq with h3 | h3
            · rw [h3]; exact hw2
            · exact hkrtl q h3
          · show inorder h cl' ++ flatF h ((p', d') :: rtl) = _
            rw [flatF_cons, flatF_cons]
            have := congrArg (· ++ flatF h rtl) hio
            simpa [List.append_assoc] using this
        · obtain ⟨hcb1, hcb2⟩ := wfInner_bounds hcl
          obtain ⟨hdb1, hdb2⟩ := wfUnder_bounds hd
          have hm := mergeNodes_wf h cl d p (wfInner_wfUnder hcl) hd
            (by omega) (by simp [MIN_LEN, CAPACITY] at *; omega)
          cases rtl with
          | nil =>
            have hfix : fixAtAux h cl ((p, d) :: []) 1 = (mergeNodes h cl p d, []) := by
              simp only [fixAtAux, if_neg h1, if_neg h2]
            rw [hfix]
            refine ⟨hm, by simp, Or.inr (by simp), ?_⟩
            rw [mergeNodes_inorder, flatF_cons]
            simp [List.append_assoc]
          | cons qe rtl' =>
            obtain ⟨q, e⟩ := qe
            have he : wfInner h e = true := hkrtl (q, e) (by simp)
            by_cases h3 : MIN_LEN < nodeLen h e
            · rcases hsr : stealRight h d q e with ⟨d', q', e'⟩
              have hfix : fixAtAux h cl ((p, d) :: (q, e) :: rtl') 1 =
                  (cl, (p, d') :: (q', e') :: rtl') := by
                simp only [fixAtAux, if_neg h1, if_neg h2, if_pos h3, hsr]
              have hspec := stealRight_spec h d e q hd he (by omega) h3
              rw [hsr] at hspec
              obtain ⟨hw1, hw2, hio⟩ := hspec
              rw [hfix]
              refine ⟨hcl, ?_, Or.inl (by simp), ?_⟩
              · intro x hx
                rcases List.mem_cons.mp hx with h4 | h4
                · rw [h4]; exact hw1
                · rcases List.mem_cons.mp h4 with h5 | h5
                  · rw [h5]; exact hw2
                  · exact hkrtl x (by simp [h5])
              · show inorder h cl ++ flatF h ((p, d') :: (q', e') :: rtl') = _
                rw [flatF_cons, flatF_cons, flatF_cons, flatF_cons]
                have h5 := congrArg (fun zl => inorder h cl ++ (p :: zl))
                  (congrArg (· ++ flatF h rtl') hio)
                simpa [List.append_assoc] using h5
            · have hfix : fixAtAux h cl ((p, d) :: (q, e) :: rtl') 1 =
                  (mergeNodes h cl p d, (q, e) :: rtl') := by
                simp only [fixAtAux, if_neg h1, if_neg h2, if_neg h3]
              rw [hfix]
              refine ⟨hm, fun x hx => hkrtl x hx, Or.inr (by simp), ?_⟩
              rw [mergeNodes_inorder, flatF_cons]
              simp [List.append_assoc]
    · rw [if_neg (by omega)] at hcl
      have hdw : wfInner h d = true := by
        have := hrest 0 (p, d) (by simp)
        rwa [if_neg (by omega)] at this
      rcases hrec : fixAtAux h d rtl (j + 1) with ⟨d', rtl'⟩
      have hfix : fixAtAux h cl ((p, d) :: rtl) (j + 2) = (cl, (p, d') :: rtl') := by
        simp only [fixAtAux, hrec]
      have hih := ih d (j + 1) (by simp only [List.length_cons] at hj; omega) (by simp only [List.length_cons] at hj; omega)
        (by rw [if_neg (by omega)]; exact hdw)
        (by
          intro i q hi
          have := hrest (i + 1) q (by simpa using hi)
          by_cases hcase : i + 1 = j + 1
          · rw [if_pos hcase]
            rwa [if_pos (by omega)] at this
          · rw [if_neg hcase]
            rwa [if_neg (by omega)] at this)
      rw [hrec] at hih
      obtain ⟨hw1, hw2, hlen', hio⟩ := hih
      dsimp only at hw1 hw2 hlen' hio
      rw [hfix]
      refine ⟨hcl, ?_, ?_, ?_⟩
      · intro x hx
        rcases List.mem_cons.mp hx with h4 | h4
        · rw [h4]; exact hw1
        · exact hw2 x h4
      · simp only [List.length_cons]
        omega
      · show inorder h cl ++ flatF h ((p, d') :: rtl') = _
        rw [flatF_cons, flatF_cons]
        have h5 := congrArg (fun zl => inorder h cl ++ (p :: zl)) hio
        simpa [List.append_assoc] using h5

end Rebalance

section RemoveWf
variable {α V : Type}

theorem wfRootLoose_zero_iff {kvs : BNodeH α V 0} :
    wfRootLoose 0 kvs = true ↔ (kvs : List (α × V)).length ≤ CAPACITY := by
  simp [wfRootLoose]

theorem wfRootLoose_succ_iff {h : Nat} {c0 : BNodeH α V h}
    {rest : List ((α × V) × BNodeH α V h)} :
    wfRootLoose (h + 1) ((c0, rest) : BNodeH α V (h + 1)) = true ↔
      rest.length ≤ CAPACITY ∧ wfInner h c0 = true ∧
        ∀ p ∈ rest, wfInner h p.2 = true := by
  simp [wfRootLoose, List.all_eq_true, and_assoc]

theorem wfRoot_wfRootLoose {h : Nat} {t : BNodeH α V h} (hw : wfRoot h t = true) :
    wfRootLoose h t = true := by
  cases h with
  | zero => exact wfRootLoose_zero_iff.mpr (wfRoot_zero_iff.mp hw)
  | succ h =>
    obtain ⟨c0, rest⟩ := t
    obtain ⟨-, h2, h3, h4⟩ := wfRoot_succ_iff.mp hw
    exact wfRootLoose_succ_iff.mpr ⟨h2, h3, h4⟩

/-- The root repair after removal (`pop_internal_level`) restores a legal
root and keeps the traversal. -/
theorem shrinkRoot_spec {h : Nat} {t : BNodeH α V h} (hw : wfRootLoose h t = true) :
    wfRoot (shrinkRoot h t).1 (shrinkRoot h t).2 = true ∧
      inorder (shrinkRoot h t).1 (shrinkRoot h t).2 = inorder h t := by
  cases h with
  | zero => exact ⟨wfRoot_zero_iff.mpr (wfRootLoose_zero_iff.mp hw), rfl⟩
  | succ h =>
    obtain ⟨c0, rest⟩ := t
    obtain ⟨h2, h3, h4⟩ := wfRootLoose_succ_iff.mp hw
    by_cases hemp : rest.isEmpty
    · have hrn : rest = [] := List.isEmpty_iff.mp hemp
      have hsh : shrinkRoot (h + 1) ((c0, rest) : BNodeH α V (h + 1)) = ⟨h, c0⟩ := by
        simp only [shrinkRoot, if_pos hemp]
      rw [hsh]
      subst hrn
      exact ⟨wfInner_wfRoot h3, by rw [inorder_succ]; simp⟩
    · have hsh : shrinkRoot (h + 1) ((c0, rest) : BNodeH α V (h + 1)) =
          ⟨h + 1, (c0, rest)⟩ := by
        simp only [shrinkRoot, if_neg hemp]
      rw [hsh]
      refine ⟨wfRoot_succ_iff.mpr ⟨?_, h2, h3, h4⟩, rfl⟩
      rcases rest with - | ⟨q, rtl⟩
      · simp at hemp
      · simp

/-- Extracting the in-order first element of a fully well-formed subtree:
always succeeds, yields the head of the traversal, and leaves an
at-most-one-short subtree. -/
theorem delMinN_spec : ∀ (h : Nat) (t : BNodeH α V h), wfInner h t = true →
    ∃ kv t', delMinN h t = some (kv, t') ∧
      inorder h t = kv :: inorder h t' ∧ wfUnder h t' = true := by
  intro h
  induction h with
  | zero =>
    intro t hw
    obtain ⟨h1, h2⟩ := wfInner_zero_iff.mp hw
    have hne : (t : List (α × V)) ≠ [] := by
      intro hx
      rw [hx] at h1
      simp [MIN_LEN] at h1
    obtain ⟨kv, tl, htl⟩ := List.exists_cons_of_ne_nil hne
    subst htl
    simp only [List.length_cons] at h1 h2
    exact ⟨kv, tl, rfl, rfl, wfUnder_zero_iff.mpr ⟨by omega, by omega⟩⟩
  | succ h ih =>
    intro t hw
    obtain ⟨c0, rest⟩ := t
    obtain ⟨h1, h2, hc0, hkids⟩ := wfInner_succ_iff.mp hw
    obtain ⟨kv, c0', hdel, hio, hwu⟩ := ih c0 hc0
    rcases hfx : fixAtAux h c0' rest 0 with ⟨c0'', rest''⟩
    have hspec := fixAtAux_spec h rest c0' 0 (by omega) (by simp [MIN_LEN] at h1; omega)
      (by rw [if_pos rfl]; exact hwu)
      (by
        intro i q hi
        rw [if_neg (by omega)]
        exact hkids q (List.mem_iff_getElem?.mpr ⟨_, hi⟩))
    rw [hfx] at hspec
    dsimp only at hspec
    obtain ⟨hw1, hw2, hlen, hior⟩ := hspec
    refine ⟨kv, ((c0'', rest'') : BNodeH α V (h + 1)), ?_, ?_, ?_⟩
    · show (match delMinN h c0 with
        | none => none
        | some (kv, c0') => some (kv, fixAtAux h c0' rest 0)) = _
      rw [hdel]
      show some (kv, fixAtAux h c0' rest 0) = _
      rw [hfx]
    · rw [inorder_succ, inorder_succ, hio, hior]
      simp
    · refine wfUnder_succ_iff.mpr ⟨by omega, by omega, hw1, hw2⟩

/-- Removal from a fully well-formed non-root subtree yields a subtree that
is at most one key short at its root.  Holds for any comparator. -/
theorem removeN_wf (comp : α → Ordering) : ∀ (h : Nat) (t : BNodeH α V h),
    wfInner h t = true → wfUnder h (removeN h comp t).2 = true := by
  intro h
  induction h with
  | zero =>
    intro t hw
    obtain ⟨h1, h2⟩ := wfInner_zero_iff.mp hw
    simp only [removeN]
    rw [find_key_index_zero]
    rcases hfk : findKeyIndexFrom comp (t.map Prod.fst) 0 with i | i
    · have hi : i < t.length := by simpa using fki_kv_lt hfk
      refine wfUnder_zero_iff.mpr ?_
      show MIN_LEN - 1 ≤ ((t : List (α × V)).eraseIdx i).length ∧
        ((t : List (α × V)).eraseIdx i).length ≤ CAPACITY
      rw [List.length_eraseIdx, if_pos hi]
      constructor <;> omega
    · exact wfInner_wfUnder hw
  | succ h ih =>
    intro t hw
    obtain ⟨c0, rest⟩ := t
    obtain ⟨h1, h2, hc0, hkids⟩ := wfInner_succ_iff.mp hw
    simp only [removeN]
    rw [find_key_index_zero]
    rcases hfk : findKeyIndexFrom comp (rest.map (fun p => p.1.1)) 0 with i | i
    · rw [hfk]
      rcases hgi : rest[i]? with - | ⟨kv, d⟩ <;> simp only [hgi]
      · exact wfInner_wfUnder hw
      · have hd : wfInner h d = true := hkids _ (List.mem_iff_getElem?.mpr ⟨_, hgi⟩)
        have hilen : i < rest.length := by
          by_contra hc
          rw [List.getElem?_eq_none (by omega)] at hgi
          simp at hgi
        obtain ⟨succ0, d', hdel, -, hwu⟩ := delMinN_spec h d hd
        rw [hdel]
        rcases hfx : fixAtAux h c0 (rest.set i (succ0, d')) (i + 1) with ⟨c0'', rest''⟩
        have hspec := fixAtAux_spec h (rest.set i (succ0, d')) c0 (i + 1)
          (by rw [List.length_set]; omega) (by rw [List.length_set]; omega)
          (by rw [if_neg (by omega)]; exact hc0)
          (by
            intro ji q hjq
            rw [List.getElem?_set] at hjq
            by_cases hji : ji = i
            · rw [if_pos (by omega)]
              rw [if_pos (by omega : i = ji), if_pos (by omega)] at hjq
              obtain rfl : (succ0, d') = q := by simpa using hjq
              exact hwu
            · rw [if_neg (by omega)]
              rw [if_neg (by omega : ¬ i = ji)] at hjq
              exact hkids q (List.mem_iff_getElem?.mpr ⟨_, hjq⟩))
        rw [hfx] at hspec
        dsimp only at hspec
        obtain ⟨hw1, hw2, hlen, -⟩ := hspec
        rw [List.length_set] at hlen
        show wfUnder (h + 1) (fixAtAux h c0 (rest.set i (succ0, d')) (i + 1)) = true
        rw [hfx]
        exact wfUnder_succ_iff.mpr ⟨by omega, by omega, hw1, hw2⟩
    · rw [hfk]
      cases i with
      | zero =>
        rcases hres : removeN h comp c0 with ⟨res0, c0'⟩
        have hihc := ih c0 hc0
        rw [hres] at hihc
        dsimp only at hihc
        rcases res0 with - | res
        · exact wfInner_wfUnder hw
        · rcases hfx : fixAtAux h c0' rest 0 with ⟨c0'', rest''⟩
          have hspec := fixAtAux_spec h rest c0' 0 (by omega)
            (by simp [MIN_LEN] at h1; omega)
            (by rw [if_pos rfl]; exact hihc)
            (by
              intro ji q hjq
              rw [if_neg (by omega)]
              exact hkids q (List.mem_iff_getElem?.mpr ⟨_, hjq⟩))
          rw [hfx] at hspec
          dsimp only at hspec
          obtain ⟨hw1, hw2, hlen, -⟩ := hspec
          show wfUnder (h + 1) (fixAtAux h c0' rest 0) = true
          rw [hfx]
          exact wfUnder_succ_iff.mpr ⟨by omega, by omega, hw1, hw2⟩
      | succ i =>
        rcases hgi : rest[i]? with - | ⟨kv0, d⟩ <;> simp only [hgi]
        · exact wfInner_wfUnder hw
        · have hd : wfInner h d = true := hkids _ (List.mem_iff_getElem?.mpr ⟨_, hgi⟩)
          have hilen : i < rest.length := by
            by_contra hc
            rw [List.getElem?_eq_none (by omega)] at hgi
            simp at hgi
          rcases hres : removeN h comp d with ⟨res0, d'⟩
          have hihd := ih d hd
          rw [hres] at hihd
          dsimp only at hihd
          rcases res0 with - | res
          · exact wfInner_wfUnder hw
          · rcases hfx : fixAtAux h c0 (rest.set i (kv0, d')) (i + 1) with ⟨c0'', rest''⟩
            have hspec := fixAtAux_spec h (rest.set i (kv0, d')) c0 (i + 1)
              (by rw [List.length_set]; omega) (by rw [List.length_set]; omega)
              (by rw [if_neg (by omega)]; exact hc0)
              (by
                intro ji q hjq
                rw [List.getElem?_set] at hjq
                by_cases hji : ji = i
                · rw [if_pos (by omega)]
                  rw [if_pos (by omega : i = ji), if_pos (by omega)] at hjq
                  obtain rfl : (kv0, d') = q := by simpa using hjq
                  exact hihd
                · rw [if_neg (by omega)]
                  rw [if_neg (by omega : ¬ i = ji)] at hjq
                  exact hkids q (List.mem_iff_getElem?.mpr ⟨_, hjq⟩))
            rw [hfx] at hspec
            dsimp only at hspec
            obtain ⟨hw1, hw2, hlen, -⟩ := hspec
            rw [List.length_set] at hlen
            show wfUnder (h + 1) (fixAtAux h c0 (rest.set i (kv0, d')) (i + 1)) = true
            rw [hfx]
            exact wfUnder_succ_iff.mpr ⟨by omega, by omega, hw1, hw2⟩


/-- Removal from the root node: the result may be underfull at the root (even
empty), but stays within capacity with fully well-formed children. -/
theorem removeN_wfRoot (comp : α → Ordering) (h : Nat) (t : BNodeH α V h)
    (hw : wfRoot h t = true) : wfRootLoose h (removeN h comp t).2 = true := by
  cases h with
  | zero =>
    have h2 := wfRoot_zero_iff.mp hw
    simp only [removeN]
    rw [find_key_index_zero]
    rcases hfk : findKeyIndexFrom comp ((t : List (α × V)).map Prod.fst) 0 with i | i
    · have hi : i < (t : List (α × V)).length := by simpa using fki_kv_lt hfk
      refine wfRootLoose_zero_iff.mpr ?_
      show ((t : List (α × V)).eraseIdx i).length ≤ CAPACITY
      rw [List.length_eraseIdx, if_pos hi]
      omega
    · exact wfRoot_wfRootLoose hw
  | succ h =>
    obtain ⟨c0, rest⟩ := t
    obtain ⟨h1, h2, hc0, hkids⟩ := wfRoot_succ_iff.mp hw
    simp only [removeN]
    rw [find_key_index_zero]
    rcases hfk : findKeyIndexFrom comp (rest.map (fun p => p.1.1)) 0 with i | i
    · rw [hfk]
      rcases hgi : rest[i]? with - | ⟨kv, d⟩ <;> simp only [hgi]
      · exact wfRoot_wfRootLoose hw
      · have hd : wfInner h d = true := hkids _ (List.mem_iff_getElem?.mpr ⟨_, hgi⟩)
        have hilen : i < rest.length := by
          by_contra hc
          rw [List.getElem?_eq_none (by omega)] at hgi
          simp at hgi
        obtain ⟨succ0, d', hdel, -, hwu⟩ := delMinN_spec h d hd
        rw [hdel]
        rcases hfx : fixAtAux h c0 (rest.set i (succ0, d')) (i + 1) with ⟨c0'', rest''⟩
        have hspec := fixAtAux_spec h (rest.set i (succ0, d')) c0 (i + 1)
          (by rw [List.length_set]; omega) (by rw [List.length_set]; omega)
          (by rw [if_neg (by omega)]; exact hc0)
          (by
            intro ji q hjq
            rw [List.getElem?_set] at hjq
            by_cases hji : ji = i
            · rw [if_pos (by omega)]
              rw [if_pos (by omega : i = ji), if_pos (by omega)] at hjq
              obtain rfl : (succ0, d') = q := by simpa using hjq
              exact hwu
            · rw [if_neg (by omega)]
              rw [if_neg (by omega : ¬ i = ji)] at hjq
              exact hkids q (List.mem_iff_getElem?.mpr ⟨_, hjq⟩))
        rw [hfx] at hspec
        dsimp only at hspec
        obtain ⟨hw1, hw2, hlen, -⟩ := hspec
        rw [List.length_set] at hlen
        show wfRootLoose (h + 1) (fixAtAux h c0 (rest.set i (succ0, d')) (i + 1)) = true
        rw [hfx]
        exact wfRootLoose_succ_iff.mpr ⟨by omega, hw1, hw2⟩
    · rw [hfk]
      cases i with
      | zero =>
        rcases hres : removeN h comp c0 with ⟨res0, c0'⟩
        have hihc := removeN_wf comp h c0 hc0
        rw [hres] at hihc
        dsimp only at hihc
        rcases res0 with - | res
        · exact wfRoot_wfRootLoose hw
        · rcases hfx : fixAtAux h c0' rest 0 with ⟨c0'', rest''⟩
          have hspec := fixAtAux_spec h rest c0' 0 (by omega) (by omega)
            (by rw [if_pos rfl]; exact hihc)
            (by
              intro ji q hjq
              rw [if_neg (by omega)]
              exact hkids q (List.mem_iff_getElem?.mpr ⟨_, hjq⟩))
          rw [hfx] at hspec
          dsimp only at hspec
          obtain ⟨hw1, hw2, hlen, -⟩ := hspec
          show wfRootLoose (h + 1) (fixAtAux h c0' rest 0) = true
          rw [hfx]
          exact wfRootLoose_succ_iff.mpr ⟨by omega, hw1, hw2⟩
      | succ i =>
        rcases hgi : rest[i]? with - | ⟨kv0, d⟩ <;> simp only [hgi]
        · exact wfRoot_wfRootLoose hw
        · have hd : wfInner h d = true := hkids _ (List.mem_iff_getElem?.mpr ⟨_, hgi⟩)
          have hilen : i < rest.length := by
            by_contra hc
            rw [List.getElem?_eq_none (by omega)] at hgi
            simp at hgi
          rcases hres : removeN h comp d with ⟨res0, d'⟩
          have hihd := removeN_wf comp h d hd
          rw [hres] at hihd
          dsimp only at hihd
          rcases res0 with - | res
          · exact wfRoot_wfRootLoose hw
          · rcases hfx : fixAtAux h c0 (rest.set i (kv0, d')) (i + 1) with ⟨c0'', rest''⟩
            have hspec := fixAtAux_spec h (rest.set i (kv0, d')) c0 (i + 1)
              (by rw [List.length_set]; omega) (by rw [List.length_set]; omega)
              (by rw [if_neg (by omega)]; exact hc0)
              (by
                intro ji q hjq
                rw [List.getElem?_set] at hjq
                by_cases hji : ji = i
                · rw [if_pos (by omega)]
                  rw [if_pos (by omega : i = ji), if_pos (by omega)] at hjq
                  obtain rfl : (kv0, d') = q := by simpa using hjq
                  exact hihd
                · rw [if_neg (by omega)]
                  rw [if_neg (by omega : ¬ i = ji)] at hjq
                  exact hkids q (List.mem_iff_getElem?.mpr ⟨_, hjq⟩))
            rw [hfx] at hspec
            dsimp only at hspec
            obtain ⟨hw1, hw2, hlen, -⟩ := hspec
            rw [List.length_set] at hlen
            show wfRootLoose (h + 1) (fixAtAux h c0 (rest.set i (kv0, d')) (i + 1)) = true
            rw [hfx]
            exact wfRootLoose_succ_iff.mpr ⟨by omega, hw1, hw2⟩

end RemoveWf

/-! ## Removal refines the list-level deletion -/

section RemoveRefine
variable {α V : Type} [LinearOrder α]

/-- Removal refines `delKeyList`: on a sorted well-formed tree the returned
pair is the list-level lookup and the traversal of the result is the
list-level deletion. -/
theorem removeN_refine (k : α) : ∀ (h : Nat) (t : BNodeH α V h),
    KSorted (inorder h t) → (wfRoot h t = true ∨ wfInner h t = true) →
    (removeN h (compC k) t).1 = lookupList k (inorder h t) ∧
    inorder h (removeN h (compC k) t).2 = delKeyList k (inorder h t) := by
  intro h
  induction h with
  | zero =>
    intro t hs _hw
    have hs' : KSorted (t : List (α × V)) := hs
    simp only [removeN]
    rw [find_key_index_zero]
    show _ ∧ inorder 0 _ = delKeyList k (t : List (α × V))
    rcases hfk : findKeyIndexFrom (compC k) (t.map Prod.fst) 0 with i | i
    · obtain ⟨h1, -⟩ := fki_kv_spec hfk
      rw [List.getElem?_map] at h1
      rcases hgi : t[i]? with - | e
      · rw [hgi] at h1; simp at h1
      · rw [hgi] at h1
        obtain ⟨k1, v1⟩ := e
        have hk1 : k1 = k := by simpa using h1
        have hdec : (t : List (α × V)) = t.take i ++ (k1, v1) :: t.drop (i + 1) :=
          list_decomp_at hgi
        have hanch := KSorted.anchor (A := t.take i) (m := (k1, v1))
          (B := t.drop (i + 1)) (by rw [← hdec]; exact hs')
        constructor
        · have hmem : (k1, v1) ∈ (t : List (α × V)) := by rw [hdec]; simp
          have hmem' : (k, v1) ∈ (t : List (α × V)) := by rw [← hk1]; exact hmem
          have hlk : lookupList k t = some (k, v1) := lookupList_of_mem hs' hmem'
          show t[i]? = lookupList k (t : List (α × V))
          rw [hgi, hlk, hk1]
        · show (t.eraseIdx i : List (α × V)) = delKeyList k (t : List (α × V))
          rw [List.eraseIdx_eq_take_drop_succ]
          conv_rhs => rw [hdec]
          rw [delKeyList_append_left (fun x hx => hk1 ▸ hanch.1 x hx)]
          simp [delKeyList, hk1]
    · refine ⟨?_, ?_⟩
      · show (none : Option (α × V)) = lookupList k (t : List (α × V))
        exact (lookup_none_of_edge hs' hfk).symm
      · show (t : List (α × V)) = delKeyList k (t : List (α × V))
        exact (delKeyList_of_lookup_none (lookup_none_of_edge hs' hfk)).symm
  | succ h ih =>
    intro t hs hw
    obtain ⟨c0, rest⟩ := t
    have hparts : 1 ≤ rest.length ∧ rest.length ≤ CAPACITY ∧ wfInner h c0 = true ∧
        ∀ p ∈ rest, wfInner h p.2 = true := by
      rcases hw with hw | hw
      · obtain ⟨a1, a2, a3, a4⟩ := wfRoot_succ_iff.mp hw
        exact ⟨a1, a2, a3, a4⟩
      · obtain ⟨a1, a2, a3, a4⟩ := wfInner_succ_iff.mp hw
        exact ⟨by simp only [MIN_LEN] at a1; omega, a2, a3, a4⟩
    obtain ⟨h1, h2, hc0, hkids⟩ := hparts
    simp only [removeN]
    rw [find_key_index_zero]
    rcases hfk : findKeyIndexFrom (compC k) (rest.map (fun p => p.1.1)) 0 with i | i
    · obtain ⟨kv0, d, hi, hk, hA, hB⟩ := node_kv_localize hs hfk
      rw [hfk]
      simp only [hi]
      have hd : wfInner h d = true := hkids _ (List.mem_iff_getElem?.mpr ⟨_, hi⟩)
      have hilen : i < rest.length := by
        by_contra hc
        rw [List.getElem?_eq_none (by omega)] at hi
        simp at hi
      obtain ⟨succ0, d', hdel, hio, hwu⟩ := delMinN_spec h d hd
      rw [hdel]
      rcases hfx : fixAtAux h c0 (rest.set i (succ0, d')) (i + 1) with ⟨c0'', rest''⟩
      have hspec := fixAtAux_spec h (rest.set i (succ0, d')) c0 (i + 1)
        (by rw [List.length_set]; omega) (by rw [List.length_set]; omega)
        (by rw [if_neg (by omega)]; exact hc0)
        (by
          intro ji q hjq
          rw [List.getElem?_set] at hjq
          by_cases hji : ji = i
          · rw [if_pos (by omega)]
            rw [if_pos (by omega : i = ji), if_pos (by omega)] at hjq
            obtain rfl : (succ0, d') = q := by simpa using hjq
            exact hwu
          · rw [if_neg (by omega)]
            rw [if_neg (by omega : ¬ i = ji)] at hjq
            exact hkids q (List.mem_iff_getElem?.mpr ⟨_, hjq⟩))
      rw [hfx] at hspec
      dsimp only at hspec
      obtain ⟨-, -, -, hior⟩ := hspec
      constructor
      · show (some kv0 : Option (α × V)) = _
        have hmem : kv0 ∈ inorder (h + 1) ((c0, rest) : BNodeH α V (h + 1)) := by
          rw [inorder_decomp_at hi]; simp
        have hlk : lookupList k (inorder (h + 1) ((c0, rest) : BNodeH α V (h + 1))) =
            some (k, kv0.2) := by
          apply lookupList_of_mem hs
          obtain ⟨k1, v1⟩ := kv0
          simp only at hk
          subst hk
          exact hmem
        rw [hlk]
        obtain ⟨k1, v1⟩ := kv0
        simp only at hk
        subst hk
        rfl
      · show inorder (h + 1)
            ((fixAtAux h c0 (rest.set i (succ0, d')) (i + 1)) : BNodeH α V (h + 1)) = _
        conv_rhs => rw [inorder_decomp_at hi]
        rw [hfx, inorder_succ, hior, set_decomp_at hi, flatF_append, flatF_cons]
        rw [delKeyList_append_left (fun x hx => hA x hx)]
        have hdel0 : delKeyList k (kv0 :: (inorder h d ++ flatF h (rest.drop (i + 1)))) =
            inorder h d ++ flatF h (rest.drop (i + 1)) := by
          obtain ⟨k1, v1⟩ := kv0
          simp only at hk
          subst hk
          simp [delKeyList]
        rw [hdel0, hio]
        simp [List.append_assoc]
    · cases i with
      | zero =>
        have hB := node_edge0_localize hs hfk
        have hsc0 : KSorted (inorder h c0) :=
          List.Pairwise.sublist (sublist_inorder_c0 c0 rest) hs
        obtain ⟨ihf, ihs⟩ := ih c0 hsc0 (Or.inr hc0)
        rw [hfk]
        rcases hres : removeN h (compC k) c0 with ⟨res0, c0'⟩
        rw [hres] at ihf ihs
        dsimp only at ihf ihs
        rcases res0 with - | res
        · constructor
          · show (none : Option (α × V)) = _
            rw [inorder_succ, lookupList_append_right hB]
            exact ihf
          · show inorder (h + 1) ((c0, rest) : BNodeH α V (h + 1)) =
              delKeyList k (inorder (h + 1) ((c0, rest) : BNodeH α V (h + 1)))
            rw [inorder_succ, delKeyList_append_right hB,
              delKeyList_of_lookup_none ihf.symm]
        · have hwu : wfUnder h c0' = true := by
            have hru := removeN_wf (compC k) h c0 hc0
            rw [hres] at hru
            exact hru
          rcases hfx : fixAtAux h c0' rest 0 with ⟨c0'', rest''⟩
          have hspec := fixAtAux_spec h rest c0' 0 (by omega) (by omega)
            (by rw [if_pos rfl]; exact hwu)
            (by
              intro ji q hjq
              rw [if_neg (by omega)]
              exact hkids q (List.mem_iff_getElem?.mpr ⟨_, hjq⟩))
          rw [hfx] at hspec
          dsimp only at hspec
          obtain ⟨-, -, -, hior⟩ := hspec
          constructor
          · show (some res : Option (α × V)) = _
            rw [inorder_succ, lookupList_append_right hB]
            exact ihf
          · show inorder (h + 1) ((fixAtAux h c0' rest 0) : BNodeH α V (h + 1)) = _
            rw [hfx, inorder_succ, hior, inorder_succ,
              delKeyList_append_right hB, ← ihs]
      | succ i =>
        obtain ⟨kv0, d, hi, hA, hB⟩ := node_edge_succ_localize hs hfk
        rw [hfk]
        simp only [hi]
        have hd : wfInner h d = true := hkids _ (List.mem_iff_getElem?.mpr ⟨_, hi⟩)
        have hilen : i < rest.length := by
          by_contra hc
          rw [List.getElem?_eq_none (by omega)] at hi
          simp at hi
        have hsd : KSorted (inorder h d) := by
          refine List.Pairwise.sublist ?_ hs
          refine List.Sublist.trans ?_ (sublist_flatF c0 rest)
          exact List.sublist_of_cons_sublist (sublist_child_flatF (p := (kv0, d))
            ((List.mem_iff_getElem?).mpr ⟨i, hi⟩))
        obtain ⟨ihf, ihs⟩ := ih d hsd (Or.inr hd)
        have hdec : inorder (h + 1) ((c0, rest) : BNodeH α V (h + 1)) =
            ((inorder h c0 ++ flatF h (rest.take i)) ++ [kv0]) ++
              (inorder h d ++ flatF h (rest.drop (i + 1))) := by
          rw [inorder_decomp_at hi]
          simp [List.append_assoc]
        have hlk : lookupList k (inorder (h + 1) ((c0, rest) : BNodeH α V (h + 1))) =
            lookupList k (inorder h d) := by
          rw [hdec, lookupList_append_left (by simpa [List.append_assoc] using hA),
            lookupList_append_right hB]
        rcases hres : removeN h (compC k) d with ⟨res0, d'⟩
        rw [hres] at ihf ihs
        dsimp only at ihf ihs
        rcases res0 with - | res
        · constructor
          · show (none : Option (α × V)) = _
            rw [hlk]
            exact ihf
          · show inorder (h + 1) ((c0, rest) : BNodeH α V (h + 1)) =
              delKeyList k (inorder (h + 1) ((c0, rest) : BNodeH α V (h + 1)))
            conv_rhs =>
              rw [hdec, delKeyList_append_left (by simpa [List.append_assoc] using hA),
                delKeyList_append_right hB, delKeyList_of_lookup_none ihf.symm]
            rw [hdec]
        · have hwu : wfUnder h d' = true := by
            have hru := removeN_wf (compC k) h d hd
            rw [hres] at hru
            exact hru
          rcases hfx : fixAtAux h c0 (rest.set i (kv0, d')) (i + 1) with ⟨c0'', rest''⟩
          have hspec := fixAtAux_spec h (rest.set i (kv0, d')) c0 (i + 1)
            (by rw [List.length_set]; omega) (by rw [List.length_set]; omega)
            (by rw [if_neg (by omega)]; exact hc0)
            (by
              intro ji q hjq
              rw [List.getElem?_set] at hjq
              by_cases hji : ji = i
              · rw [if_pos (by omega)]
                rw [if_pos (by omega : i = ji), if_pos (by omega)] at hjq
                obtain rfl : (kv0, d') = q := by simpa using hjq
                exact hwu
              · rw [if_neg (by omega)]
                rw [if_neg (by omega : ¬ i = ji)] at hjq
                exact hkids q (List.mem_iff_getElem?.mpr ⟨_, hjq⟩))
          rw [hfx] at hspec
          dsimp only at hspec
          obtain ⟨-, -, -, hior⟩ := hspec
          constructor
          · show (some res : Option (α × V)) = _
            rw [hlk]
            exact ihf
          · show inorder (h + 1)
              ((fixAtAux h c0 (rest.set i (kv0, d')) (i + 1)) : BNodeH α V (h + 1)) = _
            rw [hfx, inorder_succ, hior, set_decomp_at hi, flatF_append, flatF_cons]
            conv_rhs =>
              rw [hdec, delKeyList_append_left (by simpa [List.append_assoc] using hA),
                delKeyList_append_right hB]
            rw [← ihs]
            simp [List.append_assoc]

end RemoveRefine

/-! ## Map-level specifications -/

section MapLevel
variable {α V : Type} [LinearOrder α]

theorem childCountOk_always : ∀ (h : Nat) (t : BNodeH α V h),
    childCountOk h t = true := by
  intro h
  induction h with
  | zero => intro t; rfl
  | succ h ih =>
    intro t
    obtain ⟨c0, rest⟩ := t
    simp only [childCountOk, Bool.and_eq_true, decide_eq_true_eq, List.all_eq_true]
    refine ⟨⟨?_, ih c0⟩, fun p _ => ih p.2⟩
    simp [numChildren, nodeLen]

theorem ChildCountOk_always (m : BTreeMap α V) : ChildCountOk m := by
  intro h t _
  exact childCountOk_always h t

theorem WfMap_empty : WfMap (emptyMap : BTreeMap α V) := by
  refine ⟨?_, ?_, rfl⟩
  · intro h t heq
    simp [emptyMap] at heq
  · exact KSorted.nil

theorem mapGet_eq_lookup (k : α) (m : BTreeMap α V) (hw : WfMap m) :
    mapGet (compC k) m = (lookupList k (mapElems m)).map (fun p => p.2) := by
  obtain ⟨root, len⟩ := m
  obtain ⟨-, hsort, -⟩ := hw
  cases root with
  | none => rfl
  | some r =>
    obtain ⟨h, t⟩ := r
    have hs : KSorted (inorder h t) := hsort
    show (search_tree h (compC k) t).map (fun p => p.2) = _
    rw [search_tree_eq_lookup k h t hs]
    rfl

theorem mapInsert_spec (k : α) (v : V) (m : BTreeMap α V) (hw : WfMap m) :
    (mapInsert (compC k) k v m).1 = (lookupList k (mapElems m)).map (fun p => p.2) ∧
    mapElems (mapInsert (compC k) k v m).2 = insKeyList k v (mapElems m) ∧
    WfMap (mapInsert (compC k) k v m).2 := by
  obtain ⟨root, len⟩ := m
  obtain ⟨hocc, hsort, hlen⟩ := hw
  cases root with
  | none =>
    have hlen0 : len = 0 := by simpa [mapElems] using hlen
    subst hlen0
    refine ⟨rfl, rfl, ?_, ?_, ?_⟩
    · intro h' t' heq
      simp only [mapInsert, Option.some.injEq] at heq
      injection heq with h1 h2
      subst h1
      obtain rfl := eq_of_heq h2
      rfl
    · show KSorted [(k, v)]
      simp [KSorted]
    · rfl
  | some r =>
    obtain ⟨h, t⟩ := r
    have hs : KSorted (inorder h t) := hsort
    have hlen' : len = (inorder h t).length := hlen
    have hwr : wfRoot h t = true := hocc h t rfl
    obtain ⟨hif, his⟩ := insertN_spec k v h t hs
    have hwf' := insertN_wfRoot (compC k) k v h t hwr
    rcases hres : insertN h (compC k) k v t with ⟨old, fr⟩
    rw [hres] at hif his hwf'
    dsimp only at hif his hwf'
    rcases fr with t' | ⟨l, mkv, r⟩
    · simp only [insResInorder] at his
      have hmap : mapInsert (compC k) k v (⟨some ⟨h, t⟩, len⟩ : BTreeMap α V) =
          (old, ⟨some ⟨h, t'⟩, if old.isSome then len else len + 1⟩) := by
        simp only [mapInsert, hres]
      rw [hmap]
      refine ⟨hif, his, ?_, ?_, ?_⟩
      · intro h' t'' heq
        simp only [Option.some.injEq] at heq
        injection heq with h1 h2
        subst h1
        obtain rfl := eq_of_heq h2
        exact hwf'
      · show KSorted (inorder h t')
        rw [his]
        exact hs.ins
      · show (if old.isSome then len else len + 1) = (inorder h t').length
        rw [his, length_insKeyList, hif]
        cases lookupList k (inorder h t) <;> simp [hlen']
    · simp only [insResInorder] at his
      have hmap : mapInsert (compC k) k v (⟨some ⟨h, t⟩, len⟩ : BTreeMap α V) =
          (old, ⟨some ⟨h + 1, ((l, [(mkv, r)]) : BNodeH α V (h + 1))⟩,
            if old.isSome then len else len + 1⟩) := by
        simp only [mapInsert, hres]
      rw [hmap]
      have helems : inorder (h + 1) ((l, [(mkv, r)]) : BNodeH α V (h + 1)) =
          inorder h l ++ mkv :: inorder h r := by
        rw [inorder_succ]
        simp
      refine ⟨hif, ?_, ?_, ?_, ?_⟩
      · show inorder (h + 1) ((l, [(mkv, r)]) : BNodeH α V (h + 1)) = _
        rw [helems, his]
        rfl
      · intro h' t'' heq
        simp only [Option.some.injEq] at heq
        injection heq with h1 h2
        subst h1
        obtain rfl := eq_of_heq h2
        refine wfRoot_succ_iff.mpr ⟨by simp, by simp [CAPACITY], hwf'.1, ?_⟩
        intro p hp
        obtain rfl : p = (mkv, r) := by simpa using hp
        exact hwf'.2
      · show KSorted (inorder (h + 1) ((l, [(mkv, r)]) : BNodeH α V (h + 1)))
        rw [helems, his]
        exact hs.ins
      · show (if old.isSome then len else len + 1) =
          (inorder (h + 1) ((l, [(mkv, r)]) : BNodeH α V (h + 1))).length
        rw [helems, his, length_insKeyList, hif]
        cases lookupList k (inorder h t) <;> simp [hlen']

theorem mapRemoveEntry_spec (k : α) (m : BTreeMap α V) (hw : WfMap m) :
    (mapRemoveEntry (compC k) m).1 = lookupList k (mapElems m) ∧
    mapElems (mapRemoveEntry (compC k) m).2 = delKeyList k (mapElems m) ∧
    WfMap (mapRemoveEntry (compC k) m).2 ∧
    (lookupList k (mapElems m) = none → mapRemoveEntry (compC k) m = (none, m)) := by
  obtain ⟨root, len⟩ := m
  obtain ⟨hocc, hsort, hlen⟩ := hw
  cases root with
  | none => exact ⟨rfl, rfl, ⟨hocc, hsort, hlen⟩, fun _ => rfl⟩
  | some r =>
    obtain ⟨h, t⟩ := r
    have hs : KSorted (inorder h t) := hsort
    have hlen' : len = (inorder h t).length := hlen
    have hwr : wfRoot h t = true := hocc h t rfl
    have hst := search_tree_eq_lookup k h t hs
    rcases hlk : lookupList k (inorder h t) with - | p
    · have hmap : mapRemoveEntry (compC k) (⟨some ⟨h, t⟩, len⟩ : BTreeMap α V) =
          (none, ⟨some ⟨h, t⟩, len⟩) := by
        simp only [mapRemoveEntry, hst, hlk]
      rw [hmap]
      exact ⟨hlk.symm, (delKeyList_of_lookup_none hlk).symm,
        ⟨hocc, hsort, hlen⟩, fun _ => rfl⟩
    · rcases hrem : removeN h (compC k) t with ⟨res, t'⟩
      obtain ⟨href1, href2⟩ := removeN_refine k h t hs (Or.inl hwr)
      rw [hrem] at href1 href2
      dsimp only at href1 href2
      have hloose : wfRootLoose h t' = true := by
        have hrt := removeN_wfRoot (compC k) h t hwr
        rw [hrem] at hrt
        exact hrt
      obtain ⟨hwr', hior'⟩ := shrinkRoot_spec hloose
      rcases hsh : shrinkRoot h t' with ⟨h'', t''⟩
      rw [hsh] at hwr' hior'
      dsimp only at hwr' hior'
      have hmap : mapRemoveEntry (compC k) (⟨some ⟨h, t⟩, len⟩ : BTreeMap α V) =
          (res, ⟨some ⟨h'', t''⟩, len - 1⟩) := by
        simp only [mapRemoveEntry, hst, hlk, hrem, hsh]
      rw [hmap]
      have helems : inorder h'' t'' = delKeyList k (inorder h t) := by
        rw [hior', href2]
      refine ⟨href1, helems, ⟨?_, ?_, ?_⟩, ?_⟩
      · intro h3 t3 heq
        simp only [Option.some.injEq] at heq
        injection heq with h1 h2
        subst h1
        obtain rfl := eq_of_heq h2
        exact hwr'
      · show KSorted (inorder h'' t'')
        rw [helems]
        exact hs.del
      · show len - 1 = (inorder h'' t'').length
        rw [helems, length_delKeyList, hlk]
        simp [hlen']
      · intro hcon
        have hcon' : lookupList k (inorder h t) = none := hcon
        rw [hlk] at hcon'
        simp at hcon'


theorem WfMap_leafRoot (l : List (α × V)) (hs : KSorted l) (hc : l.length ≤ CAPACITY) :
    WfMap (⟨some ⟨0, (l : BNodeH α V 0)⟩, l.length⟩ : BTreeMap α V) := by
  refine ⟨?_, hs, rfl⟩
  intro h t heq
  simp only [Option.some.injEq] at heq
  injection heq with h1 h2
  subst h1
  obtain rfl := eq_of_heq h2
  exact wfRoot_zero_iff.mpr hc

theorem treeOfList_go : ∀ (l : List (α × V)) (m : BTreeMap α V), WfMap m →
    KSorted (mapElems m ++ l) →
    mapElems (l.foldl (fun m kv => (mapInsert (compC kv.1) kv.1 kv.2 m).2) m) =
      mapElems m ++ l ∧
    WfMap (l.foldl (fun m kv => (mapInsert (compC kv.1) kv.1 kv.2 m).2) m) := by
  intro l
  induction l with
  | nil =>
    intro m hw _
    exact ⟨by simp, hw⟩
  | cons e tl ih =>
    intro m hw hs
    obtain ⟨k0, v0⟩ := e
    obtain ⟨-, hels, hwf'⟩ := mapInsert_spec k0 v0 m hw
    have hlt : ∀ x ∈ mapElems m, x.1 < k0 :=
      (KSorted.anchor (A := mapElems m) (m := (k0, v0)) (B := tl) hs).1
    have hels' : mapElems (mapInsert (compC k0) k0 v0 m).2 =
        mapElems m ++ [(k0, v0)] := by
      rw [hels, insKeyList_all_lt hlt]
    have hs' : KSorted (mapElems (mapInsert (compC k0) k0 v0 m).2 ++ tl) := by
      have hass : (mapElems m ++ [(k0, v0)]) ++ tl = mapElems m ++ (k0, v0) :: tl := by
        simp
      rw [hels', hass]
      exact hs
    obtain ⟨ih1, ih2⟩ := ih (mapInsert (compC k0) k0 v0 m).2 hwf' hs'
    refine ⟨?_, ih2⟩
    show mapElems (List.foldl (fun m kv => (mapInsert (compC kv.1) kv.1 kv.2 m).2)
      (mapInsert (compC k0) k0 v0 m).2 tl) = _
    rw [ih1, hels']
    simp

theorem treeOfList_spec (l : List (α × V)) (hs : KSorted l) :
    mapElems (treeOfList l) = l ∧ WfMap (treeOfList l) := by
  have h := treeOfList_go l emptyMap WfMap_empty (by simpa using hs)
  simpa [treeOfList] using h

end MapLevel


/-! ## The claims -/

section Claims
variable {α V : Type} [LinearOrder α]

/-- C1: for every sequence of insert and remove operations (each using the
consistent comparator `compC` of its key) applied to a well-formed tree,
after the sequence the keys are strictly ascending, every node satisfies the
occupancy invariant (`wfRoot`, hence at least `MIN_LEN` keys in every
non-root node), every internal node has one more child than keys, and the
stored length field equals the number of elements a full traversal yields.
Every prefix of a sequence is itself a sequence, so this covers "after each
operation". -/
theorem c1_ops_preserve_invariants (m : BTreeMap α V) (hw : WfMap m)
    (ops : List (MapOp α V)) :
    KSorted (mapElems (applyOps m ops)) ∧
    OccupancyOk (applyOps m ops) ∧
    ChildCountOk (applyOps m ops) ∧
    mapLen (applyOps m ops) = (mapElems (applyOps m ops)).length := by
  have hwf : WfMap (applyOps m ops) := by
    induction ops generalizing m with
    | nil => exact hw
    | cons op tl ih =>
      show WfMap (applyOps (applyOp m op) tl)
      refine ih _ ?_
      cases op with
      | insert k v => exact (mapInsert_spec k v m hw).2.2
      | remove k => exact (mapRemoveEntry_spec k m hw).2.2.1
  exact ⟨hwf.2.1, hwf.1, ChildCountOk_always _, hwf.2.2⟩

theorem c1_ops_preserve_invariants_witness :
    KSorted (mapElems (applyOps (emptyMap : BTreeMap ℕ ℕ)
        [.insert 1 10, .insert 2 20, .remove 1])) ∧
    OccupancyOk (applyOps (emptyMap : BTreeMap ℕ ℕ)
        [.insert 1 10, .insert 2 20, .remove 1]) ∧
    ChildCountOk (applyOps (emptyMap : BTreeMap ℕ ℕ)
        [.insert 1 10, .insert 2 20, .remove 1]) ∧
    mapLen (applyOps (emptyMap : BTreeMap ℕ ℕ)
        [.insert 1 10, .insert 2 20, .remove 1]) =
      (mapElems (applyOps (emptyMap : BTreeMap ℕ ℕ)
        [.insert 1 10, .insert 2 20, .remove 1])).length :=
  c1_ops_preserve_invariants emptyMap WfMap_empty [.insert 1 10, .insert 2 20, .remove 1]

/-- C2: inserting `(k, v)` with the consistent comparator and then querying
`k` yields `v`; if `k` was absent the insert returns `none` and the length
grows by exactly one; if `k` was present it returns the previous value and
the length is unchanged. -/
theorem c2_insert_get_roundtrip (k : α) (v : V) (m : BTreeMap α V) (hw : WfMap m) :
    mapGet (compC k) (mapInsert (compC k) k v m).2 = some v ∧
    (mapGet (compC k) m = none →
      (mapInsert (compC k) k v m).1 = none ∧
      mapLen (mapInsert (compC k) k v m).2 = mapLen m + 1) ∧
    (∀ w, mapGet (compC k) m = some w →
      (mapInsert (compC k) k v m).1 = some w ∧
      mapLen (mapInsert (compC k) k v m).2 = mapLen m) := by
  obtain ⟨hif, his, hwf'⟩ := mapInsert_spec k v m hw
  have hget := mapGet_eq_lookup k m hw
  have hget' := mapGet_eq_lookup k _ hwf'
  refine ⟨?_, ?_, ?_⟩
  · rw [hget', his, lookupList_insKeyList_self]
    rfl
  · intro hnone
    rw [hget] at hnone
    have hlk : lookupList k (mapElems m) = none := Option.map_eq_none'.mp hnone
    constructor
    · rw [hif, hlk]
      rfl
    · show (mapInsert (compC k) k v m).2.length = m.length + 1
      have h1 : (mapInsert (compC k) k v m).2.length =
          (mapElems (mapInsert (compC k) k v m).2).length := hwf'.2.2
      have h2 : m.length = (mapElems m).length := hw.2.2
      rw [h1, h2, his, length_insKeyList, hlk]
      simp
  · intro w hsome
    rw [hget] at hsome
    obtain ⟨p, hp1, hp2⟩ := Option.map_eq_some'.mp hsome
    constructor
    · rw [hif, hp1]
      simpa using hp2
    · show (mapInsert (compC k) k v m).2.length = m.length
      have h1 : (mapInsert (compC k) k v m).2.length =
          (mapElems (mapInsert (compC k) k v m).2).length := hwf'.2.2
      have h2 : m.length = (mapElems m).length := hw.2.2
      rw [h1, h2, his, length_insKeyList, hp1]
      simp

theorem c2_insert_get_roundtrip_witness :
    mapGet (compC 5) (mapInsert (compC 5) 5 7 (emptyMap : BTreeMap ℕ ℕ)).2 = some 7 ∧
    mapGet (compC 5) (emptyMap : BTreeMap ℕ ℕ) = none ∧
    (mapInsert (compC 5) 5 7 (emptyMap : BTreeMap ℕ ℕ)).1 = none ∧
    mapLen (mapInsert (compC 5) 5 7 (emptyMap : BTreeMap ℕ ℕ)).2 =
      mapLen (emptyMap : BTreeMap ℕ ℕ) + 1 := by
  have h := c2_insert_get_roundtrip 5 7 (emptyMap : BTreeMap ℕ ℕ) WfMap_empty
  exact ⟨h.1, by decide, (h.2.1 (by decide)).1, (h.2.1 (by decide)).2⟩

/-- C3: with the consistent comparator, if `k` is absent, `remove` returns
`none` and the map is unchanged; if `k` is present, `remove` returns its
stored value (`remove_entry` the stored pair), a subsequent `get` of `k`
returns `none`, and the length drops by exactly one. -/
theorem c3_remove_get (k : α) (m : BTreeMap α V) (hw : WfMap m) :
    (mapGet (compC k) m = none → mapRemove (compC k) m = (none, m)) ∧
    (∀ w, mapGet (compC k) m = some w →
      (mapRemove (compC k) m).1 = some w ∧
      (∃ p, (mapRemoveEntry (compC k) m).1 = some p ∧
        p ∈ mapElems m ∧ p.1 = k ∧ p.2 = w) ∧
      mapGet (compC k) (mapRemove (compC k) m).2 = none ∧
      mapLen (mapRemove (compC k) m).2 + 1 = mapLen m) := by
  obtain ⟨hrf, hrs, hwf', habs⟩ := mapRemoveEntry_spec k m hw
  have hget := mapGet_eq_lookup k m hw
  rcases hre : mapRemoveEntry (compC k) m with ⟨res, m'⟩
  have hrm : mapRemove (compC k) m = (res.map (fun p => p.2), m') := by
    simp only [mapRemove, hre]
  rw [hre] at hrf habs hrs hwf'
  dsimp only at hrf hrs hwf'
  rw [hrm]
  constructor
  · intro hnone
    rw [hget] at hnone
    have hlk : lookupList k (mapElems m) = none := Option.map_eq_none'.mp hnone
    have heq := habs hlk
    have h1 : res = none := congrArg Prod.fst heq
    have h2 : m' = m := congrArg Prod.snd heq
    rw [h1, h2]
    rfl
  · intro w hsome
    rw [hget] at hsome
    obtain ⟨p, hp1, hp2⟩ := Option.map_eq_some'.mp hsome
    obtain ⟨hpm, hpk⟩ := lookupList_eq_some hp1
    refine ⟨?_, ⟨p, ?_, hpm, hpk, hp2⟩, ?_, ?_⟩
    · show res.map (fun p => p.2) = some w
      rw [hrf, hp1]
      simpa using hp2
    · show res = some p
      rw [hrf]
      exact hp1
    · show mapGet (compC k) m' = none
      rw [mapGet_eq_lookup k m' hwf', hrs, lookupList_delKeyList_self hw.2.1]
      rfl
    · show m'.length + 1 = m.length
      have h1 : m'.length = (mapElems m').length := hwf'.2.2
      have h2 : m.length = (mapElems m).length := hw.2.2
      have hpos : 0 < (mapElems m).length :=
        List.length_pos.mpr (List.ne_nil_of_mem hpm)
      rw [h1, h2, hrs, length_delKeyList, hp1]
      simp
      omega

theorem c3_remove_get_witness :
    mapGet (compC 1) (mapInsert (compC 1) 1 10 (emptyMap : BTreeMap ℕ ℕ)).2 = some 10 ∧
    (mapRemove (compC 1) (mapInsert (compC 1) 1 10 (emptyMap : BTreeMap ℕ ℕ)).2).1 =
      some 10 ∧
    mapGet (compC 1)
      (mapRemove (compC 1) (mapInsert (compC 1) 1 10 (emptyMap : BTreeMap ℕ ℕ)).2).2 =
      none ∧
    mapLen (mapRemove (compC 1)
      (mapInsert (compC 1) 1 10 (emptyMap : BTreeMap ℕ ℕ)).2).2 + 1 =
      mapLen (mapInsert (compC 1) 1 10 (emptyMap : BTreeMap ℕ ℕ)).2 := by
  have h := (c3_remove_get 1 (mapInsert (compC 1) 1 10 (emptyMap : BTreeMap ℕ ℕ)).2
    ((mapInsert_spec 1 10 emptyMap WfMap_empty).2.2)).2 10 (by decide)
  exact ⟨by decide, h.1, h.2.2.1, h.2.2.2⟩

/-- C4: the checked `insert_after` does not panic exactly on order violations
against the current and next elements.  Its second guard reads
`self.peek_prev()` (the previous element) where the claim requires the next
one: on the map `{1 : 10, 2 : 20}` with the cursor at the element with key
`2`, inserting `(3, 30)` satisfies the claim (the current key `2` is below
`3` and there is no next element, so the insertion would keep the keys
strictly ascending), yet the transcribed code path reports the panic "key
must be ordered below the next element". -/
theorem c4_insert_after_checks_wrong_neighbor :
    cursorMutKey [(1, 10), (2, 20)] (some 1) = some 2 ∧
    (2 : ℕ) < 3 ∧
    cursorMutPeekNext [(1, 10), (2, 20)] (some 1) = none ∧
    (insertAfterUnchecked [(1, 10), (2, 20)] (some 1) 3 (30 : ℕ)).1 =
      [(1, 10), (2, 20), (3, 30)] ∧
    KSorted (insertAfterUnchecked [(1, 10), (2, 20)] (some 1) 3 (30 : ℕ)).1 ∧
    cursorMutInsertAfter [(1, 10), (2, 20)] (some 1) 3 (30 : ℕ) =
      .error "key must be ordered below the next element" := by
  refine ⟨rfl, by norm_num, rfl, by decide, ?_, rfl⟩
  show List.Pairwise _ _
  decide

/-- C5: per-node lower-bound resolution as `find_lower_bound_index` computes
it: an `Included` bound on an exact comparator match resolves to the matched
index with continuation `AllExcluded`; an `Excluded` bound to one past the
match with continuation `AllIncluded`; `AllIncluded` and `AllExcluded`
resolve to `0` and the node length for every comparator (never consulting
it).  On the tree `{1, 2, 3, 4}`, the range from lower bound
`(Excluded, 2)` to upper bound `AllIncluded` starts at `3`, and the cursor
from `lower_bound(Excluded(2))` has key `3`. -/
theorem c5_lower_bound_index (β : Type) (comp : β → Ordering) (ks : List β)
    (i : Nat) (hkv : find_key_index comp ks 0 = .kv i) :
    find_lower_bound_index comp ks .Included = (i, .AllExcluded) ∧
    find_lower_bound_index comp ks .Excluded = (i + 1, .AllIncluded) ∧
    (∀ c : β → Ordering,
      find_lower_bound_index c ks .AllIncluded = (0, .AllIncluded)) ∧
    (∀ c : β → Ordering,
      find_lower_bound_index c ks .AllExcluded = (ks.length, .AllExcluded)) ∧
    (rangeElems (compC 2) .Excluded (compC 5) .AllIncluded
      (⟨some ⟨0, ([(1, 0), (2, 0), (3, 0), (4, 0)] : BNodeH ℕ ℕ 0)⟩, 4⟩ :
        BTreeMap ℕ ℕ)).head? = some (3, 0) ∧
    cursorKey
      (mapElems (⟨some ⟨0, ([(1, 0), (2, 0), (3, 0), (4, 0)] : BNodeH ℕ ℕ 0)⟩, 4⟩ :
        BTreeMap ℕ ℕ))
      (mapLowerBoundCursor (compC 2) .Excluded
        (⟨some ⟨0, ([(1, 0), (2, 0), (3, 0), (4, 0)] : BNodeH ℕ ℕ 0)⟩, 4⟩ :
          BTreeMap ℕ ℕ)) = some 3 := by
  refine ⟨?_, ?_, fun c => rfl, fun c => rfl, by decide, by decide⟩
  · simp only [find_lower_bound_index, hkv]
  · simp only [find_lower_bound_index, hkv]

theorem c5_lower_bound_index_witness :
    find_key_index (compC 2) [1, 2, 3, 4] 0 = .kv 1 ∧
    find_lower_bound_index (compC 2) [1, 2, 3, 4] .Included = (1, .AllExcluded) ∧
    find_lower_bound_index (compC 2) [1, 2, 3, 4] .Excluded = (2, .AllIncluded) := by
  have h := c5_lower_bound_index ℕ (compC 2) [1, 2, 3, 4] 1 (by decide)
  exact ⟨by decide, h.1, h.2.1⟩

/-- C6: `split_off` with a comparator locating an edge leaves the elements
the comparator orders the target strictly after in the original and moves
the rest to the returned map; the two lengths sum to the original and both
results satisfy the full map invariant.  Splitting `{1, 2, 3, 17, 41}` at
key `3` leaves `{1, 2}` and returns `{3, 17, 41}`. -/
theorem c6_split_off (comp : α → Ordering) (m : BTreeMap α V) (hw : WfMap m) :
    (mapElems (mapSplitOff comp m).1 =
      (mapElems m).takeWhile (fun e => comp e.1 == .gt) ∧
    mapElems (mapSplitOff comp m).2 =
      (mapElems m).dropWhile (fun e => comp e.1 == .gt) ∧
    mapElems (mapSplitOff comp m).1 ++ mapElems (mapSplitOff comp m).2 =
      mapElems m ∧
    mapLen (mapSplitOff comp m).1 + mapLen (mapSplitOff comp m).2 = mapLen m ∧
    WfMap (mapSplitOff comp m).1 ∧ WfMap (mapSplitOff comp m).2) ∧
    mapElems (mapSplitOff (compC 3)
      (⟨some ⟨0, ([(1, 0), (2, 0), (3, 0), (17, 0), (41, 0)] : BNodeH ℕ ℕ 0)⟩, 5⟩ :
        BTreeMap ℕ ℕ)).1 = [(1, 0), (2, 0)] ∧
    mapElems (mapSplitOff (compC 3)
      (⟨some ⟨0, ([(1, 0), (2, 0), (3, 0), (17, 0), (41, 0)] : BNodeH ℕ ℕ 0)⟩, 5⟩ :
        BTreeMap ℕ ℕ)).2 = [(3, 0), (17, 0), (41, 0)] := by
  refine ⟨?_, by decide, by decide⟩
  by_cases hemp : mapIsEmpty m
  · have hlen0 : m.length = 0 := by
      simpa [mapIsEmpty, mapLen] using hemp
    have hel : mapElems m = [] := by
      have := hw.2.2
      rw [hlen0] at this
      exact (List.length_eq_zero.mp this.symm)
    have hsp : mapSplitOff comp m = (m, emptyMap) := by
      simp only [mapSplitOff, if_pos hemp]
    rw [hsp]
    refine ⟨?_, ?_, ?_, ?_, hw, WfMap_empty⟩
    · show mapElems m = (mapElems m).takeWhile _
      rw [hel]
      rfl
    · show mapElems (emptyMap : BTreeMap α V) = (mapElems m).dropWhile _
      rw [hel]
      rfl
    · show mapElems m ++ mapElems (emptyMap : BTreeMap α V) = mapElems m
      rw [hel]
      rfl
    show m.length + 0 = m.length
    omega
  · have hsp : mapSplitOff comp m =
        (treeOfList ((mapElems m).takeWhile (fun e => comp e.1 == .gt)),
         treeOfList ((mapElems m).dropWhile (fun e => comp e.1 == .gt))) := by
      simp only [mapSplitOff, if_neg hemp]
    rw [hsp]
    have hstw : KSorted ((mapElems m).takeWhile (fun e => comp e.1 == .gt)) :=
      List.Pairwise.sublist (List.takeWhile_sublist _) hw.2.1
    have hsdw : KSorted ((mapElems m).dropWhile (fun e => comp e.1 == .gt)) :=
      List.Pairwise.sublist (List.dropWhile_sublist _) hw.2.1
    obtain ⟨he1, hw1⟩ := treeOfList_spec _ hstw
    obtain ⟨he2, hw2⟩ := treeOfList_spec _ hsdw
    refine ⟨he1, he2, ?_, ?_, hw1, hw2⟩
    · rw [he1, he2]
      exact List.takeWhile_append_dropWhile ..
    · show (treeOfList ((mapElems m).takeWhile (fun e => comp e.1 == .gt))).length +
        (treeOfList ((mapElems m).dropWhile (fun e => comp e.1 == .gt))).length =
        m.length
      rw [hw1.2.2, hw2.2.2, he1, he2, hw.2.2]
      rw [← List.length_append, List.takeWhile_append_dropWhile]

theorem c6_split_off_witness :
    mapElems (mapSplitOff (fun y => compC 3 y)
      (⟨some ⟨0, ([(1, 0), (2, 0), (3, 0), (17, 0), (41, 0)] : BNodeH ℕ ℕ 0)⟩, 5⟩ :
        BTreeMap ℕ ℕ)).1 ++
    mapElems (mapSplitOff (fun y => compC 3 y)
      (⟨some ⟨0, ([(1, 0), (2, 0), (3, 0), (17, 0), (41, 0)] : BNodeH ℕ ℕ 0)⟩, 5⟩ :
        BTreeMap ℕ ℕ)).2 =
      mapElems (⟨some ⟨0, ([(1, 0), (2, 0), (3, 0), (17, 0), (41, 0)] : BNodeH ℕ ℕ 0)⟩, 5⟩ :
        BTreeMap ℕ ℕ) ∧
    mapLen (mapSplitOff (fun y => compC 3 y)
      (⟨some ⟨0, ([(1, 0), (2, 0), (3, 0), (17, 0), (41, 0)] : BNodeH ℕ ℕ 0)⟩, 5⟩ :
        BTreeMap ℕ ℕ)).1 +
    mapLen (mapSplitOff (fun y => compC 3 y)
      (⟨some ⟨0, ([(1, 0), (2, 0), (3, 0), (17, 0), (41, 0)] : BNodeH ℕ ℕ 0)⟩, 5⟩ :
        BTreeMap ℕ ℕ)).2 =
      mapLen (⟨some ⟨0, ([(1, 0), (2, 0), (3, 0), (17, 0), (41, 0)] : BNodeH ℕ ℕ 0)⟩, 5⟩ :
        BTreeMap ℕ ℕ) := by
  have h := (c6_split_off (fun y => compC 3 y)
    (⟨some ⟨0, ([(1, 0), (2, 0), (3, 0), (17, 0), (41, 0)] : BNodeH ℕ ℕ 0)⟩, 5⟩ :
      BTreeMap ℕ ℕ)
    (WfMap_leafRoot [(1, 0), (2, 0), (3, 0), (17, 0), (41, 0)]
      (by show List.Pairwise _ _; decide) (by decide))).1
  exact ⟨h.2.2.1, h.2.2.2.1⟩

/-- C7: `append`'s early returns: when `other` is empty both maps are
returned unchanged; when `self` is empty and `other` is not, `self` ends up
with exactly `other`'s elements; in every case `other` is empty afterwards. -/
theorem c7_append_empty_cases (megaComp : (α × V) → (α × V) → Ordering)
    (self other : BTreeMap α V) (hself : WfMap self) (hother : WfMap other) :
    (mapIsEmpty other = true → mapAppend megaComp self other = (self, other)) ∧
    (mapIsEmpty self = true → mapIsEmpty other = false →
      mapElems (mapAppend megaComp self other).1 = mapElems other) ∧
    mapElems (mapAppend megaComp self other).2 = [] ∧
    mapLen (mapAppend megaComp self other).2 = 0 := by
  have hempty_elems : ∀ (x : BTreeMap α V), WfMap x → mapIsEmpty x = true →
      mapElems x = [] ∧ mapLen x = 0 := by
    intro x hx hex
    have hlen0 : x.length = 0 := by simpa [mapIsEmpty, mapLen] using hex
    have hel : mapElems x = [] := by
      have h2 := hx.2.2
      rw [hlen0] at h2
      exact List.length_eq_zero.mp h2.symm
    exact ⟨hel, hlen0⟩
  refine ⟨?_, ?_, ?_, ?_⟩
  · intro hoe
    simp only [mapAppend, if_pos hoe]
  · intro hse hoe
    simp only [mapAppend, hoe, if_pos hse, Bool.false_eq_true, if_false]
  · by_cases hoe : mapIsEmpty other
    · rw [(by simp only [mapAppend, if_pos hoe] :
        mapAppend megaComp self other = (self, other))]
      exact (hempty_elems other hother hoe).1
    · by_cases hse : mapIsEmpty self
      · rw [(by simp only [mapAppend, if_neg hoe, if_pos hse] :
          mapAppend megaComp self other = (other, self))]
        exact (hempty_elems self hself hse).1
      · rw [(by simp only [mapAppend, if_neg hoe, if_neg hse] :
          mapAppend megaComp self other =
            (treeOfList (mergeKeyLists megaComp (mapElems self) (mapElems other)),
             emptyMap))]
        rfl
  · by_cases hoe : mapIsEmpty other
    · rw [(by simp only [mapAppend, if_pos hoe] :
        mapAppend megaComp self other = (self, other))]
      exact (hempty_elems other hother hoe).2
    · by_cases hse : mapIsEmpty self
      · rw [(by simp only [mapAppend, if_neg hoe, if_pos hse] :
          mapAppend megaComp self other = (other, self))]
        exact (hempty_elems self hself hse).2
      · rw [(by simp only [mapAppend, if_neg hoe, if_neg hse] :
          mapAppend megaComp self other =
            (treeOfList (mergeKeyLists megaComp (mapElems self) (mapElems other)),
             emptyMap))]
        rfl

theorem c7_append_empty_cases_witness :
    mapIsEmpty (emptyMap : BTreeMap ℕ ℕ) = true ∧
    mapAppend (fun p q => compare p.1 q.1)
      (⟨some ⟨0, ([(1, 0)] : BNodeH ℕ ℕ 0)⟩, 1⟩ : BTreeMap ℕ ℕ) emptyMap =
      (⟨some ⟨0, ([(1, 0)] : BNodeH ℕ ℕ 0)⟩, 1⟩, emptyMap) ∧
    mapElems (mapAppend (fun p q => compare p.1 q.1)
      (⟨some ⟨0, ([(1, 0)] : BNodeH ℕ ℕ 0)⟩, 1⟩ : BTreeMap ℕ ℕ) emptyMap).2 = [] := by
  have h := c7_append_empty_cases (fun p q => compare p.1 q.1)
    (⟨some ⟨0, ([(1, 0)] : BNodeH ℕ ℕ 0)⟩, 1⟩ : BTreeMap ℕ ℕ) emptyMap
    (WfMap_leafRoot [(1, 0)] (by show List.Pairwise _ _; decide) (by decide)) WfMap_empty
  exact ⟨by decide, h.1 (by decide), h.2.2.1⟩

/-- C8: cursor navigation on a non-empty tree is circular through one ghost
position: from the first element, `move_prev` then `move_next` returns to
it; `move_next` from the ghost position lands on the first element;
`move_next` from the last element reaches the ghost, and one further
`move_next` wraps to the first element again. -/
theorem c8_cursor_ghost_circularity (m : BTreeMap α V) (hne : mapElems m ≠ []) :
    cursorMoveNext (mapElems m) (cursorMovePrev (mapElems m) (some 0)) = some 0 ∧
    cursorMoveNext (mapElems m) none = some 0 ∧
    cursorMoveNext (mapElems m) (some ((mapElems m).length - 1)) = none ∧
    cursorMoveNext (mapElems m)
      (cursorMoveNext (mapElems m) (some ((mapElems m).length - 1))) = some 0 := by
  have hlen : 0 < (mapElems m).length := List.length_pos.mpr hne
  have hemp : (mapElems m).isEmpty = false := by
    rcases hel : mapElems m with - | ⟨e, tl⟩
    · exact absurd hel hne
    · rfl
  have hghost : cursorMoveNext (mapElems m) none = some 0 := by
    simp [cursorMoveNext, hemp]
  have hlast : cursorMoveNext (mapElems m) (some ((mapElems m).length - 1)) = none := by
    have hcond : ¬ ((mapElems m).length - 1 + 1 < (mapElems m).length) := by omega
    simp only [cursorMoveNext, if_neg hcond]
  refine ⟨?_, hghost, hlast, ?_⟩
  · show cursorMoveNext (mapElems m) (if 0 = 0 then none else some (0 - 1)) = some 0
    rw [if_pos rfl]
    exact hghost
  · rw [hlast]
    exact hghost

theorem c8_cursor_ghost_circularity_witness :
    mapElems (⟨some ⟨0, ([(1, 0), (2, 0)] : BNodeH ℕ ℕ 0)⟩, 2⟩ : BTreeMap ℕ ℕ) ≠ [] ∧
    cursorMoveNext
      (mapElems (⟨some ⟨0, ([(1, 0), (2, 0)] : BNodeH ℕ ℕ 0)⟩, 2⟩ : BTreeMap ℕ ℕ))
      none = some 0 ∧
    cursorMoveNext
      (mapElems (⟨some ⟨0, ([(1, 0), (2, 0)] : BNodeH ℕ ℕ 0)⟩, 2⟩ : BTreeMap ℕ ℕ))
      (some ((mapElems (⟨some ⟨0, ([(1, 0), (2, 0)] : BNodeH ℕ ℕ 0)⟩, 2⟩ :
        BTreeMap ℕ ℕ)).length - 1)) = none := by
  have h := c8_cursor_ghost_circularity
    (⟨some ⟨0, ([(1, 0), (2, 0)] : BNodeH ℕ ℕ 0)⟩, 2⟩ : BTreeMap ℕ ℕ) (by decide)
  exact ⟨by decide, h.2.1, h.2.2.1⟩

/-- C9 (corrected): with the stored length equal to the traversal length
(the working invariant), a map is empty — length zero, no traversable
elements — if and only if it has **no root or its root is the empty leaf**:
removals never deallocate the root, so "empty ⇔ no root" fails on reachable
states (see the counterexample theorem); `map.rs` itself documents both
representations of the empty map. -/
theorem c9_empty_iff_rootless_or_empty_leaf (m : BTreeMap α V) (hw : WfMap m) :
    (mapLen m = 0 ↔ mapElems m = []) ∧
    (mapElems m = [] ↔
      (m.root = none ∨ m.root = some ⟨0, ([] : BNodeH α V 0)⟩)) := by
  constructor
  · show m.length = 0 ↔ _
    rw [hw.2.2]
    exact List.length_eq_zero
  · constructor
    · intro hel
      obtain ⟨root, len⟩ := m
      cases root with
      | none => exact Or.inl rfl
      | some r =>
        obtain ⟨h, t⟩ := r
        have hwr : wfRoot h t = true := hw.1 h t rfl
        have hel' : inorder h t = [] := hel
        cases h with
        | zero =>
          right
          show _ = some ⟨0, ([] : BNodeH α V 0)⟩
          rw [show (t : List (α × V)) = [] from hel']
        | succ h =>
          obtain ⟨c0, rest⟩ := t
          obtain ⟨h1, -, -, -⟩ := wfRoot_succ_iff.mp hwr
          rw [inorder_succ] at hel'
          rcases rest with - | ⟨q, rtl⟩
          · simp at h1
          · rw [flatF_cons] at hel'
            simp at hel'
    · intro hroot
      rcases hroot with hroot | hroot
      · show (match m.root with
          | none => []
          | some ⟨h, t⟩ => inorder h t) = []
        rw [hroot]
      · show (match m.root with
          | none => []
          | some ⟨h, t⟩ => inorder h t) = []
        rw [hroot]
        rfl

theorem c9_empty_iff_witness :
    mapLen (emptyMap : BTreeMap ℕ ℕ) = 0 ↔ mapElems (emptyMap : BTreeMap ℕ ℕ) = [] :=
  (c9_empty_iff_rootless_or_empty_leaf emptyMap WfMap_empty).1

/-- C9, counterexample to the claim as stated: inserting key `1` and then
removing it yields a reachable map that is empty — length `0` and no
traversable elements — but still has a root node (the emptied leaf), so
"empty ⇔ no root" does not hold for every reachable state. -/
theorem c9_empty_map_with_root_counterexample :
    mapLen (applyOps (emptyMap : BTreeMap ℕ ℕ) [.insert 1 10, .remove 1]) = 0 ∧
    mapElems (applyOps (emptyMap : BTreeMap ℕ ℕ) [.insert 1 10, .remove 1]) = [] ∧
    (applyOps (emptyMap : BTreeMap ℕ ℕ) [.insert 1 10, .remove 1]).root.isSome = true := by
  decide

/-- C10: at the ghost position of a non-empty tree, the mutating cursor's
`peek_prev` reads the *first* element (`first_leaf_edge().next_kv()` in the
ghost branch of `CursorMut::peek_prev`), the very pair its `peek_next`
returns there, while the read-only cursor's `peek_prev` reads the *last*
element. -/
theorem c10_ghost_peek_prev (m : BTreeMap α V) (hne : mapElems m ≠ []) :
    cursorMutPeekPrev (mapElems m) none = (mapElems m).head? ∧
    cursorMutPeekPrev (mapElems m) none = cursorMutPeekNext (mapElems m) none ∧
    cursorPeekPrev (mapElems m) none = (mapElems m).getLast? := by
  have hlen : 0 < (mapElems m).length := List.length_pos.mpr hne
  have hemp : (mapElems m).isEmpty = false := by
    rcases hel : mapElems m with - | ⟨e, tl⟩
    · exact absurd hel hne
    · rfl
  refine ⟨rfl, rfl, ?_⟩
  show (match cursorMovePrev (mapElems m) none with
    | none => none
    | some i => (mapElems m)[i]?) = _
  simp only [cursorMovePrev, hemp, Bool.false_eq_true, if_false]
  rw [List.getLast?_eq_getElem?]

theorem c10_ghost_peek_prev_witness :
    mapElems (⟨some ⟨0, ([(1, 0), (2, 0)] : BNodeH ℕ ℕ 0)⟩, 2⟩ : BTreeMap ℕ ℕ) ≠ [] ∧
    cursorMutPeekPrev
      (mapElems (⟨some ⟨0, ([(1, 0), (2, 0)] : BNodeH ℕ ℕ 0)⟩, 2⟩ : BTreeMap ℕ ℕ))
      none =
      (mapElems (⟨some ⟨0, ([(1, 0), (2, 0)] : BNodeH ℕ ℕ 0)⟩, 2⟩ :
        BTreeMap ℕ ℕ)).head? ∧
    cursorPeekPrev
      (mapElems (⟨some ⟨0, ([(1, 0), (2, 0)] : BNodeH ℕ ℕ 0)⟩, 2⟩ : BTreeMap ℕ ℕ))
      none =
      (mapElems (⟨some ⟨0, ([(1, 0), (2, 0)] : BNodeH ℕ ℕ 0)⟩, 2⟩ :
        BTreeMap ℕ ℕ)).getLast? := by
  have h := c10_ghost_peek_prev
    (⟨some ⟨0, ([(1, 0), (2, 0)] : BNodeH ℕ ℕ 0)⟩, 2⟩ : BTreeMap ℕ ℕ) (by decide)
  exact ⟨by decide, h.1, h.2.2⟩

end Claims

end BTreeVerify
